import Mathlib

/-!
The Go resource monitor of cgroup-behavior-lab (`src/go/main.go`).

A shallow embedding of the metric extractors and the two formatting helpers of
`main.go`, followed by the properties established about them.

Modelling conventions.

* A Go `string` read from a cgroup file is a Lean `String`, i.e. a sequence of
  Unicode code points (the files are text; `strings.TrimSpace` and
  `strings.Fields` decode the bytes into runes before testing them).
* A file is an `Option String`: `none` is a failed `ioutil.ReadFile`.
* What an extractor prints is the list of the texts of its `Printf`/`Println`
  calls, in order, each without its final newline.
* `int64` and `uint64` values are `Int` and `Nat`; the parsers enforce the
  ranges and the one place where arithmetic could wrap reduces modulo `2 ^ 64`.
* A run-time panic (index out of range) is the `none` of an `Option`.
* `float64` values are modelled exactly: a finite value is a sign, a natural
  significand and a binary exponent, conversions and division round to nearest
  with ties to even on 53 significant bits, and `%.2f` rounds the exact binary
  value to two decimals with ties to even, as `strconv` does.  Every value that
  occurs is a quotient of two 64-bit integers, well inside the normal range of
  binary64, so neither overflow nor gradual underflow is modelled.
-/

namespace CgroupLab

/-! ## The Go standard library functions used by `main.go` -/

/-- Go `unicode.IsSpace`: the white space characters of Unicode. -/
def isSpace (c : Char) : Bool :=
  let n := c.toNat
  n == 0x09 || n == 0x0A || n == 0x0B || n == 0x0C || n == 0x0D || n == 0x20 ||
  n == 0x85 || n == 0xA0 || n == 0x1680 || (0x2000 ≤ n && n ≤ 0x200A) ||
  n == 0x2028 || n == 0x2029 || n == 0x202F || n == 0x205F || n == 0x3000

/-- Characters of `strings.TrimSpace`: leading and trailing white space removed. -/
def trimSpaceChars (s : List Char) : List Char :=
  ((s.dropWhile isSpace).reverse.dropWhile isSpace).reverse

/-- Go `strings.TrimSpace`. -/
def TrimSpace (s : String) : String := String.mk (trimSpaceChars s.data)

/-- Characters of `strings.Fields`: the maximal runs of non-space characters. -/
def fieldsChars (s : List Char) : List (List Char) :=
  (s.splitOnP isSpace).filter (fun t => !t.isEmpty)

/-- Go `strings.Fields`. -/
def Fields (s : String) : List String := (fieldsChars s.data).map String.mk

/-- Go `strings.Split(s, sep)` for a separator of one character. -/
def Split (s : String) (sep : Char) : List String := (s.data.splitOn sep).map String.mk

/-- Go `strings.HasPrefix`. -/
def HasPrefix (s p : String) : Bool := p.data.isPrefixOf s.data

/-- Digit loop of `strconv.ParseUint(s, 10, 64)`: a character that is not an
ASCII digit is a syntax error, a value of `2 ^ 64` or more a range error. -/
def parseDigits : Nat → List Char → Option Nat
  | acc, [] => some acc
  | acc, c :: cs =>
    if '0' ≤ c ∧ c ≤ '9' then
      let v := acc * 10 + (c.toNat - 48)
      if v < 2 ^ 64 then parseDigits v cs else none
    else none

/-- Characters of `strconv.ParseUint(s, 10, 64)`; `none` is any error. -/
def parseUintChars (s : List Char) : Option Nat :=
  if s = [] then none else parseDigits 0 s

/-- Go `strconv.ParseUint(s, 10, 64)`; `none` is a non-nil error. -/
def ParseUint (s : String) : Option Nat := parseUintChars s.data

/-- Magnitude check of `strconv.ParseInt(s, 10, 64)` after the sign is cut. -/
def parseIntMagnitude (neg : Bool) (s : List Char) : Option Int :=
  match parseUintChars s with
  | none => none
  | some un =>
    if neg then (if un > 2 ^ 63 then none else some (-(un : Int)))
    else (if un ≥ 2 ^ 63 then none else some (un : Int))

/-- Characters of `strconv.ParseInt(s, 10, 64)`: an optional sign, then digits. -/
def parseIntChars (s : List Char) : Option Int :=
  match s with
  | [] => none
  | c :: cs =>
    if c = '+' then parseIntMagnitude false cs
    else if c = '-' then parseIntMagnitude true cs
    else parseIntMagnitude false (c :: cs)

/-- Go `strconv.ParseInt(s, 10, 64)`; `none` is a non-nil error. -/
def ParseInt (s : String) : Option Int := parseIntChars s.data

/-- Go `strconv.FormatInt(n, 10)`, also what `%d` prints. -/
def FormatInt (n : Int) : String :=
  if n < 0 then "-" ++ Nat.repr n.natAbs else Nat.repr n.toNat

/-! ## binary64 arithmetic and `%.2f` -/

/-- Nearest integer to `n / d`, ties to the even one. -/
def roundHalfEven (n d : Nat) : Nat :=
  let q := n / d
  let r := n % d
  if 2 * r < d then q else if d < 2 * r then q + 1 else if q % 2 = 0 then q else q + 1

/-- Number of binary digits of `n`, by halving; the first argument bounds the
number of steps and `bitLen` starts it at `n`, which is always enough. -/
def bitLenAux : Nat → Nat → Nat
  | 0, _ => 0
  | fuel + 1, n => if n = 0 then 0 else 1 + bitLenAux fuel (n / 2)

/-- Number of binary digits of `n` (`0` for `0`). -/
def bitLen (n : Nat) : Nat := bitLenAux n n

/-- A value of type `float64`: `finite neg m e` is `(-1)^neg * m * 2^e`. -/
inductive F64 where
  | finite (neg : Bool) (mant : Nat) (exp : Int)
  | inf (neg : Bool)
  | nan
  deriving DecidableEq, Repr

/-- Floor of `n / (d * 2 ^ e)` for an integer exponent `e`. -/
def scaledFloor (n d : Nat) (e : Int) : Nat :=
  if 0 ≤ e then n / (d * 2 ^ e.toNat) else n * 2 ^ (-e).toNat / d

/-- Nearest integer, ties to even, to `n / (d * 2 ^ e)`. -/
def scaledRound (n d : Nat) (e : Int) : Nat :=
  if 0 ≤ e then roundHalfEven n (d * 2 ^ e.toNat) else roundHalfEven (n * 2 ^ (-e).toNat) d

/-- Exponent `e` of the unit in the last place of `n / d` (`n, d > 0`): the one
with `2 ^ 52 ≤ n / (d * 2 ^ e) < 2 ^ 53`. -/
def ulpExp (n d : Nat) : Int :=
  let e0 : Int := (bitLen n : Int) - (bitLen d : Int) - 53
  if 2 ^ 53 ≤ scaledFloor n d e0 then e0 + 1 else e0

/-- The binary64 value nearest to `(-1)^neg * n / d` (`d > 0`), ties to even. -/
def F64.round (neg : Bool) (n d : Nat) : F64 :=
  if n = 0 then F64.finite neg 0 0
  else F64.finite neg (scaledRound n d (ulpExp n d)) (ulpExp n d)

/-- Conversion `float64(n)` of an unsigned integer. -/
def F64.ofNat (n : Nat) : F64 := F64.round false n 1

/-- Conversion `float64(n)` of a signed integer. -/
def F64.ofInt (n : Int) : F64 := F64.round (decide (n < 0)) n.natAbs 1

/-- Division `a / b` of `float64`. -/
def F64.div : F64 → F64 → F64
  | F64.nan, _ => F64.nan
  | _, F64.nan => F64.nan
  | F64.inf _, F64.inf _ => F64.nan
  | F64.inf s, F64.finite t _ _ => F64.inf (xor s t)
  | F64.finite s _ _, F64.inf t => F64.finite (xor s t) 0 0
  | F64.finite s m e, F64.finite t m2 e2 =>
    if m2 = 0 then (if m = 0 then F64.nan else F64.inf (xor s t))
    else if e2 ≤ e then F64.round (xor s t) (m * 2 ^ (e - e2).toNat) m2
    else F64.round (xor s t) m (m2 * 2 ^ (e2 - e).toNat)

/-- The two characters of a number below one hundred. -/
def twoDigits (h : Nat) : String :=
  String.mk [Nat.digitChar (h / 10), Nat.digitChar (h % 10)]

/-- What `%.2f` prints: the value rounded to hundredths, ties to even. -/
def F64.fmt2 : F64 → String
  | F64.nan => "NaN"
  | F64.inf s => if s then "-Inf" else "+Inf"
  | F64.finite s m e =>
    let h := scaledRound (m * 100) 1 (-e)
    (if s then "-" else "") ++ Nat.repr (h / 100) ++ "." ++ twoDigits (h % 100)

/-! ## Formatting helpers of `main.go` -/

/-- The loop of `formatBytes`:
`for n := bytes / unit; n >= unit; n /= unit { div *= unit; exp++ }`. -/
def formatBytesLoop (n div exp : Nat) : Nat × Nat :=
  if 1024 ≤ n then formatBytesLoop (n / 1024) (div * 1024 % 2 ^ 64) (exp + 1)
  else (div, exp)
termination_by n
decreasing_by omega

/-- The loop of `formatBytes` on unbounded integers: the same statements with
no reduction of `div` modulo `2 ^ 64`. -/
def formatBytesLoopExact (n div exp : Nat) : Nat × Nat :=
  if 1024 ≤ n then formatBytesLoopExact (n / 1024) (div * 1024) (exp + 1)
  else (div, exp)
termination_by n
decreasing_by omega

/-- The function `formatBytes(bytes uint64) string`; `none` would be the panic
of the index expression `"KMGTPE"[exp]`. -/
def formatBytes (bytes : Nat) : Option String :=
  if bytes < 1024 then some (Nat.repr bytes ++ " B")
  else
    let r := formatBytesLoop (bytes / 1024) 1024 0
    match "KMGTPE".data.get? r.2 with
    | none => none
    | some c =>
      some (F64.fmt2 (F64.div (F64.ofNat bytes) (F64.ofNat r.1)) ++ " " ++
        String.singleton c ++ "B")

/-- Assignment `out[j] = c` on a byte slice; `none` is the panic of an index
out of range. -/
def setByte (out : List Char) (j : Int) (c : Char) : Option (List Char) :=
  if 0 ≤ j ∧ j < (out.length : Int) then some (out.set j.toNat c) else none

/-- The loop of `formatNumber`, entered with the read index `i`, the write index
`j` and the group counter `k`:
`for ...; ; i, j = i-1, j-1 { out[j] = in[i]; if i == 0 { return }; if k++; k == 3 { j, k = j-1, 0; out[j] = ',' } }`. -/
def formatNumberLoop (inp : List Char) : Nat → Int → Nat → List Char → Option (List Char)
  | 0, j, _, out =>
    match inp.get? 0 with
    | none => none
    | some c => setByte out j c
  | i + 1, j, k, out =>
    match inp.get? (i + 1) with
    | none => none
    | some c =>
      match setByte out j c with
      | none => none
      | some out1 =>
        if k + 1 = 3 then
          match setByte out1 (j - 1) ',' with
          | none => none
          | some out2 => formatNumberLoop inp i (j - 1 - 1) 0 out2
        else formatNumberLoop inp i (j - 1) (k + 1) out1

/-- The function `formatNumber(n int64) string`; `none` would be a panic of one
of its index expressions. -/
def formatNumber (n : Int) : Option String :=
  let in0 := (FormatInt n).data
  let numOfDigits : Int := if n < 0 then (in0.length : Int) - 1 else (in0.length : Int)
  let numOfCommas : Int := Int.tdiv (numOfDigits - 1) 3
  if (in0.length : Int) + numOfCommas < 0 then none
  else
    let out0 : List Char := List.replicate ((in0.length : Int) + numOfCommas).toNat (Char.ofNat 0)
    let st : Option (List Char × List Char) :=
      if n < 0 then
        (if 1 ≤ in0.length then (setByte out0 0 '-').map (fun o => (in0.drop 1, o)) else none)
      else some (in0, out0)
    match st with
    | none => none
    | some (in1, out1) =>
      if in1.length = 0 then none
      else
        (formatNumberLoop in1 (in1.length - 1) ((out1.length : Int) - 1) 0 out1).map String.mk

/-- Reversed digits with a comma after every complete group of three that is
followed by a further digit. -/
def groupRev : List Char → List Char
  | a :: b :: c :: d :: rest => a :: b :: c :: ',' :: groupRev (d :: rest)
  | l => l

/-- Thousands grouping as the specification words it: a comma between each
group of three digits, the groups counted from the right. -/
def groupThousands (ds : List Char) : List Char := (groupRev ds.reverse).reverse

/-- The specification of `formatNumber`: the sign, then the digits of the
magnitude grouped in threes. -/
def formatNumberSpec (n : Int) : String :=
  if n < 0 then String.mk ('-' :: groupThousands (Nat.repr n.natAbs).data)
  else String.mk (groupThousands (Nat.repr n.toNat).data)

/-- Reversed digits grouped as the loop of `formatNumber` does it, entered
with `k` digits already in the current group. -/
def groupRevFrom : Nat → List Char → List Char
  | _, [] => []
  | _, [a] => [a]
  | k, a :: b :: r =>
    if k + 1 = 3 then a :: ',' :: groupRevFrom 0 (b :: r)
    else a :: groupRevFrom (k + 1) (b :: r)

/-- The suffix ladder of `formatBytes`. -/
def unitLadder : List String := ["B", "KB", "MB", "GB", "TB", "PB", "EB"]

/-- The magnitude unit of a formatted byte quantity: the text after its last space. -/
def unitOf (s : String) : String :=
  String.mk (s.data.reverse.takeWhile (fun c => c ≠ ' ')).reverse

/-- Position of the unit of a formatted byte quantity in the ladder. -/
def unitPosition (s : String) : Option Nat :=
  unitLadder.findIdx? (fun u => u = unitOf s)

/-- A blob made of the given lines: the lines separated by newline characters. -/
def joinLines (ls : List String) : String :=
  String.mk (['\n'].intercalate (ls.map String.data))

/-! ## Reading files -/

/-- The function `readStringFromFile`: the content, or the read error. -/
def readStringFromFile (file : Option String) : Option String := file

/-- The function `readInt64FromFile`: the trimmed content parsed as a decimal
`int64`; `none` is a non-nil error (the Go value returned with it is `0`). -/
def readInt64FromFile (file : Option String) : Option Int :=
  match readStringFromFile file with
  | none => none
  | some content => ParseInt (TrimSpace content)

/-- Conversion `uint64(v)` of an `int64`. -/
def toUint64 (v : Int) : Nat := (v % 2 ^ 64).toNat

/-! ## CPU extractors -/

/-- A line `label ++ "%d"` printed when the read succeeded (`err == nil`). -/
def intLine (label : String) (r : Option Int) : List String :=
  match r with
  | some v => [label ++ FormatInt v]
  | none => []

/-- The `CPU Limit` part of `printCPUInfoV1`, on the values of the variables
`quota` and `period` (each `0` after a failed read). -/
def cpuLimitV1 (quota period : Int) : List String :=
  if 0 < quota ∧ 0 < period then
    ["  CPU Limit: " ++ F64.fmt2 (F64.div (F64.ofInt quota) (F64.ofInt period)) ++ " cores"]
  else if quota = -1 then ["  CPU Limit: unlimited"]
  else []

/-- The function `printCPUInfoV1`, on the contents of `cpu.cfs_quota_us`,
`cpu.cfs_period_us` and `cpuacct.usage`. -/
def printCPUInfoV1 (quotaFile periodFile usageFile : Option String) : Option (List String) :=
  let rq := readInt64FromFile quotaFile
  let quota : Int := rq.getD 0
  let out1 : List String := intLine "  cgroup v1 cpu.cfs_quota_us: " rq
  let rp := readInt64FromFile periodFile
  let period : Int := rp.getD 0
  let out2 : List String := intLine "  cgroup v1 cpu.cfs_period_us: " rp
  let out3 : List String := cpuLimitV1 quota period
  match readInt64FromFile usageFile with
  | none => some (out1 ++ out2 ++ out3)
  | some usage =>
    match formatNumber usage with
    | none => none
    | some s => some (out1 ++ out2 ++ out3 ++ ["  Total CPU usage (nanoseconds): " ++ s])

/-- The `CPU Limit` part of `printCPUInfoV2`, on the fields of `cpu.max`. -/
def cpuLimitV2 (parts : List String) : List String :=
  match parts with
  | [p0, p1] =>
    if p0 = "max" then ["  CPU Limit: unlimited"]
    else
      match ParseInt p0, ParseInt p1 with
      | some quota, some period =>
        if 0 < period then
          ["  CPU Limit: " ++ F64.fmt2 (F64.div (F64.ofInt quota) (F64.ofInt period)) ++ " cores"]
        else []
      | _, _ => []
  | _ => []

/-- The function `printCPUInfoV2`, on the contents of `cpu.max` and `cpu.stat`. -/
def printCPUInfoV2 (cpuMaxFile cpuStatFile : Option String) : List String :=
  let out1 : List String :=
    match readStringFromFile cpuMaxFile with
    | none => []
    | some content =>
      ["  cgroup v2 cpu.max: " ++ TrimSpace content] ++ cpuLimitV2 (Fields content)
  let out2 : List String :=
    match readStringFromFile cpuStatFile with
    | none => []
    | some content =>
      ["  cgroup v2 cpu.stat:"] ++
        (((Split content '\n').map TrimSpace).filter (fun line => line ≠ "")).map
          (fun line => "    " ++ line)
  out1 ++ out2

/-! ## Memory extractors -/

/-- Whether a trimmed stat line starts with one of the keys followed by a space. -/
def hasKeyPrefix (keys : List String) (line : String) : Bool :=
  keys.any (fun k => HasPrefix line (k ++ " "))

/-- Body of the loop over the lines of `memory.stat`: what one line prints. -/
def statLine (keys : List String) (rawLine : String) : Option (List String) :=
  let line := TrimSpace rawLine
  if hasKeyPrefix keys line then
    match Fields line with
    | [p0, p1] =>
      match ParseUint p1 with
      | none => some []
      | some value =>
        match formatBytes value with
        | none => none
        | some s => some ["    " ++ p0 ++ ": " ++ s]
    | _ => some []
  else some []

/-- The loop over the lines of `memory.stat`, in order. -/
def statLines (keys : List String) : List String → Option (List String)
  | [] => some []
  | l :: ls =>
    match statLine keys l with
    | none => none
    | some a =>
      match statLines keys ls with
      | none => none
      | some b => some (a ++ b)

/-- Keys selected from the v1 `memory.stat`. -/
def keysV1 : List String := ["cache", "rss", "mapped_file", "inactive_anon"]

/-- Keys selected from the v2 `memory.stat`. -/
def keysV2 : List String := ["anon", "file", "kernel_stack", "slab"]

/-- The `memory.stat` block common to both memory extractors. -/
def memStatBlock (header : String) (keys : List String) (statFile : Option String) :
    Option (List String) :=
  match readStringFromFile statFile with
  | none => some []
  | some content => (statLines keys (Split content '\n')).map (fun ls => header :: ls)

/-- A line `label ++ formatBytes(uint64(v))` for a value read by `readInt64FromFile`. -/
def bytesLine (label : String) (file : Option String) : Option (List String) :=
  match readInt64FromFile file with
  | none => some []
  | some v => (formatBytes (toUint64 v)).map (fun s => [label ++ s])

/-- The limit block of `printMemoryInfoV1`. -/
def memLimitV1 (limitFile : Option String) : Option (List String) :=
  match readInt64FromFile limitFile with
  | none => some []
  | some limit =>
    if 2 ^ 60 < limit then some ["  cgroup v1 memory.limit_in_bytes: unlimited"]
    else (formatBytes (toUint64 limit)).map (fun s => ["  cgroup v1 memory.limit_in_bytes: " ++ s])

/-- Sequencing of three printing blocks, any of which may panic. -/
def seq3 (a b c : Option (List String)) : Option (List String) :=
  match a, b, c with
  | some x, some y, some z => some (x ++ y ++ z)
  | _, _, _ => none

/-- The function `printMemoryInfoV1`, on the contents of `memory.limit_in_bytes`,
`memory.usage_in_bytes` and `memory.stat`. -/
def printMemoryInfoV1 (limitFile usageFile statFile : Option String) : Option (List String) :=
  seq3 (memLimitV1 limitFile)
    (bytesLine "  cgroup v1 memory.usage_in_bytes: " usageFile)
    (memStatBlock "  cgroup v1 memory.stat (selected):" keysV1 statFile)

/-- The limit block of `printMemoryInfoV2`. -/
def memMaxV2 (maxFile : Option String) : Option (List String) :=
  match readStringFromFile maxFile with
  | none => some []
  | some content0 =>
    let content := TrimSpace content0
    if content = "max" then some ["  cgroup v2 memory.max: unlimited"]
    else
      match ParseUint content with
      | none => some []
      | some value => (formatBytes value).map (fun s => ["  cgroup v2 memory.max: " ++ s])

/-- The function `printMemoryInfoV2`, on the contents of `memory.max`,
`memory.current` and `memory.stat`. -/
def printMemoryInfoV2 (maxFile currentFile statFile : Option String) : Option (List String) :=
  seq3 (memMaxV2 maxFile)
    (bytesLine "  cgroup v2 memory.current: " currentFile)
    (memStatBlock "  cgroup v2 memory.stat (selected):" keysV2 statFile)

/-! ## Version detection -/

/-- The type `CgroupVersion` with its two constants. -/
inductive CgroupVersion where
  | CgroupV1
  | CgroupV2
  deriving DecidableEq, Repr

/-- An error returned by `os.Stat`: the path does not exist, or anything else. -/
inductive StatError where
  | notExist
  | permission
  | other
  deriving DecidableEq, Repr

/-- The file system as `os.Stat` sees it: for each path, `none` when the call
succeeds (`err == nil`), or the error it returns. -/
def FileSystem := String → Option StatError

/-- The function `detectCgroupVersion`: one `os.Stat` on the v2 marker path. -/
def detectCgroupVersion (fs : FileSystem) : CgroupVersion :=
  match fs "/sys/fs/cgroup/cgroup.controllers" with
  | none => CgroupVersion.CgroupV2
  | some _ => CgroupVersion.CgroupV1

/-- The method `String` of `CgroupVersion`. -/
def cgroupVersionString (v : CgroupVersion) : String :=
  if v = CgroupVersion.CgroupV2 then "V2" else "V1"

/-! ## The copy loop of `formatNumber` with ghost state -/

/-- Assignment `out[j] = c` on a buffer whose cells also count how many times
they were written; `none` is the panic of an index out of range. -/
def setByteT (out : List (Char × Nat)) (j : Int) (c : Char) : Option (List (Char × Nat)) :=
  if 0 ≤ j ∧ j < (out.length : Int) then
    some (out.set j.toNat (c, (out.getD j.toNat (c, 0)).2 + 1))
  else none

/-- The loop of `formatNumber`, statement for statement as `formatNumberLoop`,
on the counting buffer and with the log of the read indices `i`. -/
def formatNumberLoopT (inp : List Char) :
    Nat → Int → Nat → List (Char × Nat) → List Nat → Option (List (Char × Nat) × List Nat)
  | 0, j, _, out, reads =>
    match inp.get? 0 with
    | none => none
    | some c => (setByteT out j c).map (fun o => (o, reads ++ [0]))
  | i + 1, j, k, out, reads =>
    match inp.get? (i + 1) with
    | none => none
    | some c =>
      match setByteT out j c with
      | none => none
      | some out1 =>
        if k + 1 = 3 then
          match setByteT out1 (j - 1) ',' with
          | none => none
          | some out2 => formatNumberLoopT inp i (j - 1 - 1) 0 out2 (reads ++ [i + 1])
        else formatNumberLoopT inp i (j - 1) (k + 1) out1 (reads ++ [i + 1])

/-- The function `formatNumber`, statement for statement as `formatNumber`, on
the counting buffer: it returns the cells of `out` with their write counts and
the log of the read indices. -/
def formatNumberT (n : Int) : Option (List (Char × Nat) × List Nat) :=
  let in0 := (FormatInt n).data
  let numOfDigits : Int := if n < 0 then (in0.length : Int) - 1 else (in0.length : Int)
  let numOfCommas : Int := Int.tdiv (numOfDigits - 1) 3
  if (in0.length : Int) + numOfCommas < 0 then none
  else
    let out0 : List (Char × Nat) :=
      List.replicate ((in0.length : Int) + numOfCommas).toNat (Char.ofNat 0, 0)
    let st : Option (List Char × List (Char × Nat)) :=
      if n < 0 then
        (if 1 ≤ in0.length then (setByteT out0 0 '-').map (fun o => (in0.drop 1, o)) else none)
      else some (in0, out0)
    match st with
    | none => none
    | some (in1, out1) =>
      if in1.length = 0 then none
      else formatNumberLoopT in1 (in1.length - 1) ((out1.length : Int) - 1) 0 out1 []

/-! ## Decimal digits -/

theorem digitChar_ne_comma (d : Nat) (h : d < 10) : Nat.digitChar d ≠ ',' := by
  interval_cases d <;> decide

theorem toDigitsCore_ne_nil (fuel n : Nat) (ds : List Char) (h : ds ≠ []) :
    Nat.toDigitsCore 10 fuel n ds ≠ [] := by
  induction fuel generalizing n ds with
  | zero => simpa [Nat.toDigitsCore] using h
  | succ f ih =>
    simp only [Nat.toDigitsCore]
    split
    · simp
    · exact ih _ _ (by simp)

theorem toDigitsCore_no_comma (fuel n : Nat) (ds : List Char) (h : ∀ c ∈ ds, c ≠ ',') :
    ∀ c ∈ Nat.toDigitsCore 10 fuel n ds, c ≠ ',' := by
  induction fuel generalizing n ds with
  | zero => simpa [Nat.toDigitsCore] using h
  | succ f ih =>
    have hd : Nat.digitChar (n % 10) ≠ ',' := digitChar_ne_comma _ (Nat.mod_lt _ (by decide))
    have hds : ∀ c ∈ Nat.digitChar (n % 10) :: ds, c ≠ ',' := by
      intro c hc
      rcases List.mem_cons.mp hc with rfl | hc
      · exact hd
      · exact h c hc
    simp only [Nat.toDigitsCore]
    split
    · exact hds
    · exact ih _ _ hds

theorem repr_data_ne_nil (n : Nat) : (Nat.repr n).data ≠ [] := by
  show Nat.toDigitsCore 10 (n + 1) n [] ≠ []
  simp only [Nat.toDigitsCore]
  split
  · simp
  · exact toDigitsCore_ne_nil _ _ _ (by simp)

theorem repr_data_no_comma (n : Nat) : ∀ c ∈ (Nat.repr n).data, c ≠ ',' :=
  toDigitsCore_no_comma _ _ _ (by simp)

/-! ## The loop of `formatNumber` against the grouping specification -/

theorem groupRevFrom_ne_nil (k : Nat) (l : List Char) (h : l ≠ []) : groupRevFrom k l ≠ [] := by
  match l, h with
  | [a], _ => simp [groupRevFrom]
  | a :: b :: r, _ =>
    simp only [groupRevFrom]
    split <;> simp

theorem setByte_append (rpre suf : List Char) (x c : Char) :
    setByte ((x :: rpre).reverse ++ suf) (((x :: rpre).length : Int) - 1) c
      = some (rpre.reverse ++ c :: suf) := by
  have hlen : (((x :: rpre).length : Int) - 1) = (rpre.reverse.length : Int) := by simp
  have hj : (((x :: rpre).length : Int) - 1).toNat = rpre.reverse.length := by
    rw [hlen]; simp
  unfold setByte
  rw [if_pos, hj]
  · simp [List.set_append_right]
  · constructor
    · rw [hlen]; exact Int.ofNat_nonneg _
    · simp

theorem take_succ_reverse (inp : List Char) (i : Nat) (c : Char)
    (h : inp.get? i = some c) : (inp.take (i + 1)).reverse = c :: (inp.take i).reverse := by
  have h1 : inp[i]? = some c := by simpa using h
  rw [List.take_succ, h1]
  simp

theorem formatNumberLoop_spec (inp : List Char) :
    ∀ (i k : Nat) (rpre suf : List Char), i < inp.length → k < 3 →
      (groupRevFrom k (inp.take (i + 1)).reverse).length ≤ rpre.length →
      formatNumberLoop inp i ((rpre.length : Int) - 1) k (rpre.reverse ++ suf)
        = some ((rpre.drop (groupRevFrom k (inp.take (i + 1)).reverse).length).reverse
            ++ (groupRevFrom k (inp.take (i + 1)).reverse).reverse ++ suf) := by
  intro i
  induction i with
  | zero =>
    intro k rpre suf hi hk hlen
    obtain ⟨c, hc⟩ : ∃ c, inp.get? 0 = some c := by
      cases inp with
      | nil => simp at hi
      | cons a t => exact ⟨a, rfl⟩
    have hrev := take_succ_reverse inp 0 c hc
    simp only [List.take_zero, List.reverse_nil] at hrev
    rw [hrev] at hlen ⊢
    simp only [groupRevFrom, List.length_singleton] at hlen ⊢
    cases rpre with
    | nil => simp at hlen
    | cons x r =>
      rw [formatNumberLoop, hc]
      simp only
      rw [setByte_append]
      simp
  | succ i ih =>
    intro k rpre suf hi hk hlen
    obtain ⟨c, hc⟩ : ∃ c, inp.get? (i + 1) = some c := by
      have : (i + 1) < inp.length := hi
      exact ⟨inp.get ⟨i + 1, this⟩, List.get?_eq_get this⟩
    obtain ⟨b, hb⟩ : ∃ b, inp.get? i = some b := by
      have : i < inp.length := by omega
      exact ⟨inp.get ⟨i, this⟩, List.get?_eq_get this⟩
    have hrev := take_succ_reverse inp (i + 1) c hc
    have hrev2 := take_succ_reverse inp i b hb
    rw [hrev, hrev2] at hlen ⊢
    rw [← hrev2] at hlen ⊢
    cases rpre with
    | nil =>
      exfalso
      have hne := groupRevFrom_ne_nil k (c :: (inp.take (i + 1)).reverse) (by simp)
      exact hne (List.length_eq_zero.mp (by simpa using hlen))
    | cons x r =>
      rw [formatNumberLoop, hc]
      simp only
      rw [setByte_append]
      simp only
      by_cases h3 : k + 1 = 3
      · rw [if_pos h3]
        have hg : groupRevFrom k (c :: (inp.take (i + 1)).reverse)
            = c :: ',' :: groupRevFrom 0 (inp.take (i + 1)).reverse := by
          rw [hrev2]; simp [groupRevFrom, h3]
        rw [hg] at hlen ⊢
        cases r with
        | nil => simp at hlen
        | cons y r2 =>
          have e1 : (((x :: y :: r2).length : Int) - 1 - 1) = ((y :: r2).length : Int) - 1 := by
            simp
          have e2 : (((x :: y :: r2).length : Int) - 1 - 1 - 1) = ((r2.length : Int) - 1) := by
            simp
          rw [e1, setByte_append]
          simp only
          have e3 : (((y :: r2).length : Int) - 1 - 1) = ((r2.length : Int) - 1) := by
            simp
          rw [e3, ih 0 r2 (',' :: c :: suf) (by omega) (by omega)
            (by simp at hlen; omega)]
          simp
      · rw [if_neg h3]
        have hg : groupRevFrom k (c :: (inp.take (i + 1)).reverse)
            = c :: groupRevFrom (k + 1) (inp.take (i + 1)).reverse := by
          rw [hrev2]; simp [groupRevFrom, h3]
        rw [hg] at hlen ⊢
        have e1 : (((x :: r).length : Int) - 1 - 1) = ((r.length : Int) - 1) := by simp
        rw [e1, ih (k + 1) r (c :: suf) (by omega) (by omega) (by simp at hlen; omega)]
        simp

theorem groupRev_props : ∀ (n : Nat) (l : List Char), l.length ≤ n →
    groupRevFrom 0 l = groupRev l ∧ (groupRev l).length = l.length + (l.length - 1) / 3 ∧
    (groupRev l).getLast? = l.getLast? ∧
    ((∀ c ∈ l, c ≠ ',') → (groupRev l).filter (fun c => c ≠ ',') = l) := by
  intro n
  induction n using Nat.strong_induction_on with
  | _ n ih =>
    intro l hl
    match l, hl with
    | [], _ => simp [groupRev, groupRevFrom]
    | [a], _ =>
      refine ⟨by simp [groupRev, groupRevFrom], by simp [groupRev], by simp [groupRev], ?_⟩
      intro h
      simp [groupRev, h]
    | [a, b], _ =>
      refine ⟨by simp [groupRev, groupRevFrom], by simp [groupRev], by simp [groupRev], ?_⟩
      intro h
      simp [groupRev, h]
    | [a, b, c], _ =>
      refine ⟨by simp [groupRev, groupRevFrom], by simp [groupRev], by simp [groupRev], ?_⟩
      intro h
      simp [groupRev, h]
    | a :: b :: c :: d :: rest, hl =>
      have hlen : (d :: rest).length ≤ n - 3 := by
        simp only [List.length_cons] at hl ⊢
        omega
      obtain ⟨h1, h2, h3, h4⟩ := ih (n - 3) (by simp only [List.length_cons] at hl; omega)
        (d :: rest) hlen
      refine ⟨?_, ?_, ?_, ?_⟩
      · simp only [groupRev, groupRevFrom]
        simp [h1]
      · simp only [groupRev, List.length_cons] at h2 ⊢
        rw [h2]
        omega
      · simp only [groupRev]
        have hne : groupRev (d :: rest) ≠ [] := by
          intro h0
          rw [h0] at h2
          simp at h2
          omega
        rw [List.getLast?_cons_cons, List.getLast?_cons_cons, List.getLast?_cons_cons]
        rw [List.getLast?_cons_cons, List.getLast?_cons_cons, List.getLast?_cons_cons]
        cases hg : groupRev (d :: rest) with
        | nil => exact absurd hg hne
        | cons g gs =>
          rw [List.getLast?_cons_cons, ← hg, h3]
      · intro h
        have ha : a ≠ ',' := h a (by simp)
        have hb : b ≠ ',' := h b (by simp)
        have hc : c ≠ ',' := h c (by simp)
        have hr : ∀ x ∈ d :: rest, x ≠ ',' := fun x hx => h x (by simp [List.mem_cons] at hx ⊢; tauto)
        have h5 := h4 hr
        simp only [groupRev]
        simp only [List.filter_cons, ha, hb, hc, h5, ne_eq, not_false_eq_true, decide_True,
          if_true, not_true_eq_false, decide_False]
        simp

theorem groupThousands_length (ds : List Char) :
    (groupThousands ds).length = ds.length + (ds.length - 1) / 3 := by
  unfold groupThousands
  rw [List.length_reverse, (groupRev_props _ ds.reverse le_rfl).2.1, List.length_reverse]

theorem groupThousands_head (ds : List Char) : (groupThousands ds).head? = ds.head? := by
  unfold groupThousands
  rw [List.head?_reverse, (groupRev_props _ ds.reverse le_rfl).2.2.1, List.getLast?_reverse]

theorem groupThousands_filter (ds : List Char) (h : ∀ c ∈ ds, c ≠ ',') :
    (groupThousands ds).filter (fun c => c ≠ ',') = ds := by
  unfold groupThousands
  rw [List.filter_reverse, (groupRev_props _ ds.reverse le_rfl).2.2.2 (by simpa using h),
    List.reverse_reverse]

theorem formatNumberLoop_digits (ds pre : List Char) (h : ds ≠ []) :
    formatNumberLoop ds (ds.length - 1)
      (((pre ++ List.replicate (ds.length + (ds.length - 1) / 3) (Char.ofNat 0)).length : Int) - 1)
      0 (pre ++ List.replicate (ds.length + (ds.length - 1) / 3) (Char.ofNat 0))
      = some (pre ++ groupThousands ds) := by
  have hpos : 0 < ds.length := List.length_pos.mpr h
  have htake : ds.take (ds.length - 1 + 1) = ds := by
    rw [Nat.sub_add_cancel hpos, List.take_length]
  have hg : groupRevFrom 0 ds.reverse = groupRev ds.reverse :=
    (groupRev_props _ ds.reverse le_rfl).1
  have hgl : (groupRev ds.reverse).length = ds.length + (ds.length - 1) / 3 := by
    rw [(groupRev_props _ ds.reverse le_rfl).2.1, List.length_reverse]
  have key := formatNumberLoop_spec ds (ds.length - 1) 0
    (List.replicate (ds.length + (ds.length - 1) / 3) (Char.ofNat 0) ++ pre.reverse) []
    (by omega) (by omega) (by rw [htake, hg, hgl]; simp)
  rw [htake, hg, hgl] at key
  simp only [List.reverse_append, List.reverse_reverse, List.reverse_replicate,
    List.append_nil, List.length_append, List.length_reverse, List.length_replicate] at key
  simp only [List.length_append, List.length_replicate]
  have hl : ((pre.length + (ds.length + (ds.length - 1) / 3) : Nat) : Int)
      = ((ds.length + (ds.length - 1) / 3 + pre.length : Nat) : Int) := by
    rw [Nat.add_comm]
  rw [hl]
  push_cast at key ⊢
  rw [key]
  simp [groupThousands, List.drop_append]

theorem numOfCommas_eq (L : Nat) (h : 1 ≤ L) :
    Int.tdiv ((L : Int) - 1) 3 = (((L - 1) / 3 : Nat) : Int) := by
  rw [Int.tdiv_eq_ediv (by omega) (by omega)]
  omega

theorem formatInt_data_nonneg (n : Int) (h : ¬ n < 0) :
    (FormatInt n).data = (Nat.repr n.toNat).data := by
  simp [FormatInt, h]

theorem formatInt_data_neg (n : Int) (h : n < 0) :
    (FormatInt n).data = '-' :: (Nat.repr n.natAbs).data := by
  simp [FormatInt, h]

theorem formatNumber_eq_spec (n : Int) : formatNumber n = some (formatNumberSpec n) := by
  by_cases hn : n < 0
  · have hd := formatInt_data_neg n hn
    have hne := repr_data_ne_nil n.natAbs
    have hpos : 1 ≤ (Nat.repr n.natAbs).data.length := List.length_pos.mpr hne
    obtain ⟨ds, hds⟩ : ∃ ds, (Nat.repr n.natAbs).data = ds := ⟨_, rfl⟩
    rw [hds] at hd hne hpos
    have hloop := formatNumberLoop_digits ds ['-'] hne
    unfold formatNumber formatNumberSpec
    simp only [hd, hn, if_true, List.length_cons, hds]
    have e0 : (((ds.length + 1 : Nat) : Int) - 1) = (ds.length : Int) := by push_cast; ring
    rw [e0, numOfCommas_eq ds.length hpos]
    have e1 : (((ds.length + 1 : Nat) : Int) + (((ds.length - 1) / 3 : Nat) : Int))
        = ((1 + (ds.length + (ds.length - 1) / 3) : Nat) : Int) := by push_cast; ring
    rw [e1, if_neg (by omega), Int.toNat_ofNat, if_pos (by omega)]
    have e2 : List.replicate (1 + (ds.length + (ds.length - 1) / 3)) (Char.ofNat 0)
        = Char.ofNat 0 :: List.replicate (ds.length + (ds.length - 1) / 3) (Char.ofNat 0) := by
      rw [Nat.add_comm 1, List.replicate_succ]
    rw [e2]
    have e3 : setByte (Char.ofNat 0 :: List.replicate (ds.length + (ds.length - 1) / 3) (Char.ofNat 0))
        0 '-' = some ('-' :: List.replicate (ds.length + (ds.length - 1) / 3) (Char.ofNat 0)) := by
      simp [setByte]
      omega
    rw [e3]
    simp only [Option.map_some', List.drop_succ_cons, List.drop_zero]
    rw [if_neg (by omega)]
    have e4 : ['-'] ++ List.replicate (ds.length + (ds.length - 1) / 3) (Char.ofNat 0)
        = '-' :: List.replicate (ds.length + (ds.length - 1) / 3) (Char.ofNat 0) := rfl
    rw [e4] at hloop
    rw [hloop]
    rfl
  · have hd := formatInt_data_nonneg n hn
    have hne := repr_data_ne_nil n.toNat
    have hpos : 1 ≤ (Nat.repr n.toNat).data.length := List.length_pos.mpr hne
    obtain ⟨ds, hds⟩ : ∃ ds, (Nat.repr n.toNat).data = ds := ⟨_, rfl⟩
    rw [hds] at hd hne hpos
    have hloop := formatNumberLoop_digits ds [] hne
    unfold formatNumber formatNumberSpec
    simp only [hd, hn, if_false, hds]
    rw [numOfCommas_eq ds.length hpos]
    have e1 : ((ds.length : Int) + (((ds.length - 1) / 3 : Nat) : Int))
        = ((ds.length + (ds.length - 1) / 3 : Nat) : Int) := by push_cast; ring
    rw [e1, if_neg (by omega), Int.toNat_ofNat]
    rw [if_neg (by omega)]
    simp only [List.nil_append] at hloop
    rw [hloop]
    rfl

theorem groupRev_comma_positions : ∀ (n : Nat) (l : List Char), l.length ≤ n →
    (∀ c ∈ l, c ≠ ',') → ∀ i, i < (groupRev l).length →
      ((groupRev l)[i]? = some ',' ↔ i % 4 = 3) := by
  intro n
  induction n using Nat.strong_induction_on with
  | _ n ih =>
    intro l hl hc i hi
    match l, hl, hc, hi with
    | [], _, _, hi => simp [groupRev] at hi
    | [a], _, hc, hi =>
      have ha : a ≠ ',' := hc a (by simp)
      simp only [groupRev, List.length_cons, List.length_nil] at hi
      have : i = 0 := by omega
      subst this
      simp [groupRev, ha]
    | [a, b], _, hc, hi =>
      have ha : a ≠ ',' := hc a (by simp)
      have hb : b ≠ ',' := hc b (by simp)
      simp only [groupRev, List.length_cons, List.length_nil] at hi
      have : i = 0 ∨ i = 1 := by omega
      rcases this with rfl | rfl <;> simp [groupRev, ha, hb]
    | [a, b, c], _, hc, hi =>
      have ha : a ≠ ',' := hc a (by simp)
      have hb : b ≠ ',' := hc b (by simp)
      have hc3 : c ≠ ',' := hc c (by simp)
      simp only [groupRev, List.length_cons, List.length_nil] at hi
      have : i = 0 ∨ i = 1 ∨ i = 2 := by omega
      rcases this with rfl | rfl | rfl <;> simp [groupRev, ha, hb, hc3]
    | a :: b :: c :: d :: rest, hl, hc, hi =>
      have ha : a ≠ ',' := hc a (by simp)
      have hb : b ≠ ',' := hc b (by simp)
      have hc3 : c ≠ ',' := hc c (by simp)
      have hr : ∀ x ∈ d :: rest, x ≠ ',' :=
        fun x hx => hc x (by simp [List.mem_cons] at hx ⊢; tauto)
      simp only [groupRev, List.length_cons] at hi
      have hrec := ih (n - 3) (by simp only [List.length_cons] at hl; omega) (d :: rest)
        (by simp only [List.length_cons] at hl ⊢; omega) hr
      simp only [groupRev]
      match i, hi with
      | 0, _ => simp [ha]
      | 1, _ => simp [hb]
      | 2, _ => simp [hc3]
      | 3, _ => simp
      | j + 4, hi =>
        have hj : j < (groupRev (d :: rest)).length := by omega
        have := hrec j hj
        simp only [List.getElem?_cons_succ]
        rw [this]
        omega

/-! ## The scaling loop of `formatBytes` -/

theorem formatBytesLoop_exp (n : Nat) : ∀ div exp : Nat,
    (formatBytesLoop n div exp).2 = exp + Nat.log 1024 n := by
  induction n using Nat.strong_induction_on with
  | _ n ih =>
    intro div exp
    rw [formatBytesLoop]
    by_cases h : 1024 ≤ n
    · rw [if_pos h, ih (n / 1024) (by omega), Nat.log_of_one_lt_of_le (by decide) h]
      omega
    · rw [if_neg h, Nat.log_of_lt (by omega)]
      rfl

theorem formatBytesLoop_div (n : Nat) : ∀ div exp : Nat,
    div * 1024 ^ Nat.log 1024 n < 2 ^ 64 →
    (formatBytesLoop n div exp).1 = div * 1024 ^ Nat.log 1024 n := by
  induction n using Nat.strong_induction_on with
  | _ n ih =>
    intro div exp hlt
    rw [formatBytesLoop]
    by_cases h : 1024 ≤ n
    · have hlog := Nat.log_of_one_lt_of_le (b := 1024) (by decide) h
      have hpow : 1024 ^ (Nat.log 1024 (n / 1024) + 1)
          = 1024 ^ Nat.log 1024 (n / 1024) * 1024 := pow_succ _ _
      rw [hlog, hpow] at hlt ⊢
      have h1 : div * 1024 ≤ div * (1024 ^ Nat.log 1024 (n / 1024) * 1024) := by
        have : 1 ≤ 1024 ^ Nat.log 1024 (n / 1024) := Nat.one_le_pow _ _ (by decide)
        nlinarith
      have hmod : div * 1024 % 2 ^ 64 = div * 1024 := Nat.mod_eq_of_lt (by omega)
      rw [if_pos h, hmod, ih (n / 1024) (by omega) _ _ (by nlinarith)]
      ring
    · rw [if_neg h, Nat.log_of_lt (by omega)]
      simp

theorem log_div_le_five (b : Nat) (h : b < 2 ^ 64) : Nat.log 1024 (b / 1024) ≤ 5 := by
  have h1 : b / 1024 < 1024 ^ 6 := by
    have : b / 1024 < 2 ^ 54 := by omega
    exact lt_of_lt_of_le this (by norm_num)
  by_cases h0 : b / 1024 = 0
  · rw [h0]; simp
  · have := Nat.log_lt_of_lt_pow h0 h1
    omega

theorem formatBytes_small (b : Nat) (h : b < 1024) :
    formatBytes b = some (Nat.repr b ++ " B") := by
  simp [formatBytes, h]

theorem suffix_letter (k : Nat) (h : k ≤ 5) : ∃ c, "KMGTPE".data.get? k = some c := by
  interval_cases k <;> exact ⟨_, rfl⟩

theorem formatBytes_large (b : Nat) (h1 : 1024 ≤ b) (h2 : b < 2 ^ 64) :
    ∃ c, "KMGTPE".data.get? (Nat.log 1024 (b / 1024)) = some c ∧
      formatBytes b = some (F64.fmt2 (F64.div (F64.ofNat b)
        (F64.ofNat (1024 ^ (Nat.log 1024 (b / 1024) + 1)))) ++ " " ++
          String.singleton c ++ "B") := by
  have hk := log_div_le_five b h2
  obtain ⟨c, hc⟩ := suffix_letter _ hk
  have hpow : 1024 * 1024 ^ Nat.log 1024 (b / 1024) < 2 ^ 64 := by
    have : 1024 ^ Nat.log 1024 (b / 1024) ≤ 1024 ^ 5 := Nat.pow_le_pow_right (by decide) hk
    calc 1024 * 1024 ^ Nat.log 1024 (b / 1024) ≤ 1024 * 1024 ^ 5 := Nat.mul_le_mul_left _ this
      _ < 2 ^ 64 := by norm_num
  have hexp := formatBytesLoop_exp (b / 1024) 1024 0
  have hdiv := formatBytesLoop_div (b / 1024) 1024 0 hpow
  rw [Nat.zero_add] at hexp
  refine ⟨c, hc, ?_⟩
  unfold formatBytes
  rw [if_neg (by omega)]
  simp only [hexp, hdiv, hc]
  rw [pow_succ, Nat.mul_comm]

theorem formatBytes_eval (b k : Nat) (c : Char) (h1 : 1024 ^ (k + 1) ≤ b)
    (h2 : b < 1024 ^ (k + 2)) (hb : b < 2 ^ 64) (hc : "KMGTPE".data.get? k = some c) :
    formatBytes b = some (F64.fmt2 (F64.div (F64.ofNat b) (F64.ofNat (1024 ^ (k + 1)))) ++ " " ++
      String.singleton c ++ "B") := by
  have hlog : Nat.log 1024 (b / 1024) = k := by
    apply Nat.log_eq_of_pow_le_of_lt_pow
    · rw [Nat.le_div_iff_mul_le (by decide), ← pow_succ]
      exact h1
    · rw [Nat.div_lt_iff_lt_mul (by decide), ← pow_succ]
      exact h2
  obtain ⟨c2, hc2, hs⟩ := formatBytes_large b
    (le_trans (by
      calc (1024 : Nat) = 1024 ^ 1 := by norm_num
        _ ≤ 1024 ^ (k + 1) := Nat.pow_le_pow_right (by decide) (by omega)) h1) hb
  rw [hlog] at hc2 hs
  rw [hc] at hc2
  injection hc2 with hc3
  subst hc3
  exact hs

theorem formatBytes_total (b : Nat) (h : b < 2 ^ 64) : ∃ s, formatBytes b = some s := by
  by_cases h1 : b < 1024
  · exact ⟨_, formatBytes_small b h1⟩
  · obtain ⟨c, _, hc⟩ := formatBytes_large b (by omega) h
    exact ⟨_, hc⟩

/-! ## Accuracy of the binary64 model -/

theorem roundHalfEven_nat (n d : Nat) (hd : 0 < d) :
    2 * n ≤ (2 * roundHalfEven n d + 1) * d ∧ 2 * roundHalfEven n d * d ≤ 2 * n + d := by
  have hdm := Nat.div_add_mod n d
  have hlt := Nat.mod_lt n hd
  have e1 : ∀ q : Nat, (2 * q + 1) * d = 2 * (d * q) + d := fun q => by ring
  have e2 : ∀ q : Nat, 2 * q * d = 2 * (d * q) := fun q => by ring
  have e3 : d * (n / d + 1) = d * (n / d) + d := by ring
  unfold roundHalfEven
  simp only
  split
  · rw [e1, e2]; omega
  · split
    · rw [e1, e2, e3]; omega
    · split
      · rw [e1, e2]; omega
      · rw [e1, e2, e3]; omega

theorem roundHalfEven_spec (n d : Nat) (hd : 0 < d) :
    |(roundHalfEven n d : ℚ) - (n : ℚ) / d| ≤ 1 / 2 := by
  obtain ⟨h1, h2⟩ := roundHalfEven_nat n d hd
  have hd' : (0 : ℚ) < d := by exact_mod_cast hd
  have h1' : (2 : ℚ) * n ≤ (2 * roundHalfEven n d + 1) * d := by exact_mod_cast h1
  have h2' : (2 : ℚ) * roundHalfEven n d * d ≤ 2 * n + d := by exact_mod_cast h2
  have hx : (n : ℚ) = (n : ℚ) / d * d := (div_mul_cancel₀ _ (ne_of_gt hd')).symm
  generalize (n : ℚ) / d = x at hx ⊢
  rw [hx] at h1' h2'
  have a1 : 2 * x ≤ 2 * roundHalfEven n d + 1 :=
    le_of_mul_le_mul_right (by linarith) hd'
  have a2 : 2 * (roundHalfEven n d : ℚ) ≤ 2 * x + 1 :=
    le_of_mul_le_mul_right (by linarith) hd'
  rw [abs_le]
  constructor <;> linarith

theorem scaledRound_spec (n d : Nat) (e : Int) (hd : 0 < d) :
    |(scaledRound n d e : ℚ) - (n : ℚ) / (d * (2 : ℚ) ^ e)| ≤ 1 / 2 := by
  unfold scaledRound
  split
  · rename_i he
    have h := roundHalfEven_spec n (d * 2 ^ e.toNat) (by positivity)
    have hc : ((d * 2 ^ e.toNat : Nat) : ℚ) = d * (2 : ℚ) ^ e := by
      push_cast
      rw [← zpow_natCast, Int.toNat_of_nonneg he]
    rw [hc] at h
    exact h
  · rename_i he
    have h := roundHalfEven_spec (n * 2 ^ (-e).toNat) d hd
    have hc : ((n * 2 ^ (-e).toNat : Nat) : ℚ) / d = (n : ℚ) / (d * (2 : ℚ) ^ e) := by
      push_cast
      rw [← zpow_natCast, Int.toNat_of_nonneg (by omega), zpow_neg]
      field_simp
      left
      ring
    rw [hc] at h
    exact h

theorem scaledFloor_le (n d : Nat) (e : Int) (hd : 0 < d) :
    (scaledFloor n d e : ℚ) ≤ (n : ℚ) / (d * (2 : ℚ) ^ e) := by
  unfold scaledFloor
  split
  · rename_i he
    have hc : ((d * 2 ^ e.toNat : Nat) : ℚ) = d * (2 : ℚ) ^ e := by
      push_cast
      rw [← zpow_natCast, Int.toNat_of_nonneg he]
    rw [← hc]
    exact Nat.cast_div_le
  · rename_i he
    have hc : ((n * 2 ^ (-e).toNat : Nat) : ℚ) / d = (n : ℚ) / (d * (2 : ℚ) ^ e) := by
      push_cast
      rw [← zpow_natCast, Int.toNat_of_nonneg (by omega), zpow_neg]
      field_simp
      left
      ring
    rw [← hc]
    exact Nat.cast_div_le

theorem bitLenAux_spec (fuel : Nat) : ∀ n : Nat, n ≤ fuel →
    n < 2 ^ bitLenAux fuel n ∧ (0 < n → 2 ^ bitLenAux fuel n ≤ 2 * n) := by
  induction fuel with
  | zero =>
    intro n hn
    have : n = 0 := by omega
    subst this
    simp [bitLenAux]
  | succ f ih =>
    intro n hn
    by_cases h0 : n = 0
    · subst h0
      simp [bitLenAux]
    · obtain ⟨a, b⟩ := ih (n / 2) (by omega)
      have hb : bitLenAux (f + 1) n = 1 + bitLenAux f (n / 2) := by
        simp [bitLenAux, h0]
      rw [hb, Nat.pow_add]
      constructor
      · omega
      · intro _
        by_cases h2 : 0 < n / 2
        · have := b h2
          omega
        · have h1 : n = 1 := by omega
          subst h1
          have hz : bitLenAux f (1 / 2) = 0 := by
            cases f <;> simp [bitLenAux]
          rw [hz]

theorem bitLen_spec (n : Nat) (hn : 0 < n) : n < 2 ^ bitLen n ∧ 2 ^ bitLen n ≤ 2 * n :=
  ⟨(bitLenAux_spec n n le_rfl).1, (bitLenAux_spec n n le_rfl).2 hn⟩

theorem ulpExp_spec (n d : Nat) (hn : 0 < n) (hd : 0 < d) :
    (2 : ℚ) ^ 52 * (d * (2 : ℚ) ^ ulpExp n d) ≤ n := by
  obtain ⟨_, hn2⟩ := bitLen_spec n hn
  obtain ⟨hd1, _⟩ := bitLen_spec d hd
  have hn2' : (2 : ℚ) ^ (bitLen n : Int) ≤ 2 * n := by
    rw [zpow_natCast]; exact_mod_cast hn2
  have hd1' : (d : ℚ) ≤ (2 : ℚ) ^ (bitLen d : Int) := by
    rw [zpow_natCast]; exact_mod_cast le_of_lt hd1
  have hd0 : (0 : ℚ) < d := by exact_mod_cast hd
  have base : (2 : ℚ) ^ 52 * (d * (2 : ℚ) ^ ((bitLen n : Int) - (bitLen d : Int) - 53)) ≤ n := by
    have hp : (0 : ℚ) < (2 : ℚ) ^ ((bitLen n : Int) - (bitLen d : Int) - 53) := by positivity
    have e : (2 : ℚ) ^ 52 * ((2 : ℚ) ^ (bitLen d : Int)
        * (2 : ℚ) ^ ((bitLen n : Int) - (bitLen d : Int) - 53))
        = (2 : ℚ) ^ (bitLen n : Int) / 2 := by
      have h52 : (2 : ℚ) ^ 52 = (2 : ℚ) ^ (52 : Int) := by norm_cast
      rw [h52, ← zpow_add₀ (by norm_num), ← zpow_add₀ (by norm_num)]
      have : (52 : Int) + ((bitLen d : Int) + ((bitLen n : Int) - (bitLen d : Int) - 53))
          = (bitLen n : Int) - 1 := by ring
      rw [this, zpow_sub₀ (by norm_num), zpow_one]
    calc (2 : ℚ) ^ 52 * (d * (2 : ℚ) ^ ((bitLen n : Int) - (bitLen d : Int) - 53))
        ≤ (2 : ℚ) ^ 52 * ((2 : ℚ) ^ (bitLen d : Int)
          * (2 : ℚ) ^ ((bitLen n : Int) - (bitLen d : Int) - 53)) := by
          apply mul_le_mul_of_nonneg_left _ (by positivity)
          exact mul_le_mul_of_nonneg_right hd1' (le_of_lt hp)
      _ = (2 : ℚ) ^ (bitLen n : Int) / 2 := e
      _ ≤ n := by linarith
  unfold ulpExp
  simp only
  split
  · rename_i hbig
    have hfl := scaledFloor_le n d ((bitLen n : Int) - (bitLen d : Int) - 53) hd
    have hbig' : (2 : ℚ) ^ 53 ≤ (scaledFloor n d ((bitLen n : Int) - (bitLen d : Int) - 53) : ℚ) := by
      exact_mod_cast hbig
    have hpos : (0 : ℚ) < d * (2 : ℚ) ^ ((bitLen n : Int) - (bitLen d : Int) - 53) := by
      positivity
    have h3 := le_trans hbig' hfl
    rw [le_div_iff₀ hpos] at h3
    rw [zpow_add₀ (by norm_num), zpow_one]
    linarith
  · exact base

theorem round_spec (s : Bool) (n d : Nat) (hn : 0 < n) (hd : 0 < d) :
    ∃ m e, F64.round s n d = F64.finite s m e ∧
      |(m : ℚ) * (2 : ℚ) ^ e - (n : ℚ) / d| ≤ (n : ℚ) / d / 2 ^ 53 := by
  refine ⟨scaledRound n d (ulpExp n d), ulpExp n d, ?_, ?_⟩
  · unfold F64.round
    rw [if_neg (by omega)]
  · have h1 := scaledRound_spec n d (ulpExp n d) hd
    have h2 := ulpExp_spec n d hn hd
    have hd0 : (0 : ℚ) < d := by exact_mod_cast hd
    have hE : (0 : ℚ) < (2 : ℚ) ^ ulpExp n d := by positivity
    generalize (2 : ℚ) ^ ulpExp n d = E at h1 h2 hE
    generalize (scaledRound n d (ulpExp n d) : ℚ) = M at h1
    have hx : (n : ℚ) = (n : ℚ) / d * d := (div_mul_cancel₀ _ (ne_of_gt hd0)).symm
    have hdiv : (n : ℚ) / (d * E) = (n : ℚ) / d / E := by
      rw [div_div]
    rw [hdiv] at h1
    generalize (n : ℚ) / d = x at hx h1 ⊢
    rw [hx] at h2
    -- h2 : 2^52 * (d * E) ≤ x * d, so 2^52 * E ≤ x
    have h3 : (2 : ℚ) ^ 52 * E ≤ x := by
      have : (2 : ℚ) ^ 52 * E * d ≤ x * d := by linarith
      exact le_of_mul_le_mul_right this hd0
    have h4 : |M * E - x| = |M - x / E| * E := by
      rw [← abs_of_pos hE, ← abs_mul, abs_of_pos hE]
      congr 1
      field_simp
    rw [h4]
    calc |M - x / E| * E ≤ 1 / 2 * E := mul_le_mul_of_nonneg_right h1 (le_of_lt hE)
      _ ≤ x / 2 ^ 53 := by
        rw [le_div_iff₀ (by positivity)]
        linarith

theorem rel_error_compose (x q p vq vp w v u : ℚ) (hq : 0 ≤ q) (hp : 0 < p) (hu0 : 0 ≤ u)
    (hu : u ≤ 1 / 5) (hx : x * p = q) (hvq : |vq - q| ≤ q * u) (hvp : |vp - p| ≤ p * u)
    (hw : w * vp = vq) (hv : |v - w| ≤ w * u) : |v - x| ≤ x * (4 * u) := by
  rw [abs_le] at hvq hvp hv
  obtain ⟨q1, q2⟩ := hvq
  obtain ⟨p1, p2⟩ := hvp
  obtain ⟨v1, v2⟩ := hv
  have hx0 : 0 ≤ x := by
    by_contra hneg
    push_neg at hneg
    nlinarith
  have hvp0 : 0 < vp := by nlinarith
  have hw0 : 0 ≤ w := by
    by_contra hneg
    push_neg at hneg
    nlinarith
  -- w * p * (1 - u) ≤ w * vp = vq ≤ x * p * (1 + u)
  have a1 : w * (1 - u) ≤ x * (1 + u) := by
    have : w * (1 - u) * p ≤ x * (1 + u) * p := by nlinarith
    exact le_of_mul_le_mul_right this hp
  have a2 : x * (1 - u) ≤ w * (1 + u) := by
    have : x * (1 - u) * p ≤ w * (1 + u) * p := by nlinarith
    exact le_of_mul_le_mul_right this hp
  have hu1 : 0 < 1 - u := by linarith
  have hu2 : 0 < 1 + u := by linarith
  rw [abs_le]
  constructor
  · -- x (1 - 4u) ≤ w (1 - u) ≤ v
    have : x * (1 - 4 * u) * (1 + u) ≤ w * (1 - u) * (1 + u) := by
      have h5 : x * (1 - 4 * u) * (1 + u) ≤ x * (1 - u) * (1 - u) := by nlinarith
      have h6 : x * (1 - u) * (1 - u) ≤ w * (1 + u) * (1 - u) := by nlinarith
      nlinarith
    have := le_of_mul_le_mul_right this hu2
    linarith
  · have : w * (1 + u) * (1 - u) ≤ x * (1 + 4 * u) * (1 - u) := by
      have h5 : w * (1 - u) * (1 + u) ≤ x * (1 + u) * (1 + u) := by nlinarith
      have h6 : x * (1 + u) * (1 + u) ≤ x * (1 + 4 * u) * (1 - u) := by
        have := mul_nonneg (mul_nonneg hx0 hu0) (by linarith : (0 : ℚ) ≤ 1 - 5 * u)
        nlinarith
      nlinarith
    have := le_of_mul_le_mul_right this hu1
    linarith

theorem round_mant_pos (m : Nat) (e : Int) (n : Nat) (hn : 0 < n)
    (h : |(m : ℚ) * (2 : ℚ) ^ e - (n : ℚ) / 1| ≤ (n : ℚ) / 1 / 2 ^ 53) : m ≠ 0 := by
  intro hm
  subst hm
  have hn' : (0 : ℚ) < n := by exact_mod_cast hn
  simp only [Nat.cast_zero, zero_mul, zero_sub, abs_neg, div_one] at h
  rw [abs_of_pos hn', le_div_iff₀ (by positivity)] at h
  have : (n : ℚ) * 2 ^ 53 = n * 9007199254740992 := by norm_num
  nlinarith

theorem div_round_spec (s : Bool) (a b : Nat) (ha : 0 < a) (hb : 0 < b) :
    ∃ m e, F64.div (F64.round s a 1) (F64.round false b 1) = F64.finite s m e ∧
      |(m : ℚ) * (2 : ℚ) ^ e - (a : ℚ) / b| ≤ (a : ℚ) / b * (4 * (1 / 2 ^ 53)) := by
  obtain ⟨ma, ea, h1, h1'⟩ := round_spec s a 1 ha (by norm_num)
  obtain ⟨mb, eb, h2, h2'⟩ := round_spec false b 1 hb (by norm_num)
  have hma : ma ≠ 0 := round_mant_pos ma ea a ha (by simpa using h1')
  have hmb : mb ≠ 0 := round_mant_pos mb eb b hb (by simpa using h2')
  have ha' : (0 : ℚ) < a := by exact_mod_cast ha
  have hb' : (0 : ℚ) < b := by exact_mod_cast hb
  have hmb' : (0 : ℚ) < (mb : ℚ) * (2 : ℚ) ^ eb := by
    have : (0 : ℚ) < mb := by exact_mod_cast Nat.pos_of_ne_zero hmb
    positivity
  simp only [Nat.cast_one, div_one] at h1' h2'
  have key : ∀ (n d : Nat), 0 < n → 0 < d →
      (n : ℚ) / d = (ma : ℚ) * (2 : ℚ) ^ ea / ((mb : ℚ) * (2 : ℚ) ^ eb) →
      ∃ m e, F64.round s n d = F64.finite s m e ∧
        |(m : ℚ) * (2 : ℚ) ^ e - (a : ℚ) / b| ≤ (a : ℚ) / b * (4 * (1 / 2 ^ 53)) := by
    intro n d hn hd hr
    obtain ⟨m, e, h3, h3'⟩ := round_spec s n d hn hd
    refine ⟨m, e, h3, ?_⟩
    rw [hr] at h3'
    apply rel_error_compose ((a : ℚ) / b) a b ((ma : ℚ) * (2 : ℚ) ^ ea) ((mb : ℚ) * (2 : ℚ) ^ eb)
      ((ma : ℚ) * (2 : ℚ) ^ ea / ((mb : ℚ) * (2 : ℚ) ^ eb)) _ (1 / 2 ^ 53)
      (le_of_lt ha') hb' (by positivity) (by norm_num)
      (div_mul_cancel₀ _ (ne_of_gt hb'))
    · rw [mul_one_div]; exact h1'
    · rw [mul_one_div]; exact h2'
    · exact div_mul_cancel₀ _ (ne_of_gt hmb')
    · rw [mul_one_div]; exact h3'
  rw [h1, h2]
  unfold F64.div
  simp only [hmb, if_false, Bool.xor_false]
  split
  · rename_i hle
    apply key _ _ (by positivity) (Nat.pos_of_ne_zero hmb)
    push_cast
    rw [← zpow_natCast, Int.toNat_of_nonneg (by omega), zpow_sub₀ (by norm_num)]
    field_simp
    ring
  · rename_i hle
    apply key _ _ (Nat.pos_of_ne_zero hma) (by positivity)
    push_cast
    rw [← zpow_natCast, Int.toNat_of_nonneg (by omega), zpow_sub₀ (by norm_num)]
    field_simp

theorem fmt2_finite (s : Bool) (m : Nat) (e : Int) :
    ∃ h : Nat, F64.fmt2 (F64.finite s m e)
        = (if s then "-" else "") ++ Nat.repr (h / 100) ++ "." ++ twoDigits (h % 100) ∧
      |(h : ℚ) / 100 - (m : ℚ) * (2 : ℚ) ^ e| ≤ 1 / 200 := by
  refine ⟨scaledRound (m * 100) 1 (-e), rfl, ?_⟩
  have h := scaledRound_spec (m * 100) 1 (-e) (by norm_num)
  have hc : ((m * 100 : Nat) : ℚ) / (((1 : Nat) : ℚ) * (2 : ℚ) ^ (-e))
      = 100 * ((m : ℚ) * (2 : ℚ) ^ e) := by
    push_cast
    rw [zpow_neg]
    field_simp
    ring
  rw [hc] at h
  rw [abs_le] at h ⊢
  constructor <;> linarith [h.1, h.2]

theorem fmt2_div_spec (s : Bool) (a b : Nat) (hb : 0 < b) :
    ∃ h : Nat, F64.fmt2 (F64.div (F64.round s a 1) (F64.round false b 1))
        = (if s then "-" else "") ++ Nat.repr (h / 100) ++ "." ++ twoDigits (h % 100) ∧
      |(h : ℚ) / 100 - (a : ℚ) / b| ≤ 1 / 200 + (a : ℚ) / b / 2 ^ 51 := by
  by_cases ha : a = 0
  · subst ha
    obtain ⟨mb, eb, h2, h2'⟩ := round_spec false b 1 hb (by norm_num)
    have hmb : mb ≠ 0 := round_mant_pos mb eb b hb h2'
    refine ⟨0, ?_, by norm_num⟩
    rw [h2]
    simp only [F64.round, if_true, F64.div, hmb, if_false, Bool.xor_false, Nat.zero_mul]
    split <;> rfl
  · obtain ⟨m, e, h1, h1'⟩ := div_round_spec s a b (Nat.pos_of_ne_zero ha) hb
    obtain ⟨h, h2, h2'⟩ := fmt2_finite s m e
    refine ⟨h, by rw [h1, h2], ?_⟩
    have e4 : (a : ℚ) / b * (4 * (1 / 2 ^ 53)) = (a : ℚ) / b / 2 ^ 51 := by
      field_simp
      ring
    rw [e4] at h1'
    rw [abs_le] at h1' h2' ⊢
    constructor <;> linarith [h1'.1, h1'.2, h2'.1, h2'.2]

theorem fmt2_div_ofInt (q p : Int) (hp : 0 < p) :
    ∃ h : Nat, F64.fmt2 (F64.div (F64.ofInt q) (F64.ofInt p))
        = (if q < 0 then "-" else "") ++ Nat.repr (h / 100) ++ "." ++ twoDigits (h % 100) ∧
      |(h : ℚ) / 100 - |(q : ℚ)| / p| ≤ 1 / 200 + |(q : ℚ)| / p / 2 ^ 51 := by
  obtain ⟨h, h1, h2⟩ := fmt2_div_spec (decide (q < 0)) q.natAbs p.natAbs (by omega)
  have hq : ((q.natAbs : Nat) : ℚ) = |(q : ℚ)| := by
    rw [Nat.cast_natAbs, Int.cast_abs]
  have hpp : ((p.natAbs : Nat) : ℚ) = (p : ℚ) := by
    rw [Nat.cast_natAbs, Int.cast_abs, abs_of_pos (by exact_mod_cast hp)]
  have hneg : decide (p < 0) = false := by simp; omega
  refine ⟨h, ?_, ?_⟩
  · unfold F64.ofInt
    rw [hneg, h1]
    by_cases hq0 : q < 0 <;> simp [hq0]
  · rw [hq, hpp] at h2
    exact h2

/-! ## The cgroup v1 CPU extractor -/

theorem printCPUInfoV1_eq (quotaFile periodFile usageFile : Option String) :
    printCPUInfoV1 quotaFile periodFile usageFile
      = some (intLine "  cgroup v1 cpu.cfs_quota_us: " (readInt64FromFile quotaFile) ++
          intLine "  cgroup v1 cpu.cfs_period_us: " (readInt64FromFile periodFile) ++
          cpuLimitV1 ((readInt64FromFile quotaFile).getD 0)
            ((readInt64FromFile periodFile).getD 0) ++
          (match readInt64FromFile usageFile with
            | none => []
            | some u => ["  Total CPU usage (nanoseconds): " ++ formatNumberSpec u])) := by
  unfold printCPUInfoV1
  cases hu : readInt64FromFile usageFile with
  | none => simp
  | some u => simp [formatNumber_eq_spec]

theorem readInt64FromFile_none : readInt64FromFile none = none := rfl

/-- C1: in `printCPUInfoV1`, whenever the quota file parses to `q`: if `q > 0`
and the period file parses to `p > 0`, the output is the quota line, the period
line, the line `CPU Limit: <q/p as float64, two decimals> cores` and the usage
part, the number printed being `h / 100` written with two decimals for an `h`
with `|h/100 - q/p| ≤ 1/200 + (q/p)/2^51` (half a unit of the last decimal, plus
the rounding of the three float64 operations); and if `q = -1` the output is the
quota line, whatever the period file prints (its line, or nothing when it is
missing or unparseable), the line `CPU Limit: unlimited` and the usage part.
`P` and `U` are what the extractor prints for the period file alone and for the
usage file alone. -/
theorem printCPUInfoV1_limit_line (quotaFile periodFile usageFile : Option String) (q : Int)
    (hq : readInt64FromFile quotaFile = some q) :
    ∃ P U : List String,
      printCPUInfoV1 none periodFile none = some P ∧
      printCPUInfoV1 none none usageFile = some U ∧
      (∀ p : Int, readInt64FromFile periodFile = some p → 0 < q → 0 < p →
        P = ["  cgroup v1 cpu.cfs_period_us: " ++ FormatInt p] ∧
        printCPUInfoV1 quotaFile periodFile usageFile
          = some (["  cgroup v1 cpu.cfs_quota_us: " ++ FormatInt q] ++ P ++
              ["  CPU Limit: " ++ F64.fmt2 (F64.div (F64.ofInt q) (F64.ofInt p)) ++ " cores"]
              ++ U) ∧
        ∃ h : Nat,
          F64.fmt2 (F64.div (F64.ofInt q) (F64.ofInt p))
            = Nat.repr (h / 100) ++ "." ++ twoDigits (h % 100) ∧
          |(h : ℚ) / 100 - (q : ℚ) / p| ≤ 1 / 200 + (q : ℚ) / p / 2 ^ 51) ∧
      (q = -1 →
        printCPUInfoV1 quotaFile periodFile usageFile
          = some (["  cgroup v1 cpu.cfs_quota_us: -1"] ++ P ++ ["  CPU Limit: unlimited"] ++ U)) := by
  refine ⟨_, _, printCPUInfoV1_eq none periodFile none, printCPUInfoV1_eq none none usageFile,
    ?_, ?_⟩
  · intro p hp hq0 hp0
    refine ⟨?_, ?_, ?_⟩
    · rw [hp]
      simp [readInt64FromFile_none, intLine, cpuLimitV1]
    · rw [printCPUInfoV1_eq, hq, hp]
      simp [readInt64FromFile_none, intLine, cpuLimitV1, hq0, hp0]
    · obtain ⟨h, h1, h2⟩ := fmt2_div_ofInt q p hp0
      have hqa : |(q : ℚ)| = (q : ℚ) := abs_of_pos (by exact_mod_cast hq0)
      rw [hqa] at h2
      rw [if_neg (by omega)] at h1
      exact ⟨h, by rw [h1]; rfl, h2⟩
  · intro hq1
    subst hq1
    rw [printCPUInfoV1_eq, hq]
    cases hp : readInt64FromFile periodFile with
    | none => simp [readInt64FromFile_none, intLine, cpuLimitV1]; rfl
    | some p =>
      simp [readInt64FromFile_none, intLine, cpuLimitV1]
      rfl

theorem printCPUInfoV1_limit_line_witness :
    (∃ P U : List String,
      printCPUInfoV1 none (some "100000\n") none = some P ∧
      printCPUInfoV1 none none (some "1234567\n") = some U ∧
      printCPUInfoV1 (some "50000\n") (some "100000\n") (some "1234567\n")
        = some (["  cgroup v1 cpu.cfs_quota_us: " ++ FormatInt 50000] ++ P ++
            ["  CPU Limit: " ++ F64.fmt2 (F64.div (F64.ofInt 50000) (F64.ofInt 100000)) ++
              " cores"] ++ U)) ∧
    (∃ P U : List String,
      printCPUInfoV1 none (some "garbage") none = some P ∧
      printCPUInfoV1 none none none = some U ∧
      printCPUInfoV1 (some "-1\n") (some "garbage") none
        = some (["  cgroup v1 cpu.cfs_quota_us: -1"] ++ P ++ ["  CPU Limit: unlimited"] ++ U)) := by
  constructor
  · obtain ⟨P, U, hP, hU, h1, _⟩ :=
      printCPUInfoV1_limit_line (some "50000\n") (some "100000\n") (some "1234567\n") 50000
        (by decide)
    exact ⟨P, U, hP, hU, (h1 100000 (by decide) (by decide) (by decide)).2.1⟩
  · obtain ⟨P, U, hP, hU, _, h2⟩ :=
      printCPUInfoV1_limit_line (some "-1\n") (some "garbage") none (-1) (by decide)
    exact ⟨P, U, hP, hU, h2 rfl⟩

/-- C2: in `printCPUInfoV2`, for every readable `cpu.max` content whose fields are
exactly two tokens `t0 t1`: if `t0` is the literal `max`, the output is the raw
`cpu.max` line and `CPU Limit: unlimited`, whatever `t1` is; otherwise, if both
tokens parse as decimal integers `q` and `p` with `p > 0`, it is the raw line and
`CPU Limit: <q/p as float64, two decimals> cores`, the number printed being the
sign of `q` and `h / 100` written with two decimals for an `h` with
`|h/100 - |q|/p| ≤ 1/200 + (|q|/p)/2^51`; in both cases followed by what
`cpu.stat` prints.  `max 100000` gives unlimited, `50000 100000` gives
`0.50 cores`. -/
theorem printCPUInfoV2_limit_line (content t0 t1 : String) (cpuStatFile : Option String)
    (hf : Fields content = [t0, t1]) :
    (t0 = "max" →
      printCPUInfoV2 (some content) cpuStatFile
        = ["  cgroup v2 cpu.max: " ++ TrimSpace content, "  CPU Limit: unlimited"] ++
            printCPUInfoV2 none cpuStatFile) ∧
    (∀ q p : Int, t0 ≠ "max" → ParseInt t0 = some q → ParseInt t1 = some p → 0 < p →
      printCPUInfoV2 (some content) cpuStatFile
        = ["  cgroup v2 cpu.max: " ++ TrimSpace content,
            "  CPU Limit: " ++ F64.fmt2 (F64.div (F64.ofInt q) (F64.ofInt p)) ++ " cores"] ++
            printCPUInfoV2 none cpuStatFile ∧
      ∃ h : Nat,
        F64.fmt2 (F64.div (F64.ofInt q) (F64.ofInt p))
          = (if q < 0 then "-" else "") ++ Nat.repr (h / 100) ++ "." ++ twoDigits (h % 100) ∧
        |(h : ℚ) / 100 - |(q : ℚ)| / p| ≤ 1 / 200 + |(q : ℚ)| / p / 2 ^ 51) ∧
    printCPUInfoV2 (some "max 100000") none
      = ["  cgroup v2 cpu.max: max 100000", "  CPU Limit: unlimited"] ∧
    printCPUInfoV2 (some "50000 100000") none
      = ["  cgroup v2 cpu.max: 50000 100000", "  CPU Limit: 0.50 cores"] := by
  refine ⟨?_, ?_, by decide, by decide⟩
  · intro h0
    simp [printCPUInfoV2, readStringFromFile, hf, cpuLimitV2, h0]
  · intro q p h0 hq hp hp0
    refine ⟨?_, fmt2_div_ofInt q p hp0⟩
    simp [printCPUInfoV2, readStringFromFile, hf, cpuLimitV2, h0, hq, hp, hp0]

theorem printCPUInfoV2_limit_line_witness :
    printCPUInfoV2 (some "max 100000\n") (some "usage_usec 12\n")
      = ["  cgroup v2 cpu.max: " ++ TrimSpace "max 100000\n", "  CPU Limit: unlimited"] ++
          printCPUInfoV2 none (some "usage_usec 12\n") ∧
    printCPUInfoV2 (some "50000 100000\n") (some "usage_usec 12\n")
      = ["  cgroup v2 cpu.max: " ++ TrimSpace "50000 100000\n",
          "  CPU Limit: " ++ F64.fmt2 (F64.div (F64.ofInt 50000) (F64.ofInt 100000)) ++
            " cores"] ++ printCPUInfoV2 none (some "usage_usec 12\n") :=
  ⟨(printCPUInfoV2_limit_line "max 100000\n" "max" "100000" (some "usage_usec 12\n")
      (by decide)).1 rfl,
   ((printCPUInfoV2_limit_line "50000 100000\n" "50000" "100000" (some "usage_usec 12\n")
      (by decide)).2.1 50000 100000 (by decide) (by decide) (by decide) (by decide)).1⟩

/-! ## No panic in the memory extractors -/

theorem parseDigits_lt (s : List Char) : ∀ acc v : Nat, acc < 2 ^ 64 →
    parseDigits acc s = some v → v < 2 ^ 64 := by
  induction s with
  | nil =>
    intro acc v hacc h
    simp only [parseDigits, Option.some.injEq] at h
    omega
  | cons c cs ih =>
    intro acc v hacc h
    simp only [parseDigits] at h
    split at h
    · split at h
      · rename_i hv
        exact ih _ v hv h
      · exact absurd h (by simp)
    · exact absurd h (by simp)

theorem ParseUint_lt (s : String) (v : Nat) (h : ParseUint s = some v) : v < 2 ^ 64 := by
  unfold ParseUint parseUintChars at h
  split at h
  · exact absurd h (by simp)
  · exact parseDigits_lt _ 0 v (by norm_num) h

theorem toUint64_lt (v : Int) : toUint64 v < 2 ^ 64 := by
  unfold toUint64
  have h1 : 0 ≤ v % 2 ^ 64 := Int.emod_nonneg _ (by norm_num)
  have h2 : v % 2 ^ 64 < 2 ^ 64 := Int.emod_lt_of_pos _ (by norm_num)
  omega

theorem statLine_total (keys : List String) (raw : String) :
    ∃ out, statLine keys raw = some out := by
  unfold statLine
  simp only
  split
  · split
    · rename_i p0 p1 _
      cases hp : ParseUint p1 with
      | none => exact ⟨_, rfl⟩
      | some v =>
        obtain ⟨fb, hfb⟩ := formatBytes_total v (ParseUint_lt _ _ hp)
        simp only [hfb]
        exact ⟨_, rfl⟩
    · exact ⟨_, rfl⟩
  · exact ⟨_, rfl⟩

theorem statLines_total (keys : List String) (ls : List String) :
    ∃ out, statLines keys ls = some out := by
  induction ls with
  | nil => exact ⟨_, rfl⟩
  | cons l ls ih =>
    obtain ⟨a, ha⟩ := statLine_total keys l
    obtain ⟨b, hb⟩ := ih
    exact ⟨a ++ b, by simp [statLines, ha, hb]⟩

theorem memStatBlock_total (header : String) (keys : List String) (statFile : Option String) :
    ∃ out, memStatBlock header keys statFile = some out := by
  cases statFile with
  | none => exact ⟨_, rfl⟩
  | some content =>
    obtain ⟨b, hb⟩ := statLines_total keys (Split content '\n')
    exact ⟨header :: b, by simp [memStatBlock, readStringFromFile, hb]⟩

theorem bytesLine_total (label : String) (file : Option String) :
    ∃ out, bytesLine label file = some out := by
  unfold bytesLine
  cases readInt64FromFile file with
  | none => exact ⟨_, rfl⟩
  | some v =>
    obtain ⟨fb, hfb⟩ := formatBytes_total _ (toUint64_lt v)
    simp only [hfb]
    exact ⟨_, rfl⟩

theorem memLimitV1_total (limitFile : Option String) :
    ∃ out, memLimitV1 limitFile = some out := by
  unfold memLimitV1
  cases readInt64FromFile limitFile with
  | none => exact ⟨_, rfl⟩
  | some v =>
    obtain ⟨fb, hfb⟩ := formatBytes_total _ (toUint64_lt v)
    simp only
    by_cases h : 2 ^ 60 < v
    · rw [if_pos h]
      exact ⟨_, rfl⟩
    · rw [if_neg h, hfb]
      exact ⟨_, rfl⟩

theorem memMaxV2_total (maxFile : Option String) :
    ∃ out, memMaxV2 maxFile = some out := by
  unfold memMaxV2
  cases maxFile with
  | none => exact ⟨_, rfl⟩
  | some content =>
    simp only [readStringFromFile]
    by_cases h : TrimSpace content = "max"
    · rw [if_pos h]
      exact ⟨_, rfl⟩
    · rw [if_neg h]
      cases hp : ParseUint (TrimSpace content) with
      | none => exact ⟨_, rfl⟩
      | some v =>
        obtain ⟨fb, hfb⟩ := formatBytes_total v (ParseUint_lt _ _ hp)
        simp only [hfb]
        exact ⟨_, rfl⟩

theorem seq3_some (a b c : Option (List String)) (x y z : List String)
    (ha : a = some x) (hb : b = some y) (hc : c = some z) :
    seq3 a b c = some (x ++ y ++ z) := by
  subst ha hb hc
  rfl

theorem memLimitV1_none : memLimitV1 none = some [] := rfl

theorem memMaxV2_none : memMaxV2 none = some [] := rfl

theorem bytesLine_none (label : String) : bytesLine label none = some [] := rfl

theorem memStatBlock_none (header : String) (keys : List String) :
    memStatBlock header keys none = some [] := rfl

theorem formatBytes_pib_edge : formatBytes (2 ^ 60 - 1) = some "1024.00 PB" := by
  rw [formatBytes_eval (2 ^ 60 - 1) 4 'P' (by norm_num) (by norm_num) (by norm_num) rfl]
  decide

/-- C4, as amended: for every content of `memory.limit_in_bytes` that parses as
an `int64` value `v`: if `v > 2^60` the limit line is `unlimited`; if `v ≤ 2^60`
it is the byte count `formatBytes(uint64(v))`, and for `v = 2^60 - 1` that is
`1024.00 PB`.  The other lines are those printed without the limit file. -/
theorem printMemoryInfoV1_limit_threshold (limitFile usageFile statFile : Option String)
    (v : Int) (hv : readInt64FromFile limitFile = some v) :
    ∃ rest : List String,
      printMemoryInfoV1 none usageFile statFile = some rest ∧
      (2 ^ 60 < v →
        printMemoryInfoV1 limitFile usageFile statFile
          = some ("  cgroup v1 memory.limit_in_bytes: unlimited" :: rest)) ∧
      (v ≤ 2 ^ 60 → ∃ fb, formatBytes (toUint64 v) = some fb ∧
        printMemoryInfoV1 limitFile usageFile statFile
          = some (("  cgroup v1 memory.limit_in_bytes: " ++ fb) :: rest)) ∧
      (v = 2 ^ 60 - 1 →
        printMemoryInfoV1 limitFile usageFile statFile
          = some ("  cgroup v1 memory.limit_in_bytes: 1024.00 PB" :: rest)) := by
  obtain ⟨U, hU⟩ := bytesLine_total "  cgroup v1 memory.usage_in_bytes: " usageFile
  obtain ⟨S, hS⟩ := memStatBlock_total "  cgroup v1 memory.stat (selected):" keysV1 statFile
  obtain ⟨fb, hfb⟩ := formatBytes_total _ (toUint64_lt v)
  have hle : v ≤ 2 ^ 60 → memLimitV1 limitFile
      = some ["  cgroup v1 memory.limit_in_bytes: " ++ fb] := by
    intro h
    unfold memLimitV1
    rw [hv]
    simp only
    rw [if_neg (by omega), hfb]
    rfl
  refine ⟨U ++ S, ?_, ?_, ?_, ?_⟩
  · unfold printMemoryInfoV1
    rw [seq3_some _ _ _ _ _ _ memLimitV1_none hU hS]
    rfl
  · intro h
    have hL : memLimitV1 limitFile = some ["  cgroup v1 memory.limit_in_bytes: unlimited"] := by
      unfold memLimitV1
      rw [hv]
      simp only
      rw [if_pos h]
    unfold printMemoryInfoV1
    rw [seq3_some _ _ _ _ _ _ hL hU hS]
    simp
  · intro h
    refine ⟨fb, hfb, ?_⟩
    unfold printMemoryInfoV1
    rw [seq3_some _ _ _ _ _ _ (hle h) hU hS]
    simp
  · intro h
    have h1 : toUint64 v = 2 ^ 60 - 1 := by
      subst h
      decide
    rw [h1, formatBytes_pib_edge] at hfb
    have h2 : fb = "1024.00 PB" := by
      injection hfb with h3
      exact h3.symm
    subst h2
    unfold printMemoryInfoV1
    rw [seq3_some _ _ _ _ _ _ (hle (by omega)) hU hS]
    simp

theorem printMemoryInfoV1_limit_threshold_witness :
    (∃ rest : List String,
      printMemoryInfoV1 none (some "4096\n") none = some rest ∧
      printMemoryInfoV1 (some "9223372036854771712\n") (some "4096\n") none
        = some ("  cgroup v1 memory.limit_in_bytes: unlimited" :: rest)) ∧
    (∃ rest : List String,
      printMemoryInfoV1 none (some "4096\n") none = some rest ∧
      printMemoryInfoV1 (some "1152921504606846975\n") (some "4096\n") none
        = some ("  cgroup v1 memory.limit_in_bytes: 1024.00 PB" :: rest)) := by
  constructor
  · obtain ⟨rest, h0, h1, _, _⟩ :=
      printMemoryInfoV1_limit_threshold (some "9223372036854771712\n") (some "4096\n") none
        9223372036854771712 (by decide)
    exact ⟨rest, h0, h1 (by decide)⟩
  · obtain ⟨rest, h0, _, _, h3⟩ :=
      printMemoryInfoV1_limit_threshold (some "1152921504606846975\n") (some "4096\n") none
        1152921504606846975 (by decide)
    exact ⟨rest, h0, h3 (by decide)⟩

/-- C4, the claim as stated fails: `2^63` is a decimal integer above `2^60`, and
written in `memory.limit_in_bytes` it is out of range for `ParseInt`, so no limit
line is printed at all, not `unlimited`. -/
theorem printMemoryInfoV1_limit_above_int64 :
    (2 : Nat) ^ 60 < 9223372036854775808 ∧
    ParseUint "9223372036854775808" = some 9223372036854775808 ∧
    readInt64FromFile (some "9223372036854775808") = none ∧
    printMemoryInfoV1 (some "9223372036854775808") none none = some [] := by
  decide

/-! ## Fields, TrimSpace and HasPrefix on stat lines -/

theorem fieldsChars_cons_space (c : Char) (s : List Char) (h : isSpace c = true) :
    fieldsChars (c :: s) = fieldsChars s := by
  simp [fieldsChars, List.splitOnP_cons, h]

theorem fieldsChars_token (t : List Char) (ht : t ≠ []) (hns : ∀ c ∈ t, isSpace c = false) :
    fieldsChars t = [t] := by
  unfold fieldsChars
  rw [List.splitOnP_eq_single _ _ (by simpa using hns)]
  simp [ht]

theorem fieldsChars_token_sep (t : List Char) (c : Char) (s : List Char) (ht : t ≠ [])
    (hns : ∀ x ∈ t, isSpace x = false) (hc : isSpace c = true) :
    fieldsChars (t ++ c :: s) = t :: fieldsChars s := by
  unfold fieldsChars
  rw [List.splitOnP_first _ _ (by simpa using hns) c hc]
  simp [ht]

theorem splitOnP_concat_sep (s : List Char) (c : Char) (hc : isSpace c = true) :
    (s ++ [c]).splitOnP isSpace = s.splitOnP isSpace ++ [[]] := by
  induction s with
  | nil => simp [List.splitOnP_cons, hc]
  | cons x xs ih =>
    rw [List.cons_append, List.splitOnP_cons, List.splitOnP_cons, ih]
    by_cases hx : isSpace x = true
    · simp [hx]
    · simp only [hx, if_false]
      cases hsp : List.splitOnP isSpace xs with
      | nil => exact absurd hsp (List.splitOnP_ne_nil _ _)
      | cons a as => rfl

theorem fieldsChars_concat_space (s : List Char) (c : Char) (hc : isSpace c = true) :
    fieldsChars (s ++ [c]) = fieldsChars s := by
  unfold fieldsChars
  rw [splitOnP_concat_sep s c hc, List.filter_append]
  simp

theorem fieldsChars_dropWhile (s : List Char) :
    fieldsChars (s.dropWhile isSpace) = fieldsChars s := by
  induction s with
  | nil => rfl
  | cons x xs ih =>
    by_cases hx : isSpace x = true
    · rw [List.dropWhile_cons_of_pos hx, ih, fieldsChars_cons_space x xs hx]
    · rw [List.dropWhile_cons_of_neg hx]

theorem fieldsChars_rdropWhile (s : List Char) :
    fieldsChars (s.rdropWhile isSpace) = fieldsChars s := by
  induction s using List.reverseRecOn with
  | nil => rfl
  | append_singleton xs x ih =>
    by_cases hx : isSpace x = true
    · rw [List.rdropWhile_concat_pos _ _ _ hx, ih, fieldsChars_concat_space xs x hx]
    · rw [List.rdropWhile_concat_neg _ _ _ hx]

theorem trimSpaceChars_eq (s : List Char) :
    trimSpaceChars s = (s.dropWhile isSpace).rdropWhile isSpace := rfl

theorem fieldsChars_trim (s : List Char) : fieldsChars (trimSpaceChars s) = fieldsChars s := by
  rw [trimSpaceChars_eq, fieldsChars_rdropWhile, fieldsChars_dropWhile]

theorem Fields_TrimSpace (s : String) : Fields (TrimSpace s) = Fields s := by
  unfold Fields TrimSpace
  rw [fieldsChars_trim]

theorem append_sep_inj (k1 : List Char) : ∀ (k2 t r : List Char),
    (∀ x ∈ k1, isSpace x = false) → (∀ x ∈ k2, isSpace x = false) →
    k1 ++ ' ' :: t = k2 ++ ' ' :: r → k1 = k2 := by
  induction k1 with
  | nil =>
    intro k2 t r _ h2 h
    cases k2 with
    | nil => rfl
    | cons y ys =>
      simp only [List.nil_append, List.cons_append, List.cons.injEq] at h
      have := h2 y (by simp)
      rw [← h.1] at this
      exact absurd this (by decide)
  | cons x xs ih =>
    intro k2 t r h1 h2 h
    cases k2 with
    | nil =>
      simp only [List.nil_append, List.cons_append, List.cons.injEq] at h
      have := h1 x (by simp)
      rw [h.1] at this
      exact absurd this (by decide)
    | cons y ys =>
      simp only [List.cons_append, List.cons.injEq] at h
      rw [h.1, ih ys t r (fun c hc => h1 c (by simp [hc])) (fun c hc => h2 c (by simp [hc])) h.2]

theorem keys_clean : ∀ k ∈ keysV1 ++ keysV2, k.data ≠ [] ∧ ∀ c ∈ k.data, isSpace c = false := by
  decide

theorem hasKeyPrefix_iff (keys : List String) (line : String) :
    hasKeyPrefix keys line = true ↔ ∃ k ∈ keys, ∃ rest, line.data = k.data ++ ' ' :: rest := by
  unfold hasKeyPrefix HasPrefix
  rw [List.any_eq_true]
  constructor
  · rintro ⟨k, hk, hp⟩
    rw [List.isPrefixOf_iff_prefix] at hp
    obtain ⟨t, ht⟩ := hp
    refine ⟨k, hk, t, ?_⟩
    rw [← ht]
    simp [String.data_append]
  · rintro ⟨k, hk, rest, hr⟩
    refine ⟨k, hk, ?_⟩
    rw [List.isPrefixOf_iff_prefix, hr]
    refine ⟨rest, ?_⟩
    simp [String.data_append]

theorem statLine_surfaced (keys : List String) (raw k d : String) (v : Nat)
    (hf : Fields raw = [k, d]) (hv : ParseUint d = some v)
    (hp : hasKeyPrefix keys (TrimSpace raw) = true) :
    ∃ fb, formatBytes v = some fb ∧ statLine keys raw = some ["    " ++ k ++ ": " ++ fb] := by
  obtain ⟨fb, hfb⟩ := formatBytes_total v (ParseUint_lt _ _ hv)
  refine ⟨fb, hfb, ?_⟩
  unfold statLine
  simp only [hp, if_true, Fields_TrimSpace, hf, hv, hfb]

theorem statLine_key (keys : List String)
    (hclean : ∀ k ∈ keys, k.data ≠ [] ∧ ∀ c ∈ k.data, isSpace c = false)
    (raw : String) (out : List String) (x : String)
    (h : statLine keys raw = some out) (hx : x ∈ out) :
    ∃ k d v fb, k ∈ keys ∧ Fields raw = [k, d] ∧ ParseUint d = some v ∧
      formatBytes v = some fb ∧ HasPrefix (TrimSpace raw) (k ++ " ") = true ∧
      x = "    " ++ k ++ ": " ++ fb ∧ out = [x] := by
  unfold statLine at h
  simp only [Fields_TrimSpace] at h
  by_cases hp : hasKeyPrefix keys (TrimSpace raw) = true
  · rw [if_pos hp] at h
    obtain ⟨k, hk, rest, hrest⟩ := (hasKeyPrefix_iff keys _).mp hp
    obtain ⟨hne, hns⟩ := hclean k hk
    have hfields : Fields raw = k :: (fieldsChars rest).map String.mk := by
      rw [← Fields_TrimSpace]
      unfold Fields
      rw [hrest, fieldsChars_token_sep _ _ _ hne hns (by decide)]
      rfl
    have hpre : HasPrefix (TrimSpace raw) (k ++ " ") = true := by
      unfold HasPrefix
      rw [List.isPrefixOf_iff_prefix, hrest]
      exact ⟨rest, by simp [String.data_append]⟩
    rw [hfields] at h
    cases hr : (fieldsChars rest).map String.mk with
    | nil =>
      rw [hr] at h
      simp only [Option.some.injEq] at h
      subst h
      simp at hx
    | cons d ds =>
      cases ds with
      | cons d2 ds2 =>
        rw [hr] at h
        simp only [Option.some.injEq] at h
        subst h
        simp at hx
      | nil =>
        rw [hr] at h
        simp only at h
        cases hv : ParseUint d with
        | none =>
          rw [hv] at h
          simp only [Option.some.injEq] at h
          subst h
          simp at hx
        | some v =>
          rw [hv] at h
          simp only at h
          cases hfb : formatBytes v with
          | none =>
            rw [hfb] at h
            exact absurd h (by simp)
          | some fb =>
            rw [hfb] at h
            simp only [Option.some.injEq] at h
            subst h
            simp only [List.mem_singleton] at hx
            subst hx
            exact ⟨k, d, v, fb, hk, by rw [hfields, hr], hv, hfb, hpre, rfl, rfl⟩
  · rw [if_neg hp] at h
    simp only [Option.some.injEq] at h
    subst h
    simp at hx

theorem statLines_mem (keys : List String) (ls : List String) :
    ∀ out, statLines keys ls = some out →
      ∀ x, x ∈ out ↔ ∃ raw ∈ ls, ∃ o, statLine keys raw = some o ∧ x ∈ o := by
  induction ls with
  | nil =>
    intro out h x
    simp only [statLines, Option.some.injEq] at h
    subst h
    simp
  | cons l ls ih =>
    intro out h x
    obtain ⟨a, ha⟩ := statLine_total keys l
    obtain ⟨b, hb⟩ := statLines_total keys ls
    simp only [statLines, ha, hb, Option.some.injEq] at h
    subst h
    rw [List.mem_append, ih b hb x]
    constructor
    · rintro (hxa | ⟨raw, hraw, o, ho, hxo⟩)
      · exact ⟨l, by simp, a, ha, hxa⟩
      · exact ⟨raw, by simp [hraw], o, ho, hxo⟩
    · rintro ⟨raw, hraw, o, ho, hxo⟩
      rcases List.mem_cons.mp hraw with rfl | hraw
      · rw [ha] at ho
        injection ho with ho
        subst ho
        exact Or.inl hxo
      · exact Or.inr ⟨raw, hraw, o, ho, hxo⟩

theorem printMemoryInfoV1_stat_only (content : String) :
    printMemoryInfoV1 none none (some content)
      = (statLines keysV1 (Split content '\n')).map
          (fun ls => "  cgroup v1 memory.stat (selected):" :: ls) := by
  obtain ⟨b, hb⟩ := statLines_total keysV1 (Split content '\n')
  simp [printMemoryInfoV1, seq3, memLimitV1, bytesLine, memStatBlock, readInt64FromFile,
    readStringFromFile, hb]

theorem printMemoryInfoV2_stat_only (content : String) :
    printMemoryInfoV2 none none (some content)
      = (statLines keysV2 (Split content '\n')).map
          (fun ls => "  cgroup v2 memory.stat (selected):" :: ls) := by
  obtain ⟨b, hb⟩ := statLines_total keysV2 (Split content '\n')
  simp [printMemoryInfoV2, seq3, memMaxV2, bytesLine, memStatBlock, readInt64FromFile,
    readStringFromFile, hb]

theorem hasKeyPrefix_of_mem (keys : List String) (line k : String) (hk : k ∈ keys)
    (hp : HasPrefix line (k ++ " ") = true) : hasKeyPrefix keys line = true := by
  unfold hasKeyPrefix
  rw [List.any_eq_true]
  exact ⟨k, hk, hp⟩

theorem stat_selection_aux (keys : List String)
    (hclean : ∀ k ∈ keys, k.data ≠ [] ∧ ∀ c ∈ k.data, isSpace c = false) (ls : List String) :
    ∃ o, statLines keys ls = some o ∧
      (∀ raw k d v, raw ∈ ls → Fields raw = [k, d] → ParseUint d = some v →
        HasPrefix (TrimSpace raw) (k ++ " ") = true → k ∈ keys →
        ∃ fb, formatBytes v = some fb ∧ ("    " ++ k ++ ": " ++ fb) ∈ o) ∧
      (∀ x ∈ o, ∃ raw ∈ ls, ∃ k d v fb, k ∈ keys ∧ Fields raw = [k, d] ∧
        ParseUint d = some v ∧ formatBytes v = some fb ∧ x = "    " ++ k ++ ": " ++ fb) := by
  obtain ⟨o, ho⟩ := statLines_total keys ls
  refine ⟨o, ho, ?_, ?_⟩
  · intro raw k d v hraw hf hv hp hk
    obtain ⟨fb, hfb, hsl⟩ := statLine_surfaced keys raw k d v hf hv
      (hasKeyPrefix_of_mem keys _ k hk hp)
    exact ⟨fb, hfb, (statLines_mem keys ls o ho _).mpr ⟨raw, hraw, _, hsl, by simp⟩⟩
  · intro x hx
    obtain ⟨raw, hraw, o2, ho2, hx2⟩ := (statLines_mem keys ls o ho x).mp hx
    obtain ⟨k, d, v, fb, hk, hf, hv, hfb, _, hxe, _⟩ := statLine_key keys hclean raw o2 x ho2 hx2
    exact ⟨raw, hraw, k, d, v, fb, hk, hf, hv, hfb, hxe⟩

/-- C6, as amended: in the v1 and v2 `memory.stat` blocks a line is selected by
the test `HasPrefix(line, key + " ")` on the trimmed line.  For every content,
both extractors return the header followed by `o1` (v1) and `o2` (v2) with:
every line of the content whose fields are exactly a key `k` and a decimal
unsigned 64-bit value, and in which `k` is directly followed by a space
character, is surfaced as `k: formatBytes(value)` by the extractor whose
whitelist holds `k`; and every surfaced entry comes from a line whose first
field is its key, the key being in the whitelist of that extractor. -/
theorem memory_stat_selection (content : String) :
    ∃ o1 o2 : List String,
      printMemoryInfoV1 none none (some content)
        = some ("  cgroup v1 memory.stat (selected):" :: o1) ∧
      printMemoryInfoV2 none none (some content)
        = some ("  cgroup v2 memory.stat (selected):" :: o2) ∧
      (∀ raw k d v, raw ∈ Split content '\n' → Fields raw = [k, d] → ParseUint d = some v →
        HasPrefix (TrimSpace raw) (k ++ " ") = true →
        ∃ fb, formatBytes v = some fb ∧
          (k ∈ keysV1 → ("    " ++ k ++ ": " ++ fb) ∈ o1) ∧
          (k ∈ keysV2 → ("    " ++ k ++ ": " ++ fb) ∈ o2)) ∧
      (∀ x ∈ o1, ∃ raw ∈ Split content '\n', ∃ k d v fb, k ∈ keysV1 ∧ Fields raw = [k, d] ∧
        ParseUint d = some v ∧ formatBytes v = some fb ∧ x = "    " ++ k ++ ": " ++ fb) ∧
      (∀ x ∈ o2, ∃ raw ∈ Split content '\n', ∃ k d v fb, k ∈ keysV2 ∧ Fields raw = [k, d] ∧
        ParseUint d = some v ∧ formatBytes v = some fb ∧ x = "    " ++ k ++ ": " ++ fb) := by
  obtain ⟨o1, h1, a1, b1⟩ := stat_selection_aux keysV1
    (fun k hk => keys_clean k (by simp [hk])) (Split content '\n')
  obtain ⟨o2, h2, a2, b2⟩ := stat_selection_aux keysV2
    (fun k hk => keys_clean k (by simp [hk])) (Split content '\n')
  refine ⟨o1, o2, ?_, ?_, ?_, b1, b2⟩
  · rw [printMemoryInfoV1_stat_only, h1]; rfl
  · rw [printMemoryInfoV2_stat_only, h2]; rfl
  · intro raw k d v hraw hf hv hp
    obtain ⟨fb, hfb⟩ := formatBytes_total v (ParseUint_lt _ _ hv)
    refine ⟨fb, hfb, ?_, ?_⟩
    · intro hk
      obtain ⟨fb2, hfb2, hm⟩ := a1 raw k d v hraw hf hv hp hk
      rw [hfb] at hfb2
      injection hfb2 with e
      rw [e]
      exact hm
    · intro hk
      obtain ⟨fb2, hfb2, hm⟩ := a2 raw k d v hraw hf hv hp hk
      rw [hfb] at hfb2
      injection hfb2 with e
      rw [e]
      exact hm

theorem memory_stat_selection_witness :
    ∃ o1 : List String,
      printMemoryInfoV1 none none (some "cache 100\nanon 7")
        = some ("  cgroup v1 memory.stat (selected):" :: o1) ∧
      ∃ fb, formatBytes 100 = some fb ∧ ("    " ++ "cache" ++ ": " ++ fb) ∈ o1 := by
  obtain ⟨o1, _, h1, _, hsel, _, _⟩ := memory_stat_selection "cache 100\nanon 7"
  obtain ⟨fb, hfb, hk1, _⟩ := hsel "cache 100" "cache" "100" 100 (by decide) (by decide)
    (by decide) (by decide)
  exact ⟨o1, h1, fb, hfb, hk1 (by decide)⟩

/-- C6, the claim as stated fails: the line `cache<TAB>100` splits on white space
into the whitelisted key `cache` and the decimal value `100`, yet it is not
surfaced, because the key is not followed by a space character. -/
theorem memory_stat_tab_not_selected :
    Fields "cache\t100" = ["cache", "100"] ∧ "cache" ∈ keysV1 ∧
    ParseUint "100" = some 100 ∧
    printMemoryInfoV1 none none (some "cache\t100")
      = some ["  cgroup v1 memory.stat (selected):"] ∧
    printMemoryInfoV1 none none (some "cache 100")
      = some ["  cgroup v1 memory.stat (selected):", "    cache: 100 B"] := by
  decide

/-! ## Well-formed stat blobs -/

theorem digit_not_space (c : Char) (h : '0' ≤ c ∧ c ≤ '9') : isSpace c = false := by
  obtain ⟨h1, h2⟩ := h
  have h3 : 48 ≤ c.toNat := h1
  have h4 : c.toNat ≤ 57 := h2
  unfold isSpace
  simp only [Bool.or_eq_false_iff, beq_eq_false_iff_ne, Bool.and_eq_false_imp,
    decide_eq_true_eq, decide_eq_false_iff_not]
  omega

theorem parseDigits_no_space (s : List Char) : ∀ acc v : Nat,
    parseDigits acc s = some v → ∀ c ∈ s, isSpace c = false := by
  induction s with
  | nil => intro acc v _ c hc; simp at hc
  | cons x xs ih =>
    intro acc v h c hc
    simp only [parseDigits] at h
    split at h
    · rename_i hd
      split at h
      · rcases List.mem_cons.mp hc with rfl | hc
        · exact digit_not_space _ hd
        · exact ih _ v h c hc
      · exact absurd h (by simp)
    · exact absurd h (by simp)

theorem ParseUint_clean (d : String) (v : Nat) (h : ParseUint d = some v) :
    d.data ≠ [] ∧ ∀ c ∈ d.data, isSpace c = false := by
  unfold ParseUint parseUintChars at h
  split at h
  · exact absurd h (by simp)
  · rename_i hne
    exact ⟨hne, parseDigits_no_space _ 0 v h⟩

theorem trimSpaceChars_line (k d : List Char) (hk : k ≠ []) (hks : ∀ c ∈ k, isSpace c = false)
    (hd : d ≠ []) (hds : ∀ c ∈ d, isSpace c = false) :
    trimSpaceChars (k ++ ' ' :: d) = k ++ ' ' :: d := by
  rw [trimSpaceChars_eq]
  have h1 : (k ++ ' ' :: d).dropWhile isSpace = k ++ ' ' :: d := by
    cases k with
    | nil => exact absurd rfl hk
    | cons x xs =>
      have hx : ¬ isSpace x = true := by simp [hks x (by simp)]
      rw [List.cons_append, List.dropWhile_cons_of_neg hx]
  rw [h1, List.rdropWhile_eq_self_iff]
  intro hne
  have hlast : (k ++ ' ' :: d).getLast hne = d.getLast hd := by
    rw [List.getLast_append_of_ne_nil (List.cons_ne_nil ' ' d), List.getLast_cons hd]
  rw [hlast]
  simp [hds _ (List.getLast_mem hd)]

theorem statLine_wellformed (keys : List String)
    (hclean : ∀ k ∈ keys, k.data ≠ [] ∧ ∀ c ∈ k.data, isSpace c = false)
    (k d : String) (v : Nat) (hk : k.data ≠ []) (hks : ∀ c ∈ k.data, isSpace c = false)
    (hv : ParseUint d = some v) :
    ∃ fb, formatBytes v = some fb ∧
      statLine keys (k ++ " " ++ d)
        = some (if k ∈ keys then ["    " ++ k ++ ": " ++ fb] else []) := by
  obtain ⟨hd, hds⟩ := ParseUint_clean d v hv
  have hdata : (k ++ " " ++ d).data = k.data ++ ' ' :: d.data := by
    simp [String.data_append]
  have htrim : TrimSpace (k ++ " " ++ d) = k ++ " " ++ d := by
    unfold TrimSpace
    rw [hdata, trimSpaceChars_line _ _ hk hks hd hds, ← hdata]
  have hf : Fields (k ++ " " ++ d) = [k, d] := by
    unfold Fields
    rw [hdata, fieldsChars_token_sep _ _ _ hk hks (by decide), fieldsChars_token _ hd hds]
    rfl
  by_cases hmem : k ∈ keys
  · have hp : hasKeyPrefix keys (TrimSpace (k ++ " " ++ d)) = true := by
      rw [htrim, hasKeyPrefix_iff]
      exact ⟨k, hmem, d.data, hdata⟩
    obtain ⟨fb, hfb, hs⟩ := statLine_surfaced keys _ k d v hf hv hp
    exact ⟨fb, hfb, by rw [hs, if_pos hmem]⟩
  · obtain ⟨fb, hfb⟩ := formatBytes_total v (ParseUint_lt _ _ hv)
    refine ⟨fb, hfb, ?_⟩
    rw [if_neg hmem]
    have hp : ¬ hasKeyPrefix keys (TrimSpace (k ++ " " ++ d)) = true := by
      rw [htrim, hasKeyPrefix_iff]
      rintro ⟨k2, hk2, rest, hrest⟩
      rw [hdata] at hrest
      have := append_sep_inj k.data k2.data d.data rest hks (hclean k2 hk2).2 hrest
      have hkk : k = k2 := String.ext this
      exact hmem (hkk ▸ hk2)
    unfold statLine
    simp only [hp, if_false]
    rfl

theorem Split_joinLines (ls : List String) (hne : ls ≠ [])
    (h : ∀ l ∈ ls, '\n' ∉ l.data) : Split (joinLines ls) '\n' = ls := by
  unfold Split joinLines
  simp only
  rw [List.splitOn_intercalate _ '\n' (by simpa using h) (by simpa using hne)]
  rw [List.map_map]
  exact List.map_id _

theorem statLines_wellformed (keys : List String)
    (hclean : ∀ k ∈ keys, k.data ≠ [] ∧ ∀ c ∈ k.data, isSpace c = false)
    (es : List (String × String))
    (hwf : ∀ e ∈ es, e.1.data ≠ [] ∧ (∀ c ∈ e.1.data, isSpace c = false) ∧
      ∃ v, ParseUint e.2 = some v) :
    ∃ out, statLines keys (es.map (fun e => e.1 ++ " " ++ e.2)) = some out ∧
      List.Forall₂ (fun e x => ∃ v fb, ParseUint e.2 = some v ∧ formatBytes v = some fb ∧
          x = "    " ++ e.1 ++ ": " ++ fb)
        (es.filter (fun e => decide (e.1 ∈ keys))) out := by
  induction es with
  | nil => exact ⟨[], rfl, List.Forall₂.nil⟩
  | cons e es ih =>
    obtain ⟨out, hout, hall⟩ := ih (fun x hx => hwf x (by simp [hx]))
    obtain ⟨hk, hks, v, hv⟩ := hwf e (by simp)
    obtain ⟨fb, hfb, hs⟩ := statLine_wellformed keys hclean e.1 e.2 v hk hks hv
    by_cases hmem : e.1 ∈ keys
    · rw [if_pos hmem] at hs
      refine ⟨("    " ++ e.1 ++ ": " ++ fb) :: out, ?_, ?_⟩
      · simp [statLines, hs, hout]
      · rw [List.filter_cons_of_pos (by simpa using hmem)]
        exact List.Forall₂.cons ⟨v, fb, hv, hfb, rfl⟩ hall
    · rw [if_neg hmem] at hs
      refine ⟨out, ?_, ?_⟩
      · simp [statLines, hs, hout]
      · rw [List.filter_cons_of_neg (by simpa using hmem)]
        exact hall

theorem line_no_newline (k d : String) (v : Nat) (hks : ∀ c ∈ k.data, isSpace c = false)
    (hv : ParseUint d = some v) : '\n' ∉ (k ++ " " ++ d).data := by
  obtain ⟨_, hds⟩ := ParseUint_clean d v hv
  have hdata : (k ++ " " ++ d).data = k.data ++ ' ' :: d.data := by
    simp [String.data_append]
  rw [hdata]
  intro hmem
  rcases List.mem_append.mp hmem with h | h
  · exact absurd (hks _ h) (by decide)
  · rcases List.mem_cons.mp h with h | h
    · exact absurd h (by decide)
    · exact absurd (hds _ h) (by decide)

/-- C5: in the v1 `memory.stat` extraction, for every blob made of lines
`<key> <decimal uint64>` (a key without white space, one space, digits that
`ParseUint` accepts), the output is the header followed by exactly the lines
whose key is one of `cache`, `rss`, `mapped_file`, `inactive_anon`, in their
input order, each rendered as `<key>: formatBytes(value)`; the lines with any
other key are omitted.  The blob `cache 100\nrss 200\nunrelated 999` gives
`cache: 100 B` and `rss: 200 B` only. -/
theorem printMemoryInfoV1_stat_filter (es : List (String × String))
    (hwf : ∀ e ∈ es, e.1.data ≠ [] ∧ (∀ c ∈ e.1.data, isSpace c = false) ∧
      (ParseUint e.2).isSome = true) :
    (∃ out,
      printMemoryInfoV1 none none (some (joinLines (es.map (fun e => e.1 ++ " " ++ e.2))))
        = some ("  cgroup v1 memory.stat (selected):" :: out) ∧
      List.Forall₂ (fun e x => ∃ v fb, ParseUint e.2 = some v ∧ formatBytes v = some fb ∧
          x = "    " ++ e.1 ++ ": " ++ fb)
        (es.filter (fun e => decide (e.1 ∈ ["cache", "rss", "mapped_file", "inactive_anon"])))
        out) ∧
    printMemoryInfoV1 none none (some "cache 100\nrss 200\nunrelated 999")
      = some ["  cgroup v1 memory.stat (selected):", "    cache: 100 B", "    rss: 200 B"] := by
  refine ⟨?_, by decide⟩
  have hwf2 : ∀ e ∈ es, e.1.data ≠ [] ∧ (∀ c ∈ e.1.data, isSpace c = false) ∧
      ∃ v, ParseUint e.2 = some v := by
    intro e he
    obtain ⟨h1, h2, h3⟩ := hwf e he
    exact ⟨h1, h2, Option.isSome_iff_exists.mp h3⟩
  obtain ⟨out, hout, hall⟩ := statLines_wellformed keysV1
    (fun k hk => keys_clean k (by simp [hk])) es hwf2
  refine ⟨out, ?_, hall⟩
  rw [printMemoryInfoV1_stat_only]
  cases es with
  | nil =>
    simp only [statLines, Option.some.injEq] at hout
    subst hout
    decide
  | cons e es2 =>
    rw [Split_joinLines _ (by simp), hout]
    · rfl
    · intro l hl
      obtain ⟨e2, he2, rfl⟩ := List.mem_map.mp hl
      obtain ⟨_, hks, v, hv⟩ := hwf2 e2 he2
      exact line_no_newline e2.1 e2.2 v hks hv

theorem printMemoryInfoV1_stat_filter_witness :
    (∃ out,
      printMemoryInfoV1 none none (some (joinLines
          ([("cache", "100"), ("rss", "200"), ("unrelated", "999")].map
            (fun e => e.1 ++ " " ++ e.2))))
        = some ("  cgroup v1 memory.stat (selected):" :: out) ∧
      List.Forall₂ (fun e x => ∃ v fb, ParseUint e.2 = some v ∧ formatBytes v = some fb ∧
          x = "    " ++ e.1 ++ ": " ++ fb)
        ([("cache", "100"), ("rss", "200"), ("unrelated", "999")].filter
          (fun e => decide (e.1 ∈ ["cache", "rss", "mapped_file", "inactive_anon"])))
        out) ∧
    printMemoryInfoV1 none none (some "cache 100\nrss 200\nunrelated 999")
      = some ["  cgroup v1 memory.stat (selected):", "    cache: 100 B", "    rss: 200 B"] :=
  printMemoryInfoV1_stat_filter [("cache", "100"), ("rss", "200"), ("unrelated", "999")]
    (by decide)

/-! ## Independence of the files -/

theorem printCPUInfoV1_split (f1 f2 f3 : Option String) :
    ∃ QL P U F : List String,
      printCPUInfoV1 f1 none none = some QL ∧
      printCPUInfoV1 none f2 none = some P ∧
      printCPUInfoV1 none none f3 = some U ∧
      printCPUInfoV1 f1 f2 f3 = some (QL.take 1 ++ P ++ QL.drop 1 ++ F ++ U) ∧
      (F = [] ∨ ∃ q p, readInt64FromFile f1 = some q ∧ readInt64FromFile f2 = some p ∧
        0 < q ∧ 0 < p ∧
        F = ["  CPU Limit: " ++ F64.fmt2 (F64.div (F64.ofInt q) (F64.ofInt p)) ++ " cores"]) := by
  refine ⟨_, _, _, if 0 < (readInt64FromFile f1).getD 0 ∧ 0 < (readInt64FromFile f2).getD 0 then
      ["  CPU Limit: " ++ F64.fmt2 (F64.div (F64.ofInt ((readInt64FromFile f1).getD 0))
        (F64.ofInt ((readInt64FromFile f2).getD 0))) ++ " cores"] else [],
    printCPUInfoV1_eq f1 none none, printCPUInfoV1_eq none f2 none,
    printCPUInfoV1_eq none none f3, ?_, ?_⟩
  · rw [printCPUInfoV1_eq]
    cases h1 : readInt64FromFile f1 with
    | none => simp [readInt64FromFile_none, intLine, cpuLimitV1]
    | some q =>
      cases h2 : readInt64FromFile f2 with
      | none =>
        by_cases hq : q = -1
        · simp [readInt64FromFile_none, intLine, cpuLimitV1, hq]
        · simp [readInt64FromFile_none, intLine, cpuLimitV1, hq]
      | some p =>
        by_cases hq : q = -1
        · subst hq
          simp [readInt64FromFile_none, intLine, cpuLimitV1]
        · by_cases hpos : 0 < q ∧ 0 < p
          · simp [readInt64FromFile_none, intLine, cpuLimitV1, hq, hpos]
          · simp [readInt64FromFile_none, intLine, cpuLimitV1, hq, hpos]
  · cases h1 : readInt64FromFile f1 with
    | none => left; simp
    | some q =>
      cases h2 : readInt64FromFile f2 with
      | none => left; simp
      | some p =>
        by_cases hpos : 0 < q ∧ 0 < p
        · right
          exact ⟨q, p, rfl, rfl, hpos.1, hpos.2, by simp [hpos]⟩
        · left
          simp [hpos]

theorem printMemoryInfoV1_split (f1 f2 f3 : Option String) :
    ∃ L U S : List String,
      printMemoryInfoV1 f1 none none = some L ∧
      printMemoryInfoV1 none f2 none = some U ∧
      printMemoryInfoV1 none none f3 = some S ∧
      printMemoryInfoV1 f1 f2 f3 = some (L ++ U ++ S) := by
  obtain ⟨L, hL⟩ := memLimitV1_total f1
  obtain ⟨U, hU⟩ := bytesLine_total "  cgroup v1 memory.usage_in_bytes: " f2
  obtain ⟨S, hS⟩ := memStatBlock_total "  cgroup v1 memory.stat (selected):" keysV1 f3
  refine ⟨L, U, S, ?_, ?_, ?_, ?_⟩
  · unfold printMemoryInfoV1
    rw [seq3_some _ _ _ _ _ _ hL (bytesLine_none _) (memStatBlock_none _ _)]
    simp
  · unfold printMemoryInfoV1
    rw [seq3_some _ _ _ _ _ _ memLimitV1_none hU (memStatBlock_none _ _)]
    simp
  · unfold printMemoryInfoV1
    rw [seq3_some _ _ _ _ _ _ memLimitV1_none (bytesLine_none _) hS]
    simp
  · unfold printMemoryInfoV1
    rw [seq3_some _ _ _ _ _ _ hL hU hS]

theorem printMemoryInfoV2_split (f1 f2 f3 : Option String) :
    ∃ L U S : List String,
      printMemoryInfoV2 f1 none none = some L ∧
      printMemoryInfoV2 none f2 none = some U ∧
      printMemoryInfoV2 none none f3 = some S ∧
      printMemoryInfoV2 f1 f2 f3 = some (L ++ U ++ S) := by
  obtain ⟨L, hL⟩ := memMaxV2_total f1
  obtain ⟨U, hU⟩ := bytesLine_total "  cgroup v2 memory.current: " f2
  obtain ⟨S, hS⟩ := memStatBlock_total "  cgroup v2 memory.stat (selected):" keysV2 f3
  refine ⟨L, U, S, ?_, ?_, ?_, ?_⟩
  · unfold printMemoryInfoV2
    rw [seq3_some _ _ _ _ _ _ hL (bytesLine_none _) (memStatBlock_none _ _)]
    simp
  · unfold printMemoryInfoV2
    rw [seq3_some _ _ _ _ _ _ memMaxV2_none hU (memStatBlock_none _ _)]
    simp
  · unfold printMemoryInfoV2
    rw [seq3_some _ _ _ _ _ _ memMaxV2_none (bytesLine_none _) hS]
    simp
  · unfold printMemoryInfoV2
    rw [seq3_some _ _ _ _ _ _ hL hU hS]

/-- C10: missing-file resilience.  Each extractor's output is assembled from the
outputs it gives for each of its files alone, and with no file it prints
nothing; so an absent file contributes no line and leaves the lines of the
other files exactly as they are.  For the v1 CPU extractor the quota file alone
gives `QL` (its line, then `CPU Limit: unlimited` when the quota is `-1`), the
period file alone `P`, the usage file alone `U`, and the only line that needs
two files is the finite `CPU Limit` line `F`, absent unless both the quota and
the period are read. -/
theorem missing_file_resilience (f1 f2 f3 : Option String) :
    (∃ QL P U F : List String,
      printCPUInfoV1 f1 none none = some QL ∧
      printCPUInfoV1 none f2 none = some P ∧
      printCPUInfoV1 none none f3 = some U ∧
      printCPUInfoV1 f1 f2 f3 = some (QL.take 1 ++ P ++ QL.drop 1 ++ F ++ U) ∧
      (F = [] ∨ ∃ q p, readInt64FromFile f1 = some q ∧ readInt64FromFile f2 = some p ∧
        0 < q ∧ 0 < p ∧
        F = ["  CPU Limit: " ++ F64.fmt2 (F64.div (F64.ofInt q) (F64.ofInt p)) ++ " cores"])) ∧
    printCPUInfoV1 none none none = some [] ∧
    printCPUInfoV2 f1 f2 = printCPUInfoV2 f1 none ++ printCPUInfoV2 none f2 ∧
    printCPUInfoV2 none none = [] ∧
    (∃ L U S : List String,
      printMemoryInfoV1 f1 none none = some L ∧
      printMemoryInfoV1 none f2 none = some U ∧
      printMemoryInfoV1 none none f3 = some S ∧
      printMemoryInfoV1 f1 f2 f3 = some (L ++ U ++ S)) ∧
    printMemoryInfoV1 none none none = some [] ∧
    (∃ L U S : List String,
      printMemoryInfoV2 f1 none none = some L ∧
      printMemoryInfoV2 none f2 none = some U ∧
      printMemoryInfoV2 none none f3 = some S ∧
      printMemoryInfoV2 f1 f2 f3 = some (L ++ U ++ S)) ∧
    printMemoryInfoV2 none none none = some [] := by
  refine ⟨printCPUInfoV1_split f1 f2 f3, rfl, ?_, rfl, printMemoryInfoV1_split f1 f2 f3, rfl,
    printMemoryInfoV2_split f1 f2 f3, rfl⟩
  simp [printCPUInfoV2, readStringFromFile]

/-! ## Limit lines -/

theorem cpuLimitV1_mem (quota period : Int) (line : String) (h : line ∈ cpuLimitV1 quota period) :
    line = "  CPU Limit: unlimited" ∨
    (0 < quota ∧ 0 < period ∧
      line = "  CPU Limit: " ++ F64.fmt2 (F64.div (F64.ofInt quota) (F64.ofInt period)) ++
        " cores") := by
  unfold cpuLimitV1 at h
  split at h
  · rename_i hpos
    right
    exact ⟨hpos.1, hpos.2, by simpa using h⟩
  · split at h
    · left
      simpa using h
    · simp at h

theorem cpuLimitV2_mem (parts : List String) (line : String) (h : line ∈ cpuLimitV2 parts) :
    line = "  CPU Limit: unlimited" ∨
    ∃ t0 t1 q p, parts = [t0, t1] ∧ ParseInt t0 = some q ∧ ParseInt t1 = some p ∧ 0 < p ∧
      line = "  CPU Limit: " ++ F64.fmt2 (F64.div (F64.ofInt q) (F64.ofInt p)) ++ " cores" := by
  unfold cpuLimitV2 at h
  split at h
  · rename_i p0 p1
    split at h
    · left
      simpa using h
    · split at h
      · rename_i q p hq hp
        split at h
        · rename_i hpos
          right
          exact ⟨p0, p1, q, p, rfl, hq, hp, hpos, by simpa using h⟩
        · simp at h
      · simp at h
  · simp at h

theorem getD_pos_some (r : Option Int) (h : 0 < r.getD 0) : r = some (r.getD 0) := by
  cases r with
  | none => simp at h
  | some v => rfl

theorem printCPUInfoV1_limit_lines (f1 f2 f3 : Option String) (out : List String)
    (line : String) (hout : printCPUInfoV1 f1 f2 f3 = some out) (hl : line ∈ out)
    (hp : HasPrefix line "  CPU Limit: " = true) :
    line = "  CPU Limit: unlimited" ∨
    ∃ q p, readInt64FromFile f1 = some q ∧ readInt64FromFile f2 = some p ∧ 0 < q ∧ 0 < p ∧
      line = "  CPU Limit: " ++ F64.fmt2 (F64.div (F64.ofInt q) (F64.ofInt p)) ++ " cores" := by
  rw [printCPUInfoV1_eq] at hout
  injection hout with hout
  subst hout
  simp only [List.mem_append] at hl
  rcases hl with ((hl | hl) | hl) | hl
  · unfold intLine at hl
    split at hl
    · simp only [List.mem_singleton] at hl
      subst hl
      exact absurd hp (Bool.eq_false_iff.mp rfl)
    · simp at hl
  · unfold intLine at hl
    split at hl
    · simp only [List.mem_singleton] at hl
      subst hl
      exact absurd hp (Bool.eq_false_iff.mp rfl)
    · simp at hl
  · rcases cpuLimitV1_mem _ _ _ hl with h | ⟨hq, hp2, h⟩
    · exact Or.inl h
    · exact Or.inr ⟨_, _, getD_pos_some _ hq, getD_pos_some _ hp2, hq, hp2, h⟩
  · split at hl
    · simp at hl
    · simp only [List.mem_singleton] at hl
      subst hl
      exact absurd hp (Bool.eq_false_iff.mp rfl)

theorem printCPUInfoV2_limit_lines (f1 f2 : Option String) (line : String)
    (hl : line ∈ printCPUInfoV2 f1 f2) (hp : HasPrefix line "  CPU Limit: " = true) :
    line = "  CPU Limit: unlimited" ∨
    ∃ content t0 t1 q p, f1 = some content ∧ Fields content = [t0, t1] ∧
      ParseInt t0 = some q ∧ ParseInt t1 = some p ∧ 0 < p ∧
      line = "  CPU Limit: " ++ F64.fmt2 (F64.div (F64.ofInt q) (F64.ofInt p)) ++ " cores" := by
  unfold printCPUInfoV2 at hl
  simp only [List.mem_append] at hl
  rcases hl with hl | hl
  · cases f1 with
    | none => simp [readStringFromFile] at hl
    | some content =>
      simp only [readStringFromFile, List.mem_append, List.mem_singleton] at hl
      rcases hl with hl | hl
      · subst hl
        exact absurd hp (Bool.eq_false_iff.mp rfl)
      · rcases cpuLimitV2_mem _ _ hl with h | ⟨t0, t1, q, p, h1, h2, h3, h4, h5⟩
        · exact Or.inl h
        · exact Or.inr ⟨content, t0, t1, q, p, rfl, h1, h2, h3, h4, h5⟩
  · cases f2 with
    | none => simp [readStringFromFile] at hl
    | some content =>
      simp only [readStringFromFile, List.mem_append, List.mem_singleton, List.mem_map] at hl
      rcases hl with hl | ⟨x, _, hx⟩
      · subst hl
        exact absurd hp (by decide)
      · subst hx
        exact absurd hp (Bool.eq_false_iff.mp rfl)

theorem seq3_eq_some (a b c : Option (List String)) (out : List String)
    (h : seq3 a b c = some out) :
    ∃ x y z, a = some x ∧ b = some y ∧ c = some z ∧ out = x ++ y ++ z := by
  cases a with
  | none => simp [seq3] at h
  | some x =>
    cases b with
    | none => simp [seq3] at h
    | some y =>
      cases c with
      | none => simp [seq3] at h
      | some z =>
        simp only [seq3, Option.some.injEq] at h
        exact ⟨x, y, z, rfl, rfl, rfl, h.symm⟩

theorem bytesLine_mem (label : String) (file : Option String) (U : List String) (x : String)
    (h : bytesLine label file = some U) (hx : x ∈ U) : ∃ fb, x = label ++ fb := by
  unfold bytesLine at h
  split at h
  · simp only [Option.some.injEq] at h
    subst h
    simp at hx
  · cases hfb : formatBytes (toUint64 ‹Int›) with
    | none => rw [hfb] at h; simp at h
    | some fb =>
      rw [hfb] at h
      simp only [Option.map_some', Option.some.injEq] at h
      subst h
      exact ⟨fb, by simpa using hx⟩

theorem memStatBlock_mem (header : String) (keys : List String)
    (hclean : ∀ k ∈ keys, k.data ≠ [] ∧ ∀ c ∈ k.data, isSpace c = false)
    (file : Option String) (S : List String) (x : String)
    (h : memStatBlock header keys file = some S) (hx : x ∈ S) :
    x = header ∨ ∃ k fb, x = "    " ++ k ++ ": " ++ fb := by
  cases file with
  | none =>
    simp only [memStatBlock, readStringFromFile, Option.some.injEq] at h
    subst h
    simp at hx
  | some content =>
    obtain ⟨o, ho⟩ := statLines_total keys (Split content '\n')
    simp only [memStatBlock, readStringFromFile, ho, Option.map_some', Option.some.injEq] at h
    subst h
    rcases List.mem_cons.mp hx with hx | hx
    · exact Or.inl hx
    · obtain ⟨raw, _, o2, ho2, hx2⟩ := (statLines_mem keys _ o ho x).mp hx
      obtain ⟨k, _, _, fb, _, _, _, _, _, hxe, _⟩ := statLine_key keys hclean raw o2 x ho2 hx2
      exact Or.inr ⟨k, fb, hxe⟩

theorem memLimitV1_mem (f1 : Option String) (L : List String) (x : String)
    (h : memLimitV1 f1 = some L) (hx : x ∈ L) :
    x = "  cgroup v1 memory.limit_in_bytes: unlimited" ∨
    ∃ v fb, readInt64FromFile f1 = some v ∧ v ≤ 2 ^ 60 ∧ formatBytes (toUint64 v) = some fb ∧
      x = "  cgroup v1 memory.limit_in_bytes: " ++ fb := by
  unfold memLimitV1 at h
  cases hr : readInt64FromFile f1 with
  | none =>
    rw [hr] at h
    simp only [Option.some.injEq] at h
    subst h
    simp at hx
  | some v =>
    rw [hr] at h
    simp only at h
    by_cases hv : 2 ^ 60 < v
    · rw [if_pos hv] at h
      simp only [Option.some.injEq] at h
      subst h
      exact Or.inl (by simpa using hx)
    · rw [if_neg hv] at h
      cases hfb : formatBytes (toUint64 v) with
      | none => rw [hfb] at h; simp at h
      | some fb =>
        rw [hfb] at h
        simp only [Option.map_some', Option.some.injEq] at h
        subst h
        exact Or.inr ⟨v, fb, rfl, by omega, hfb, by simpa using hx⟩

theorem memMaxV2_mem (f1 : Option String) (L : List String) (x : String)
    (h : memMaxV2 f1 = some L) (hx : x ∈ L) :
    x = "  cgroup v2 memory.max: unlimited" ∨
    ∃ content v fb, f1 = some content ∧ ParseUint (TrimSpace content) = some v ∧
      formatBytes v = some fb ∧ x = "  cgroup v2 memory.max: " ++ fb := by
  unfold memMaxV2 at h
  cases f1 with
  | none =>
    simp only [readStringFromFile, Option.some.injEq] at h
    subst h
    simp at hx
  | some content =>
    simp only [readStringFromFile] at h
    by_cases hm : TrimSpace content = "max"
    · rw [if_pos hm] at h
      simp only [Option.some.injEq] at h
      subst h
      exact Or.inl (by simpa using hx)
    · rw [if_neg hm] at h
      cases hv : ParseUint (TrimSpace content) with
      | none =>
        rw [hv] at h
        simp only [Option.some.injEq] at h
        subst h
        simp at hx
      | some v =>
        rw [hv] at h
        simp only at h
        cases hfb : formatBytes v with
        | none => rw [hfb] at h; simp at h
        | some fb =>
          rw [hfb] at h
          simp only [Option.map_some', Option.some.injEq] at h
          subst h
          exact Or.inr ⟨content, v, fb, rfl, hv, hfb, by simpa using hx⟩

theorem printMemoryInfoV1_limit_lines (f1 f2 f3 : Option String) (out : List String)
    (line : String) (hout : printMemoryInfoV1 f1 f2 f3 = some out) (hl : line ∈ out)
    (hp : HasPrefix line "  cgroup v1 memory.limit_in_bytes: " = true) :
    line = "  cgroup v1 memory.limit_in_bytes: unlimited" ∨
    ∃ v fb, readInt64FromFile f1 = some v ∧ v ≤ 2 ^ 60 ∧ formatBytes (toUint64 v) = some fb ∧
      line = "  cgroup v1 memory.limit_in_bytes: " ++ fb := by
  obtain ⟨L, U, S, hL, hU, hS, rfl⟩ := seq3_eq_some _ _ _ _ hout
  simp only [List.mem_append] at hl
  rcases hl with (hl | hl) | hl
  · exact memLimitV1_mem f1 L line hL hl
  · obtain ⟨fb, rfl⟩ := bytesLine_mem _ _ _ _ hU hl
    exact absurd hp (Bool.eq_false_iff.mp rfl)
  · rcases memStatBlock_mem _ _ (fun k hk => keys_clean k (by simp [hk])) _ _ _ hS hl with
      rfl | ⟨k, fb, rfl⟩
    · exact absurd hp (by decide)
    · exact absurd hp (Bool.eq_false_iff.mp rfl)

theorem printMemoryInfoV2_limit_lines (f1 f2 f3 : Option String) (out : List String)
    (line : String) (hout : printMemoryInfoV2 f1 f2 f3 = some out) (hl : line ∈ out)
    (hp : HasPrefix line "  cgroup v2 memory.max: " = true) :
    line = "  cgroup v2 memory.max: unlimited" ∨
    ∃ content v fb, f1 = some content ∧ ParseUint (TrimSpace content) = some v ∧
      formatBytes v = some fb ∧ line = "  cgroup v2 memory.max: " ++ fb := by
  obtain ⟨L, U, S, hL, hU, hS, rfl⟩ := seq3_eq_some _ _ _ _ hout
  simp only [List.mem_append] at hl
  rcases hl with (hl | hl) | hl
  · exact memMaxV2_mem f1 L line hL hl
  · obtain ⟨fb, rfl⟩ := bytesLine_mem _ _ _ _ hU hl
    exact absurd hp (Bool.eq_false_iff.mp rfl)
  · rcases memStatBlock_mem _ _ (fun k hk => keys_clean k (by simp [hk])) _ _ _ hS hl with
      rfl | ⟨k, fb, rfl⟩
    · exact absurd hp (by decide)
    · exact absurd hp (Bool.eq_false_iff.mp rfl)

/-- C3, as amended: in the four extractors a limit line is either `unlimited` or
the rendering of values that were read and parsed: for the v1 CPU ratio the
quota and the period both parsed and strictly positive, for the v2 CPU ratio
both fields of `cpu.max` parsed and the period strictly positive, for the v1
memory limit the parsed value (at most `2^60`), for the v2 memory limit the
parsed unsigned value.  A failed read or parse never yields a numeric limit
line.  (Nothing excludes a parsed value that renders as zero.) -/
theorem finite_limit_only_when_parsed (f1 f2 f3 : Option String) :
    (∀ out line, printCPUInfoV1 f1 f2 f3 = some out → line ∈ out →
      HasPrefix line "  CPU Limit: " = true →
      line = "  CPU Limit: unlimited" ∨
      ∃ q p, readInt64FromFile f1 = some q ∧ readInt64FromFile f2 = some p ∧ 0 < q ∧ 0 < p ∧
        line = "  CPU Limit: " ++ F64.fmt2 (F64.div (F64.ofInt q) (F64.ofInt p)) ++ " cores") ∧
    (∀ line, line ∈ printCPUInfoV2 f1 f2 → HasPrefix line "  CPU Limit: " = true →
      line = "  CPU Limit: unlimited" ∨
      ∃ content t0 t1 q p, f1 = some content ∧ Fields content = [t0, t1] ∧
        ParseInt t0 = some q ∧ ParseInt t1 = some p ∧ 0 < p ∧
        line = "  CPU Limit: " ++ F64.fmt2 (F64.div (F64.ofInt q) (F64.ofInt p)) ++ " cores") ∧
    (∀ out line, printMemoryInfoV1 f1 f2 f3 = some out → line ∈ out →
      HasPrefix line "  cgroup v1 memory.limit_in_bytes: " = true →
      line = "  cgroup v1 memory.limit_in_bytes: unlimited" ∨
      ∃ v fb, readInt64FromFile f1 = some v ∧ v ≤ 2 ^ 60 ∧
        formatBytes (toUint64 v) = some fb ∧
        line = "  cgroup v1 memory.limit_in_bytes: " ++ fb) ∧
    (∀ out line, printMemoryInfoV2 f1 f2 f3 = some out → line ∈ out →
      HasPrefix line "  cgroup v2 memory.max: " = true →
      line = "  cgroup v2 memory.max: unlimited" ∨
      ∃ content v fb, f1 = some content ∧ ParseUint (TrimSpace content) = some v ∧
        formatBytes v = some fb ∧ line = "  cgroup v2 memory.max: " ++ fb) :=
  ⟨fun out line h1 h2 h3 => printCPUInfoV1_limit_lines f1 f2 f3 out line h1 h2 h3,
   fun line h2 h3 => printCPUInfoV2_limit_lines f1 f2 line h2 h3,
   fun out line h1 h2 h3 => printMemoryInfoV1_limit_lines f1 f2 f3 out line h1 h2 h3,
   fun out line h1 h2 h3 => printMemoryInfoV2_limit_lines f1 f2 f3 out line h1 h2 h3⟩

theorem finite_limit_only_when_parsed_witness :
    "  CPU Limit: 0.50 cores" = "  CPU Limit: unlimited" ∨
    ∃ q p, readInt64FromFile (some "50000\n") = some q ∧
      readInt64FromFile (some "100000\n") = some p ∧ 0 < q ∧ 0 < p ∧
      "  CPU Limit: 0.50 cores"
        = "  CPU Limit: " ++ F64.fmt2 (F64.div (F64.ofInt q) (F64.ofInt p)) ++ " cores" :=
  (finite_limit_only_when_parsed (some "50000\n") (some "100000\n") none).1
    ["  cgroup v1 cpu.cfs_quota_us: 50000", "  cgroup v1 cpu.cfs_period_us: 100000",
      "  CPU Limit: 0.50 cores"]
    "  CPU Limit: 0.50 cores" (by decide) (by decide) (by decide)

/-- C3, the claim as stated fails: a reported finite limit can be zero.  A parsed
memory limit of `0` is printed as `0 B` (v1 and v2), and the quota `1` with the
period `1000`, both parsed and positive, is printed as `0.00 cores`. -/
theorem finite_limit_can_be_zero :
    printMemoryInfoV1 (some "0") none none
      = some ["  cgroup v1 memory.limit_in_bytes: 0 B"] ∧
    printMemoryInfoV2 (some "0") none none = some ["  cgroup v2 memory.max: 0 B"] ∧
    printCPUInfoV1 (some "1") (some "1000") none
      = some ["  cgroup v1 cpu.cfs_quota_us: 1", "  cgroup v1 cpu.cfs_period_us: 1000",
          "  CPU Limit: 0.00 cores"] := by
  decide

/-- C7: `formatBytes` returns the plain decimal count followed by ` B` for every
count below 1024, and `0`, `1023`, `1024` and `1048576` are rendered as `0 B`,
`1023 B`, `1.00 KB` and `1.00 MB`. -/
theorem formatBytes_below_unit_and_examples :
    (∀ b : Nat, b < 1024 → formatBytes b = some (Nat.repr b ++ " B")) ∧
    formatBytes 0 = some "0 B" ∧ formatBytes 1023 = some "1023 B" ∧
    formatBytes 1024 = some "1.00 KB" ∧ formatBytes 1048576 = some "1.00 MB" := by
  refine ⟨formatBytes_small, by decide, by decide, ?_, ?_⟩
  · rw [formatBytes_eval 1024 0 'K' (by norm_num) (by norm_num) (by norm_num) rfl]
    decide
  · rw [formatBytes_eval 1048576 1 'M' (by norm_num) (by norm_num) (by norm_num) rfl]
    decide

theorem unitOf_append (num : String) (u : List Char) (h : ∀ c ∈ u, c ≠ ' ') :
    unitOf (String.mk (num.data ++ ' ' :: u)) = String.mk u := by
  unfold unitOf
  congr 1
  have hrev : (num.data ++ ' ' :: u).reverse = u.reverse ++ ' ' :: num.data.reverse := by
    simp
  rw [hrev, List.takeWhile_append_of_pos, List.takeWhile_cons_of_neg] <;> simp
  simpa using h

theorem unitPosition_formatBytes (b : Nat) (h : b < 2 ^ 64) :
    ∃ s, formatBytes b = some s ∧
      unitPosition s = some (if b < 1024 then 0 else Nat.log 1024 (b / 1024) + 1) := by
  by_cases h1 : b < 1024
  · refine ⟨_, formatBytes_small b h1, ?_⟩
    rw [if_pos h1]
    have e : Nat.repr b ++ " B" = String.mk ((Nat.repr b).data ++ ' ' :: ['B']) := rfl
    rw [e]
    unfold unitPosition
    rw [unitOf_append _ _ (by decide)]
    decide
  · obtain ⟨c, hc, hs⟩ := formatBytes_large b (by omega) h
    refine ⟨_, hs, ?_⟩
    rw [if_neg h1]
    have hk := log_div_le_five b h
    generalize F64.fmt2 (F64.div (F64.ofNat b)
      (F64.ofNat (1024 ^ (Nat.log 1024 (b / 1024) + 1)))) = num
    have e : num ++ " " ++ String.singleton c ++ "B" = String.mk (num.data ++ ' ' :: [c, 'B']) := by
      apply String.ext
      simp [String.data_append]
    rw [e]
    unfold unitPosition
    generalize Nat.log 1024 (b / 1024) = k at hc hk
    interval_cases k <;>
    · simp only [List.get?, String.data, Option.some.injEq] at hc
      subst hc
      rw [unitOf_append _ _ (by decide)]
      decide

/-- C8: the magnitude unit chosen by `formatBytes` never goes down as the count
grows: for unsigned 64-bit counts `a ≤ b` both calls return, and the position in
the ladder `B, KB, MB, GB, TB, PB, EB` of the unit of `formatBytes a` (the text
after the last space) is at most that of the unit of `formatBytes b`. -/
theorem formatBytes_unit_monotone (a b : Nat) (hab : a ≤ b) (hb : b < 2 ^ 64) :
    ∃ sa sb i j, formatBytes a = some sa ∧ formatBytes b = some sb ∧
      unitPosition sa = some i ∧ unitPosition sb = some j ∧ i ≤ j := by
  obtain ⟨sa, hsa, hpa⟩ := unitPosition_formatBytes a (by omega)
  obtain ⟨sb, hsb, hpb⟩ := unitPosition_formatBytes b hb
  refine ⟨sa, sb, _, _, hsa, hsb, hpa, hpb, ?_⟩
  by_cases h1 : a < 1024
  · rw [if_pos h1]; exact Nat.zero_le _
  · rw [if_neg h1, if_neg (by omega)]
    have : Nat.log 1024 (a / 1024) ≤ Nat.log 1024 (b / 1024) :=
      Nat.log_mono_right (Nat.div_le_div_right hab)
    omega

theorem formatBytes_unit_monotone_witness :
    ∃ sa sb i j, formatBytes 1023 = some sa ∧ formatBytes 1048576 = some sb ∧
      unitPosition sa = some i ∧ unitPosition sb = some j ∧ i ≤ j :=
  formatBytes_unit_monotone 1023 1048576 (by decide) (by decide)

/-- C9: for every integer `n` (so for every `int64`, zero, the negatives and the
minimum included) `formatNumber n` returns, without panic, the decimal
representation of `n` with its digits grouped in threes from the right: the
sign `-` of a negative `n` stays in front, the digits `ds` of the magnitude
follow with a comma exactly at every fourth position counted from the right,
the first character after the sign is the first digit and not a comma, and
deleting the commas gives back `FormatInt n`. -/
theorem formatNumber_thousands_grouping (n : Int) :
    ∃ ds : List Char,
      (FormatInt n).data = (if n < 0 then ['-'] else []) ++ ds ∧ ds ≠ [] ∧ ',' ∉ ds ∧
      formatNumber n = some (String.mk ((if n < 0 then ['-'] else []) ++ groupThousands ds)) ∧
      (groupThousands ds).length = ds.length + (ds.length - 1) / 3 ∧
      (groupThousands ds).head? = ds.head? ∧
      (∀ i, i < (groupThousands ds).length →
        ((groupThousands ds).reverse[i]? = some ',' ↔ i % 4 = 3)) ∧
      (groupThousands ds).filter (fun c => c ≠ ',') = ds ∧
      (((if n < 0 then ['-'] else []) ++ groupThousands ds).filter (fun c => c ≠ ',')
        = (FormatInt n).data) ∧
      formatNumber 0 = some "0" ∧ formatNumber 999 = some "999" ∧
      formatNumber 1234567 = some "1,234,567" ∧ formatNumber (-1000) = some "-1,000" ∧
      formatNumber (-9223372036854775808) = some "-9,223,372,036,854,775,808" := by
  have hspec := formatNumber_eq_spec n
  have key : ∀ ds : List Char, ds ≠ [] → (∀ c ∈ ds, c ≠ ',') →
      (groupThousands ds).length = ds.length + (ds.length - 1) / 3 ∧
      (groupThousands ds).head? = ds.head? ∧
      (∀ i, i < (groupThousands ds).length →
        ((groupThousands ds).reverse[i]? = some ',' ↔ i % 4 = 3)) ∧
      (groupThousands ds).filter (fun c => c ≠ ',') = ds := by
    intro ds _ hc
    refine ⟨groupThousands_length ds, groupThousands_head ds, ?_, groupThousands_filter ds hc⟩
    intro i hi
    have hrev : (groupThousands ds).reverse = groupRev ds.reverse := by
      simp [groupThousands]
    rw [hrev]
    apply groupRev_comma_positions _ ds.reverse le_rfl (by simpa using hc)
    rw [← hrev]
    simpa using hi
  have hex : formatNumber 0 = some "0" ∧ formatNumber 999 = some "999" ∧
      formatNumber 1234567 = some "1,234,567" ∧ formatNumber (-1000) = some "-1,000" ∧
      formatNumber (-9223372036854775808) = some "-9,223,372,036,854,775,808" := by
    refine ⟨by decide, by decide, by decide, by decide, by decide⟩
  by_cases hn : n < 0
  · have hc := repr_data_no_comma n.natAbs
    obtain ⟨k1, k2, k3, k4⟩ := key _ (repr_data_ne_nil n.natAbs) hc
    refine ⟨(Nat.repr n.natAbs).data, ?_, repr_data_ne_nil _, fun h => hc _ h rfl, ?_,
      k1, k2, k3, k4, ?_, hex⟩
    · simp [formatInt_data_neg n hn, hn]
    · rw [hspec]; simp [formatNumberSpec, hn]
    · rw [formatInt_data_neg n hn, if_pos hn, List.filter_append, k4]
      rfl
  · have hc := repr_data_no_comma n.toNat
    obtain ⟨k1, k2, k3, k4⟩ := key _ (repr_data_ne_nil n.toNat) hc
    refine ⟨(Nat.repr n.toNat).data, ?_, repr_data_ne_nil _, fun h => hc _ h rfl, ?_,
      k1, k2, k3, k4, ?_, hex⟩
    · simp [formatInt_data_nonneg n hn, hn]
    · rw [hspec]; simp [formatNumberSpec, hn]
    · rw [formatInt_data_nonneg n hn, if_neg hn, List.nil_append, k4]

/-! ## Version detection -/

/-- C16: `detectCgroupVersion` is a total function of the result of `os.Stat` on
the marker path `/sys/fs/cgroup/cgroup.controllers`: it returns `CgroupV2`
(printed `V2`) whenever the call succeeds, `CgroupV1` (printed `V1`) for every
error, absence or any other, and two file systems that agree on the marker path
give the same version whatever they hold at any other path, the v1 paths
included. -/
theorem detectCgroupVersion_marker (fs : FileSystem) :
    (fs "/sys/fs/cgroup/cgroup.controllers" = none →
      detectCgroupVersion fs = CgroupVersion.CgroupV2 ∧
      cgroupVersionString (detectCgroupVersion fs) = "V2") ∧
    (∀ e, fs "/sys/fs/cgroup/cgroup.controllers" = some e →
      detectCgroupVersion fs = CgroupVersion.CgroupV1 ∧
      cgroupVersionString (detectCgroupVersion fs) = "V1") ∧
    (∀ fs2 : FileSystem,
      fs2 "/sys/fs/cgroup/cgroup.controllers" = fs "/sys/fs/cgroup/cgroup.controllers" →
      detectCgroupVersion fs2 = detectCgroupVersion fs) ∧
    (detectCgroupVersion fs = CgroupVersion.CgroupV1 ∨
      detectCgroupVersion fs = CgroupVersion.CgroupV2) := by
  refine ⟨?_, ?_, ?_, ?_⟩
  · intro h
    simp [detectCgroupVersion, h, cgroupVersionString]
  · intro e h
    simp [detectCgroupVersion, h, cgroupVersionString]
  · intro fs2 h
    simp [detectCgroupVersion, h]
  · cases h : fs "/sys/fs/cgroup/cgroup.controllers" <;> simp [detectCgroupVersion, h]

theorem detectCgroupVersion_marker_witness :
    detectCgroupVersion (fun path =>
        if path = "/sys/fs/cgroup/cgroup.controllers" then none else some StatError.notExist)
      = CgroupVersion.CgroupV2 ∧
    detectCgroupVersion (fun path =>
        if path = "/sys/fs/cgroup/cgroup.controllers" then some StatError.permission else none)
      = CgroupVersion.CgroupV1 ∧
    detectCgroupVersion (fun path =>
        if path = "/sys/fs/cgroup/cgroup.controllers" then none else none)
      = detectCgroupVersion (fun path =>
        if path = "/sys/fs/cgroup/cgroup.controllers" then none else some StatError.notExist) :=
  ⟨((detectCgroupVersion_marker (fun path =>
        if path = "/sys/fs/cgroup/cgroup.controllers" then none
        else some StatError.notExist)).1 (by decide)).1,
   ((detectCgroupVersion_marker (fun path =>
        if path = "/sys/fs/cgroup/cgroup.controllers" then some StatError.permission
        else none)).2.1 StatError.permission (by decide)).1,
   (detectCgroupVersion_marker (fun path =>
        if path = "/sys/fs/cgroup/cgroup.controllers" then none
        else some StatError.notExist)).2.2.1 _ (by decide)⟩

/-! ## The cgroup v1 tie-break and the v2 limit files -/

theorem cpuLimitV1_nil (quota period : Int) (h1 : quota ≤ 0) (h2 : quota ≠ -1) :
    cpuLimitV1 quota period = [] := by
  unfold cpuLimitV1
  rw [if_neg (by omega), if_neg h2]

theorem printCPUInfoV1_lines_not_limit (f1 f2 f3 : Option String) (line : String)
    (hl : line ∈ intLine "  cgroup v1 cpu.cfs_quota_us: " (readInt64FromFile f1) ++
        intLine "  cgroup v1 cpu.cfs_period_us: " (readInt64FromFile f2) ++
        (match readInt64FromFile f3 with
          | none => []
          | some u => ["  Total CPU usage (nanoseconds): " ++ formatNumberSpec u])) :
    HasPrefix line "  CPU Limit" = false := by
  simp only [List.mem_append] at hl
  rcases hl with (hl | hl) | hl
  · unfold intLine at hl
    split at hl
    · simp only [List.mem_singleton] at hl
      subst hl
      rfl
    · simp at hl
  · unfold intLine at hl
    split at hl
    · simp only [List.mem_singleton] at hl
      subst hl
      rfl
    · simp at hl
  · split at hl
    · simp at hl
    · simp only [List.mem_singleton] at hl
      subst hl
      rfl

/-- C12: the v1 CPU tie-break.  When the quota file is missing or unparseable, or
parses to a value `≤ 0` other than `-1`, then for every period file and usage
file `printCPUInfoV1` prints no `CPU Limit` line at all, neither `unlimited` nor
a number: its output is what the three files print alone (`Q`, `P`, `U`), and no
line of it starts with `CPU Limit`. -/
theorem printCPUInfoV1_tie_break (f1 f2 f3 : Option String)
    (hq : readInt64FromFile f1 = none ∨
      ∃ v, readInt64FromFile f1 = some v ∧ v ≤ 0 ∧ v ≠ -1) :
    ∃ Q P U : List String,
      printCPUInfoV1 f1 none none = some Q ∧
      printCPUInfoV1 none f2 none = some P ∧
      printCPUInfoV1 none none f3 = some U ∧
      printCPUInfoV1 f1 f2 f3 = some (Q ++ P ++ U) ∧
      ∀ line ∈ Q ++ P ++ U, HasPrefix line "  CPU Limit" = false := by
  have hlim : ∀ period, cpuLimitV1 ((readInt64FromFile f1).getD 0) period = [] := by
    intro period
    rcases hq with h | ⟨v, h, h1, h2⟩
    · rw [h]
      exact cpuLimitV1_nil _ _ (by simp) (by simp)
    · rw [h]
      exact cpuLimitV1_nil _ _ h1 h2
  have h0 : ∀ period, cpuLimitV1 0 period = [] := fun period =>
    cpuLimitV1_nil _ _ (by simp) (by simp)
  refine ⟨_, _, _, printCPUInfoV1_eq f1 none none, printCPUInfoV1_eq none f2 none,
    printCPUInfoV1_eq none none f3, ?_, ?_⟩
  · rw [printCPUInfoV1_eq]
    simp [readInt64FromFile_none, intLine, hlim, h0]
  · intro line hl
    apply printCPUInfoV1_lines_not_limit f1 f2 f3 line
    simpa [readInt64FromFile_none, intLine, hlim, h0] using hl

theorem printCPUInfoV1_tie_break_witness :
    ∃ Q P U : List String,
      printCPUInfoV1 (some "0\n") none none = some Q ∧
      printCPUInfoV1 none (some "100000\n") none = some P ∧
      printCPUInfoV1 none none (some "42\n") = some U ∧
      printCPUInfoV1 (some "0\n") (some "100000\n") (some "42\n") = some (Q ++ P ++ U) ∧
      ∀ line ∈ Q ++ P ++ U, HasPrefix line "  CPU Limit" = false :=
  printCPUInfoV1_tie_break (some "0\n") (some "100000\n") (some "42\n")
    (Or.inr ⟨0, by decide, by decide, by decide⟩)

/-- C13: in `printMemoryInfoV2`, for every readable `memory.max` content `c`: if
`c` trimmed is exactly `max` the limit line is `unlimited`; if `c` trimmed is a
decimal unsigned 64-bit integer `v` the limit line is `formatBytes(v)`; in every
other case no `memory.max` line is output.  `rest` is what is printed without
the `memory.max` file. -/
theorem printMemoryInfoV2_max_line (c : String) (f2 f3 : Option String) :
    ∃ rest : List String,
      printMemoryInfoV2 none f2 f3 = some rest ∧
      (TrimSpace c = "max" →
        printMemoryInfoV2 (some c) f2 f3 = some ("  cgroup v2 memory.max: unlimited" :: rest)) ∧
      (∀ v, ParseUint (TrimSpace c) = some v →
        ∃ fb, formatBytes v = some fb ∧
          printMemoryInfoV2 (some c) f2 f3 = some (("  cgroup v2 memory.max: " ++ fb) :: rest)) ∧
      (TrimSpace c ≠ "max" → ParseUint (TrimSpace c) = none →
        printMemoryInfoV2 (some c) f2 f3 = some rest) := by
  obtain ⟨U, hU⟩ := bytesLine_total "  cgroup v2 memory.current: " f2
  obtain ⟨S, hS⟩ := memStatBlock_total "  cgroup v2 memory.stat (selected):" keysV2 f3
  refine ⟨U ++ S, ?_, ?_, ?_, ?_⟩
  · unfold printMemoryInfoV2
    rw [seq3_some _ _ _ _ _ _ memMaxV2_none hU hS]
    rfl
  · intro hm
    have hL : memMaxV2 (some c) = some ["  cgroup v2 memory.max: unlimited"] := by
      simp [memMaxV2, readStringFromFile, hm]
    unfold printMemoryInfoV2
    rw [seq3_some _ _ _ _ _ _ hL hU hS]
    simp
  · intro v hv
    obtain ⟨fb, hfb⟩ := formatBytes_total v (ParseUint_lt _ _ hv)
    have hm : TrimSpace c ≠ "max" := by
      intro hm
      have hnone : ParseUint "max" = none := by decide
      rw [hm, hnone] at hv
      exact absurd hv (by simp)
    have hL : memMaxV2 (some c) = some ["  cgroup v2 memory.max: " ++ fb] := by
      simp [memMaxV2, readStringFromFile, hm, hv, hfb]
    refine ⟨fb, hfb, ?_⟩
    unfold printMemoryInfoV2
    rw [seq3_some _ _ _ _ _ _ hL hU hS]
    simp
  · intro hm hv
    have hL : memMaxV2 (some c) = some [] := by
      simp [memMaxV2, readStringFromFile, hm, hv]
    unfold printMemoryInfoV2
    rw [seq3_some _ _ _ _ _ _ hL hU hS]
    simp

theorem printMemoryInfoV2_max_line_witness :
    printMemoryInfoV2 (some " max\n") none none = some ["  cgroup v2 memory.max: unlimited"] ∧
    (∃ fb, formatBytes 536870912 = some fb ∧
      printMemoryInfoV2 (some "536870912\n") none none
        = some ["  cgroup v2 memory.max: " ++ fb]) ∧
    printMemoryInfoV2 (some "12 34\n") none none = some [] := by
  refine ⟨?_, ?_, ?_⟩
  · obtain ⟨rest, h0, h1, _, _⟩ := printMemoryInfoV2_max_line " max\n" none none
    have hr : rest = [] := by
      have : printMemoryInfoV2 none none none = some [] := rfl
      rw [this] at h0
      exact (Option.some.inj h0).symm
    rw [h1 (by decide), hr]
  · obtain ⟨rest, h0, _, h2, _⟩ := printMemoryInfoV2_max_line "536870912\n" none none
    have hr : rest = [] := by
      have : printMemoryInfoV2 none none none = some [] := rfl
      rw [this] at h0
      exact (Option.some.inj h0).symm
    obtain ⟨fb, hfb, hout⟩ := h2 536870912 (by decide)
    exact ⟨fb, hfb, by rw [hout, hr]⟩
  · obtain ⟨rest, h0, _, _, h3⟩ := printMemoryInfoV2_max_line "12 34\n" none none
    have hr : rest = [] := by
      have : printMemoryInfoV2 none none none = some [] := rfl
      rw [this] at h0
      exact (Option.some.inj h0).symm
    rw [h3 (by decide) (by decide), hr]

/-- C14: a partial parse of the v2 `cpu.max`.  For every readable content with two
fields whose first field is not `max` and of which at least one does not parse
as a decimal integer, `printCPUInfoV2` still prints the raw line
`cpu.max: <trimmed content>`, prints no `CPU Limit` line, and prints for
`cpu.stat` exactly what it prints without the `cpu.max` file. -/
theorem printCPUInfoV2_partial_parse (content t0 t1 : String) (cpuStatFile : Option String)
    (hf : Fields content = [t0, t1]) (h0 : t0 ≠ "max")
    (hp : ParseInt t0 = none ∨ ParseInt t1 = none) :
    printCPUInfoV2 (some content) cpuStatFile
      = ("  cgroup v2 cpu.max: " ++ TrimSpace content) :: printCPUInfoV2 none cpuStatFile ∧
    ∀ line ∈ printCPUInfoV2 (some content) cpuStatFile,
      HasPrefix line "  CPU Limit" = false := by
  have hlim : cpuLimitV2 [t0, t1] = [] := by
    unfold cpuLimitV2
    simp only [h0, if_false]
    rcases hp with h | h
    · rw [h]
    · rw [h]
      cases ParseInt t0 <;> rfl
  have heq : printCPUInfoV2 (some content) cpuStatFile
      = ("  cgroup v2 cpu.max: " ++ TrimSpace content) :: printCPUInfoV2 none cpuStatFile := by
    simp [printCPUInfoV2, readStringFromFile, hf, hlim]
  refine ⟨heq, ?_⟩
  intro line hl
  rw [heq] at hl
  rcases List.mem_cons.mp hl with hl | hl
  · subst hl
    rfl
  · cases cpuStatFile with
    | none => simp [printCPUInfoV2, readStringFromFile] at hl
    | some st =>
      simp only [printCPUInfoV2, readStringFromFile, List.nil_append, List.mem_append,
        List.mem_singleton, List.mem_map] at hl
      rcases hl with hl | ⟨x, _, hx⟩
      · subst hl
        decide
      · subst hx
        rfl

theorem printCPUInfoV2_partial_parse_witness :
    printCPUInfoV2 (some "50000 abc\n") (some "usage_usec 12\n")
      = ("  cgroup v2 cpu.max: " ++ TrimSpace "50000 abc\n") ::
          printCPUInfoV2 none (some "usage_usec 12\n") ∧
    ∀ line ∈ printCPUInfoV2 (some "50000 abc\n") (some "usage_usec 12\n"),
      HasPrefix line "  CPU Limit" = false :=
  printCPUInfoV2_partial_parse "50000 abc\n" "50000" "abc" (some "usage_usec 12\n")
    (by decide) (by decide) (Or.inr (by decide))

/-- C15: in `printCPUInfoV2`, for every readable `cpu.stat` content, after what
`cpu.max` prints come the header and then exactly the lines of the content
(split on newline), each trimmed of surrounding white space, those that are
empty after trimming removed, in their original order, whatever their key: a
text is among the stat lines if and only if it is a non-empty trimmed line of
the content. -/
theorem printCPUInfoV2_stat_lines (cpuMaxFile : Option String) (content : String) :
    printCPUInfoV2 cpuMaxFile (some content)
      = printCPUInfoV2 cpuMaxFile none ++ "  cgroup v2 cpu.stat:" ::
          (((Split content '\n').map TrimSpace).filter (fun l => l ≠ "")).map
            (fun l => "    " ++ l) ∧
    (∀ x, x ∈ printCPUInfoV2 none (some content) ↔
      x = "  cgroup v2 cpu.stat:" ∨
      ∃ raw ∈ Split content '\n', TrimSpace raw ≠ "" ∧ x = "    " ++ TrimSpace raw) ∧
    printCPUInfoV2 none (some "usage_usec 12\n  user_usec 3 \n\n \t\nnr_periods 0\n")
      = ["  cgroup v2 cpu.stat:", "    usage_usec 12", "    user_usec 3", "    nr_periods 0"] := by
  refine ⟨?_, ?_, by decide⟩
  · simp [printCPUInfoV2, readStringFromFile]
  · intro x
    simp only [printCPUInfoV2, readStringFromFile, List.nil_append, List.singleton_append,
      List.mem_cons, List.mem_map, List.mem_filter]
    constructor
    · rintro (h | ⟨l, ⟨⟨raw, hraw, rfl⟩, hne⟩, rfl⟩)
      · exact Or.inl h
      · exact Or.inr ⟨raw, hraw, by simpa using hne, rfl⟩
    · rintro (h | ⟨raw, hraw, hne, rfl⟩)
      · exact Or.inl h
      · exact Or.inr ⟨TrimSpace raw, ⟨⟨raw, hraw, rfl⟩, by simpa using hne⟩, rfl⟩

/-! ## Strict stepping and absence of failure in `formatBytes` -/

theorem formatBytesLoopExact_eq (n : Nat) : ∀ div exp : Nat,
    formatBytesLoopExact n div exp = (div * 1024 ^ Nat.log 1024 n, exp + Nat.log 1024 n) := by
  induction n using Nat.strong_induction_on with
  | _ n ih =>
    intro div exp
    rw [formatBytesLoopExact]
    by_cases h : 1024 ≤ n
    · rw [if_pos h, ih (n / 1024) (by omega), Nat.log_of_one_lt_of_le (by decide) h]
      congr 1
      · rw [pow_succ]; ring
      · omega
    · rw [if_neg h, Nat.log_of_lt (by omega)]
      simp

theorem formatBytesLoop_result (b : Nat) (hb : b < 2 ^ 64) :
    formatBytesLoop (b / 1024) 1024 0
      = (1024 ^ (Nat.log 1024 (b / 1024) + 1), Nat.log 1024 (b / 1024)) := by
  have hk := log_div_le_five b hb
  have hpow : 1024 * 1024 ^ Nat.log 1024 (b / 1024) < 2 ^ 64 := by
    have : 1024 ^ Nat.log 1024 (b / 1024) ≤ 1024 ^ 5 := Nat.pow_le_pow_right (by decide) hk
    calc 1024 * 1024 ^ Nat.log 1024 (b / 1024) ≤ 1024 * 1024 ^ 5 := Nat.mul_le_mul_left _ this
      _ < 2 ^ 64 := by norm_num
  have hexp := formatBytesLoop_exp (b / 1024) 1024 0
  have hdiv := formatBytesLoop_div (b / 1024) 1024 0 hpow
  rw [Nat.zero_add] at hexp
  rw [Prod.ext_iff]
  refine ⟨?_, hexp⟩
  rw [hdiv, pow_succ, Nat.mul_comm]

theorem log_div_bounds (b : Nat) (h1 : 1024 ≤ b) :
    1024 ^ (Nat.log 1024 (b / 1024) + 1) ≤ b ∧ b < 1024 ^ (Nat.log 1024 (b / 1024) + 2) := by
  have hne : b / 1024 ≠ 0 := by
    have : 1 ≤ b / 1024 := (Nat.le_div_iff_mul_le (by decide)).mpr (by omega)
    omega
  have hlo := Nat.pow_log_le_self 1024 hne
  have hhi := Nat.lt_pow_succ_log_self (b := 1024) (by decide) (b / 1024)
  constructor
  · rw [pow_succ]
    have := (Nat.le_div_iff_mul_le (by decide : 0 < 1024)).mp hlo
    exact this
  · have e : 1024 ^ (Nat.log 1024 (b / 1024) + 2)
        = 1024 ^ (Nat.log 1024 (b / 1024)).succ * 1024 := by
      rw [pow_succ]
    rw [e]
    exact (Nat.div_lt_iff_lt_mul (by decide : 0 < 1024)).mp hhi

/-- C17: strict 1024 stepping.  For every unsigned 64-bit `b ≥ 1024` the scaling
loop of `formatBytes` ends with `div = 1024^(exp+1)` and `div ≤ b < 1024 * div`:
`div` is the largest power of 1024 not exceeding `b`, the integer part of
`b / div` lies in `1..1023`, and the suffix printed is the letter of index `exp`
of `KMGTPE`. -/
theorem formatBytes_strict_stepping (b : Nat) (h1 : 1024 ≤ b) (h2 : b < 2 ^ 64) :
    ∃ div exp c, formatBytesLoop (b / 1024) 1024 0 = (div, exp) ∧
      div = 1024 ^ (exp + 1) ∧ div ≤ b ∧ b < 1024 * div ∧
      1 ≤ b / div ∧ b / div ≤ 1023 ∧
      (∀ j, 1024 ^ j ≤ b → 1024 ^ j ≤ div) ∧
      "KMGTPE".data.get? exp = some c ∧
      formatBytes b = some (F64.fmt2 (F64.div (F64.ofNat b) (F64.ofNat div)) ++ " " ++
        String.singleton c ++ "B") := by
  obtain ⟨hlo, hhi⟩ := log_div_bounds b h1
  obtain ⟨c, hc, hs⟩ := formatBytes_large b h1 h2
  have hpos : 0 < 1024 ^ (Nat.log 1024 (b / 1024) + 1) := by positivity
  have hhi2 : b < 1024 * 1024 ^ (Nat.log 1024 (b / 1024) + 1) := by
    have e : 1024 ^ (Nat.log 1024 (b / 1024) + 2)
        = 1024 * 1024 ^ (Nat.log 1024 (b / 1024) + 1) := by
      rw [pow_succ, Nat.mul_comm]
    rw [← e]
    exact hhi
  refine ⟨_, _, c, formatBytesLoop_result b h2, rfl, hlo, hhi2, ?_, ?_, ?_, hc, hs⟩
  · exact (Nat.le_div_iff_mul_le hpos).mpr (by omega)
  · have : b / 1024 ^ (Nat.log 1024 (b / 1024) + 1) < 1024 :=
      (Nat.div_lt_iff_lt_mul hpos).mpr hhi2
    omega
  · intro j hj
    apply Nat.pow_le_pow_right (by decide)
    have hlt : 1024 ^ j < 1024 ^ (Nat.log 1024 (b / 1024) + 2) := lt_of_le_of_lt hj hhi
    have := (Nat.pow_lt_pow_iff_right (by decide : 1 < 1024)).mp hlt
    omega

theorem formatBytes_strict_stepping_witness :
    ∃ div exp c, formatBytesLoop (1536 / 1024) 1024 0 = (div, exp) ∧
      div = 1024 ^ (exp + 1) ∧ div ≤ 1536 ∧ 1536 < 1024 * div ∧
      1 ≤ 1536 / div ∧ 1536 / div ≤ 1023 ∧
      (∀ j, 1024 ^ j ≤ 1536 → 1024 ^ j ≤ div) ∧
      "KMGTPE".data.get? exp = some c ∧
      formatBytes 1536 = some (F64.fmt2 (F64.div (F64.ofNat 1536) (F64.ofNat div)) ++ " " ++
        String.singleton c ++ "B") :=
  formatBytes_strict_stepping 1536 (by decide) (by decide)

/-- C18: `formatBytes` has no failure path.  For every unsigned 64-bit input the
loop counter `exp` ends in `0..5`, so the index into the six letters of
`KMGTPE` is in bounds and the call returns; the divisor ends as
`1024^(exp+1) ≤ 1024^6 = 2^60`, and the loop on 64-bit words computes what the
same loop computes on unbounded integers: `div` never wraps around `2^64`. -/
theorem formatBytes_no_failure (b : Nat) (hb : b < 2 ^ 64) :
    ∃ div exp c, formatBytesLoop (b / 1024) 1024 0 = (div, exp) ∧
      exp ≤ 5 ∧ "KMGTPE".data.get? exp = some c ∧ "KMGTPE".data.length = 6 ∧
      div = 1024 ^ (exp + 1) ∧ div ≤ 1024 ^ 6 ∧ (1024 : Nat) ^ 6 = 2 ^ 60 ∧
      formatBytesLoopExact (b / 1024) 1024 0 = (div, exp) ∧
      ∃ s, formatBytes b = some s := by
  have hk := log_div_le_five b hb
  obtain ⟨c, hc⟩ := suffix_letter _ hk
  refine ⟨_, _, c, formatBytesLoop_result b hb, hk, hc, by decide, rfl, ?_, by norm_num, ?_,
    formatBytes_total b hb⟩
  · exact Nat.pow_le_pow_right (by decide) (by omega)
  · rw [formatBytesLoopExact_eq, Nat.zero_add, pow_succ, Nat.mul_comm]

theorem formatBytes_no_failure_witness :
    ∃ div exp c, formatBytesLoop (18446744073709551615 / 1024) 1024 0 = (div, exp) ∧
      exp ≤ 5 ∧ "KMGTPE".data.get? exp = some c ∧ "KMGTPE".data.length = 6 ∧
      div = 1024 ^ (exp + 1) ∧ div ≤ 1024 ^ 6 ∧ (1024 : Nat) ^ 6 = 2 ^ 60 ∧
      formatBytesLoopExact (18446744073709551615 / 1024) 1024 0 = (div, exp) ∧
      ∃ s, formatBytes 18446744073709551615 = some s :=
  formatBytes_no_failure 18446744073709551615 (by decide)

/-! ## Negative byte counts -/

theorem parseIntMagnitude_range (neg : Bool) (s : List Char) (v : Int)
    (h : parseIntMagnitude neg s = some v) : -2 ^ 63 ≤ v ∧ v < 2 ^ 63 := by
  unfold parseIntMagnitude at h
  split at h
  · exact absurd h (by simp)
  · rename_i un _
    split at h
    · split at h
      · exact absurd h (by simp)
      · rename_i hle
        simp only [Option.some.injEq] at h
        have : (un : Int) ≤ 2 ^ 63 := by
          have : un ≤ 2 ^ 63 := by omega
          exact_mod_cast this
        omega
    · split at h
      · exact absurd h (by simp)
      · rename_i hlt
        simp only [Option.some.injEq] at h
        have : (un : Int) < 2 ^ 63 := by
          have : un < 2 ^ 63 := by omega
          exact_mod_cast this
        omega

theorem ParseInt_range (s : String) (v : Int) (h : ParseInt s = some v) :
    -2 ^ 63 ≤ v ∧ v < 2 ^ 63 := by
  unfold ParseInt parseIntChars at h
  split at h
  · exact absurd h (by simp)
  · split at h
    · exact parseIntMagnitude_range _ _ v h
    · split at h
      · exact parseIntMagnitude_range _ _ v h
      · exact parseIntMagnitude_range _ _ v h

theorem readInt64FromFile_range (file : Option String) (v : Int)
    (h : readInt64FromFile file = some v) : -2 ^ 63 ≤ v ∧ v < 2 ^ 63 := by
  unfold readInt64FromFile readStringFromFile at h
  split at h
  · exact absurd h (by simp)
  · exact ParseInt_range _ v h

theorem formatBytes_exa (b : Nat) (h1 : 2 ^ 63 ≤ b) (h2 : b < 2 ^ 64) :
    ∃ num, formatBytes b = some (num ++ " EB") := by
  refine ⟨F64.fmt2 (F64.div (F64.ofNat b) (F64.ofNat (1024 ^ (5 + 1)))), ?_⟩
  rw [formatBytes_eval b 5 'E' (by norm_num; omega) (by norm_num; omega) h2 rfl]
  congr 1
  apply String.ext
  simp [String.data_append]

/-- C20: a negative byte count is printed as its unsigned reinterpretation.  For
every negative `int64` `v` parsed from the v1 `memory.limit_in_bytes`, the v1
`memory.usage_in_bytes` or the v2 `memory.current`, the line is printed, it is
not `unlimited`, and its value is `formatBytes(v + 2^64)`, with
`v + 2^64 ≥ 2^63`, which always carries the suffix `EB`.  `rest`, `L` and `S`
are what the other files print. -/
theorem negative_byte_count_wraps (file : Option String) (v : Int)
    (hv : readInt64FromFile file = some v) (hneg : v < 0) :
    (toUint64 v : Int) = v + 2 ^ 64 ∧ 2 ^ 63 ≤ toUint64 v ∧ toUint64 v < 2 ^ 64 ∧
    ∃ num, formatBytes (toUint64 v) = some (num ++ " EB") ∧
      (∀ f2 f3, ∃ rest, printMemoryInfoV1 none f2 f3 = some rest ∧
        printMemoryInfoV1 file f2 f3
          = some (("  cgroup v1 memory.limit_in_bytes: " ++ (num ++ " EB")) :: rest)) ∧
      (∀ f1 f3, ∃ L S, printMemoryInfoV1 f1 none none = some L ∧
        printMemoryInfoV1 none none f3 = some S ∧
        printMemoryInfoV1 f1 file f3
          = some (L ++ ("  cgroup v1 memory.usage_in_bytes: " ++ (num ++ " EB")) :: S)) ∧
      (∀ f1 f3, ∃ L S, printMemoryInfoV2 f1 none none = some L ∧
        printMemoryInfoV2 none none f3 = some S ∧
        printMemoryInfoV2 f1 file f3
          = some (L ++ ("  cgroup v2 memory.current: " ++ (num ++ " EB")) :: S)) := by
  obtain ⟨hlo, _⟩ := readInt64FromFile_range file v hv
  have hmod : v % 2 ^ 64 = v + 2 ^ 64 := by omega
  have hcast : (toUint64 v : Int) = v + 2 ^ 64 := by
    unfold toUint64
    rw [hmod, Int.toNat_of_nonneg (by omega)]
  have h63 : 2 ^ 63 ≤ toUint64 v := by
    have : (2 : Int) ^ 63 ≤ (toUint64 v : Int) := by rw [hcast]; omega
    exact_mod_cast this
  obtain ⟨num, hnum⟩ := formatBytes_exa (toUint64 v) h63 (toUint64_lt v)
  have hbl : ∀ label, bytesLine label file = some [label ++ (num ++ " EB")] := by
    intro label
    simp [bytesLine, hv, hnum]
  have hlim : memLimitV1 file = some ["  cgroup v1 memory.limit_in_bytes: " ++ (num ++ " EB")] := by
    unfold memLimitV1
    rw [hv]
    simp only
    rw [if_neg (by omega), hnum]
    rfl
  refine ⟨hcast, h63, toUint64_lt v, num, hnum, ?_, ?_, ?_⟩
  · intro f2 f3
    obtain ⟨U, hU⟩ := bytesLine_total "  cgroup v1 memory.usage_in_bytes: " f2
    obtain ⟨S, hS⟩ := memStatBlock_total "  cgroup v1 memory.stat (selected):" keysV1 f3
    refine ⟨U ++ S, ?_, ?_⟩
    · unfold printMemoryInfoV1
      rw [seq3_some _ _ _ _ _ _ memLimitV1_none hU hS]
      rfl
    · unfold printMemoryInfoV1
      rw [seq3_some _ _ _ _ _ _ hlim hU hS]
      simp
  · intro f1 f3
    obtain ⟨L, hL⟩ := memLimitV1_total f1
    obtain ⟨S, hS⟩ := memStatBlock_total "  cgroup v1 memory.stat (selected):" keysV1 f3
    refine ⟨L, S, ?_, ?_, ?_⟩
    · unfold printMemoryInfoV1
      rw [seq3_some _ _ _ _ _ _ hL (bytesLine_none _) (memStatBlock_none _ _)]
      simp
    · unfold printMemoryInfoV1
      rw [seq3_some _ _ _ _ _ _ memLimitV1_none (bytesLine_none _) hS]
      simp
    · unfold printMemoryInfoV1
      rw [seq3_some _ _ _ _ _ _ hL (hbl _) hS]
      simp
  · intro f1 f3
    obtain ⟨L, hL⟩ := memMaxV2_total f1
    obtain ⟨S, hS⟩ := memStatBlock_total "  cgroup v2 memory.stat (selected):" keysV2 f3
    refine ⟨L, S, ?_, ?_, ?_⟩
    · unfold printMemoryInfoV2
      rw [seq3_some _ _ _ _ _ _ hL (bytesLine_none _) (memStatBlock_none _ _)]
      simp
    · unfold printMemoryInfoV2
      rw [seq3_some _ _ _ _ _ _ memMaxV2_none (bytesLine_none _) hS]
      simp
    · unfold printMemoryInfoV2
      rw [seq3_some _ _ _ _ _ _ hL (hbl _) hS]
      simp

theorem negative_byte_count_wraps_witness :
    printMemoryInfoV1 (some "-1\n") none none
      = some ["  cgroup v1 memory.limit_in_bytes: 16.00 EB"] ∧
    (toUint64 (-1) : Int) = -1 + 2 ^ 64 := by
  obtain ⟨hc, _, _, num, hnum, h1, _, _⟩ :=
    negative_byte_count_wraps (some "-1\n") (-1) (by decide) (by decide)
  refine ⟨?_, hc⟩
  obtain ⟨rest, h0, hout⟩ := h1 none none
  have hr : rest = [] := by
    have : printMemoryInfoV1 none none none = some [] := rfl
    rw [this] at h0
    exact (Option.some.inj h0).symm
  have h16 : formatBytes (toUint64 (-1)) = some "16.00 EB" := by
    have e : toUint64 (-1) = 18446744073709551615 := by decide
    rw [e, formatBytes_eval 18446744073709551615 5 'E' (by norm_num) (by norm_num)
      (by norm_num) rfl]
    decide
  rw [h16] at hnum
  have hn : "16.00 EB" = num ++ " EB" := Option.some.inj hnum
  rw [hout, hr, ← hn]
  rfl

/-! ## Malformed content -/

theorem printCPUInfoV1_congr (a1 a2 a3 b1 b2 b3 : Option String)
    (h1 : readInt64FromFile a1 = readInt64FromFile b1)
    (h2 : readInt64FromFile a2 = readInt64FromFile b2)
    (h3 : readInt64FromFile a3 = readInt64FromFile b3) :
    printCPUInfoV1 a1 a2 a3 = printCPUInfoV1 b1 b2 b3 := by
  rw [printCPUInfoV1_eq, printCPUInfoV1_eq, h1, h2, h3]

theorem memLimitV1_congr (a b : Option String)
    (h : readInt64FromFile a = readInt64FromFile b) : memLimitV1 a = memLimitV1 b := by
  unfold memLimitV1
  rw [h]

theorem bytesLine_congr (label : String) (a b : Option String)
    (h : readInt64FromFile a = readInt64FromFile b) : bytesLine label a = bytesLine label b := by
  unfold bytesLine
  rw [h]

theorem statLine_nil (keys : List String) (raw : String)
    (h : ¬ (hasKeyPrefix keys (TrimSpace raw) = true ∧
      ∃ k d v, Fields raw = [k, d] ∧ ParseUint d = some v)) :
    statLine keys raw = some [] := by
  unfold statLine
  simp only [Fields_TrimSpace]
  by_cases hp : hasKeyPrefix keys (TrimSpace raw) = true
  · rw [if_pos hp]
    split
    · rename_i p0 p1 hf
      cases hv : ParseUint p1 with
      | none => rfl
      | some v => exact absurd ⟨hp, p0, p1, v, hf, hv⟩ h
    · rfl
  · rw [if_neg hp]

theorem statLines_nil (keys : List String) (ls : List String)
    (h : ∀ raw ∈ ls, ¬ (hasKeyPrefix keys (TrimSpace raw) = true ∧
      ∃ k d v, Fields raw = [k, d] ∧ ParseUint d = some v)) :
    statLines keys ls = some [] := by
  induction ls with
  | nil => rfl
  | cons l ls ih =>
    have h1 := statLine_nil keys l (h l (by simp))
    have h2 := ih (fun raw hr => h raw (by simp [hr]))
    simp [statLines, h1, h2]

/-- C11, as amended: malformed content against a missing file.  For the numeric
files read through `readInt64FromFile` (the three v1 CPU files, the two v1
memory files, the v2 `memory.current`) and for the v2 `memory.max`, content
that does not parse gives exactly the output of a missing file.  For `cpu.max`
with a wrong number of fields, or with two fields of which the first is not
`max` and one does not parse, the raw line `cpu.max: <trimmed content>` is
still printed and nothing else is added.  For a `memory.stat` without any line
that has a whitelisted prefix, two fields and a parseable value, the header
line is still printed, with no entry after it.  When the first of two fields of
`cpu.max` is `max`, the second field is never parsed and `CPU Limit: unlimited`
follows the raw line. -/
theorem malformed_content_handling (content : String) (f1 f2 f3 : Option String) :
    (readInt64FromFile (some content) = none →
      printCPUInfoV1 (some content) f2 f3 = printCPUInfoV1 none f2 f3 ∧
      printCPUInfoV1 f1 (some content) f3 = printCPUInfoV1 f1 none f3 ∧
      printCPUInfoV1 f1 f2 (some content) = printCPUInfoV1 f1 f2 none ∧
      printMemoryInfoV1 (some content) f2 f3 = printMemoryInfoV1 none f2 f3 ∧
      printMemoryInfoV1 f1 (some content) f3 = printMemoryInfoV1 f1 none f3 ∧
      printMemoryInfoV2 f1 (some content) f3 = printMemoryInfoV2 f1 none f3) ∧
    (TrimSpace content ≠ "max" → ParseUint (TrimSpace content) = none →
      printMemoryInfoV2 (some content) f2 f3 = printMemoryInfoV2 none f2 f3) ∧
    (((Fields content).length ≠ 2 ∨
        ∃ t0 t1, Fields content = [t0, t1] ∧ t0 ≠ "max" ∧
          (ParseInt t0 = none ∨ ParseInt t1 = none)) →
      printCPUInfoV2 (some content) f2
        = ("  cgroup v2 cpu.max: " ++ TrimSpace content) :: printCPUInfoV2 none f2) ∧
    ((∀ raw ∈ Split content '\n', ¬ (hasKeyPrefix keysV1 (TrimSpace raw) = true ∧
        ∃ k d v, Fields raw = [k, d] ∧ ParseUint d = some v)) →
      ∃ out, printMemoryInfoV1 f1 f2 none = some out ∧
        printMemoryInfoV1 f1 f2 (some content)
          = some (out ++ ["  cgroup v1 memory.stat (selected):"])) ∧
    ((∀ raw ∈ Split content '\n', ¬ (hasKeyPrefix keysV2 (TrimSpace raw) = true ∧
        ∃ k d v, Fields raw = [k, d] ∧ ParseUint d = some v)) →
      ∃ out, printMemoryInfoV2 f1 f2 none = some out ∧
        printMemoryInfoV2 f1 f2 (some content)
          = some (out ++ ["  cgroup v2 memory.stat (selected):"])) ∧
    (∀ t1, Fields content = ["max", t1] →
      printCPUInfoV2 (some content) f2
        = ("  cgroup v2 cpu.max: " ++ TrimSpace content) :: "  CPU Limit: unlimited" ::
            printCPUInfoV2 none f2) := by
  refine ⟨?_, ?_, ?_, ?_, ?_, ?_⟩
  · intro h
    have hn : readInt64FromFile (some content) = readInt64FromFile none := by
      rw [h, readInt64FromFile_none]
    refine ⟨printCPUInfoV1_congr _ _ _ _ _ _ hn rfl rfl,
      printCPUInfoV1_congr _ _ _ _ _ _ rfl hn rfl,
      printCPUInfoV1_congr _ _ _ _ _ _ rfl rfl hn, ?_, ?_, ?_⟩
    · unfold printMemoryInfoV1
      rw [memLimitV1_congr _ _ hn]
    · unfold printMemoryInfoV1
      rw [bytesLine_congr _ _ _ hn]
    · unfold printMemoryInfoV2
      rw [bytesLine_congr _ _ _ hn]
  · intro hm hv
    have hL : memMaxV2 (some content) = memMaxV2 none := by
      simp [memMaxV2, readStringFromFile, hm, hv]
    unfold printMemoryInfoV2
    rw [hL]
  · intro h
    have hlim : cpuLimitV2 (Fields content) = [] := by
      rcases h with h | ⟨t0, t1, hf, h0, hp⟩
      · unfold cpuLimitV2
        split
        · rename_i p0 p1 hf
          rw [hf] at h
          simp at h
        · rfl
      · rw [hf]
        unfold cpuLimitV2
        simp only [h0, if_false]
        rcases hp with h | h
        · rw [h]
        · rw [h]
          cases ParseInt t0 <;> rfl
    simp [printCPUInfoV2, readStringFromFile, hlim]
  · intro h
    obtain ⟨L, hL⟩ := memLimitV1_total f1
    obtain ⟨U, hU⟩ := bytesLine_total "  cgroup v1 memory.usage_in_bytes: " f2
    have hS : memStatBlock "  cgroup v1 memory.stat (selected):" keysV1 (some content)
        = some ["  cgroup v1 memory.stat (selected):"] := by
      simp [memStatBlock, readStringFromFile, statLines_nil keysV1 _ h]
    refine ⟨L ++ U, ?_, ?_⟩
    · unfold printMemoryInfoV1
      rw [seq3_some _ _ _ _ _ _ hL hU (memStatBlock_none _ _)]
      simp
    · unfold printMemoryInfoV1
      rw [seq3_some _ _ _ _ _ _ hL hU hS]
  · intro h
    obtain ⟨L, hL⟩ := memMaxV2_total f1
    obtain ⟨U, hU⟩ := bytesLine_total "  cgroup v2 memory.current: " f2
    have hS : memStatBlock "  cgroup v2 memory.stat (selected):" keysV2 (some content)
        = some ["  cgroup v2 memory.stat (selected):"] := by
      simp [memStatBlock, readStringFromFile, statLines_nil keysV2 _ h]
    refine ⟨L ++ U, ?_, ?_⟩
    · unfold printMemoryInfoV2
      rw [seq3_some _ _ _ _ _ _ hL hU (memStatBlock_none _ _)]
      simp
    · unfold printMemoryInfoV2
      rw [seq3_some _ _ _ _ _ _ hL hU hS]
  · intro t1 hf
    simp [printCPUInfoV2, readStringFromFile, hf, cpuLimitV2]

theorem malformed_content_handling_witness :
    printCPUInfoV1 (some "12x\n") (some "100000\n") none
      = printCPUInfoV1 none (some "100000\n") none ∧
    printMemoryInfoV2 (some "12x\n") none none = printMemoryInfoV2 none none none ∧
    printCPUInfoV2 (some "12x\n") none
      = ("  cgroup v2 cpu.max: " ++ TrimSpace "12x\n") :: printCPUInfoV2 none none ∧
    printCPUInfoV2 (some "50000 abc\n") none
      = ("  cgroup v2 cpu.max: " ++ TrimSpace "50000 abc\n") :: printCPUInfoV2 none none ∧
    printCPUInfoV2 (some "max garbage\n") none
      = ("  cgroup v2 cpu.max: " ++ TrimSpace "max garbage\n") :: "  CPU Limit: unlimited" ::
          printCPUInfoV2 none none :=
  ⟨((malformed_content_handling "12x\n" none (some "100000\n") none).1 (by decide)).1,
   (malformed_content_handling "12x\n" none none none).2.1 (by decide) (by decide),
   (malformed_content_handling "12x\n" none none none).2.2.1 (Or.inl (by decide)),
   (malformed_content_handling "50000 abc\n" none none none).2.2.1
     (Or.inr ⟨"50000", "abc", by decide, by decide, Or.inr (by decide)⟩),
   (malformed_content_handling "max garbage\n" none none none).2.2.2.2.2 "garbage"
     (by decide)⟩

/-- C11, the claim as stated fails: a malformed `cpu.max` and a `memory.stat`
without any parseable whitelisted line do not give the output of a missing
file.  The raw `cpu.max` line, and the `memory.stat` header, are printed for the
malformed content and not for the missing file. -/
theorem malformed_content_still_prints :
    printCPUInfoV2 (some "garbage") none = ["  cgroup v2 cpu.max: garbage"] ∧
    printCPUInfoV2 none none = [] ∧
    printMemoryInfoV1 none none (some "garbage") = some ["  cgroup v1 memory.stat (selected):"] ∧
    printMemoryInfoV1 none none none = some [] ∧
    printMemoryInfoV2 none none (some "garbage") = some ["  cgroup v2 memory.stat (selected):"] ∧
    printMemoryInfoV2 none none none = some [] := by
  decide

/-! ## The copy loop of `formatNumber`: termination, bounds, one write per cell -/

theorem setByteT_at (pre suf : List (Char × Nat)) (x : Char × Nat) (c : Char) (j : Int)
    (hj : j = (pre.length : Int)) :
    setByteT (pre ++ x :: suf) j c = some (pre ++ (c, x.2 + 1) :: suf) := by
  subst hj
  have hget : (pre ++ x :: suf).getD pre.length (c, 0) = x := by
    rw [List.getD_eq_getElem?_getD, List.getElem?_append_right (le_refl _)]
    simp
  unfold setByteT
  rw [if_pos]
  · simp only [Int.toNat_ofNat, hget]
    simp
  · constructor
    · exact Int.ofNat_nonneg _
    · simp

theorem range_succ_reverse (i : Nat) :
    (List.range (i + 1 + 1)).reverse = (i + 1) :: (List.range (i + 1)).reverse := by
  rw [List.range_succ, List.reverse_append]
  rfl

theorem formatNumberLoopT_spec (inp : List Char) (z : Char) :
    ∀ (i k : Nat) (pre suf : List (Char × Nat)) (reads : List Nat) (j : Int),
      i < inp.length → k < 3 →
      j = ((pre.length + (groupRevFrom k (inp.take (i + 1)).reverse).length : Nat) : Int) - 1 →
      formatNumberLoopT inp i j k
          (pre ++ List.replicate (groupRevFrom k (inp.take (i + 1)).reverse).length (z, 0) ++ suf)
          reads
        = some (pre ++ (groupRevFrom k (inp.take (i + 1)).reverse).reverse.map (fun c => (c, 1))
            ++ suf, reads ++ (List.range (i + 1)).reverse) := by
  intro i
  induction i with
  | zero =>
    intro k pre suf reads j hi hk hj
    obtain ⟨c, hc⟩ : ∃ c, inp.get? 0 = some c := by
      cases inp with
      | nil => simp at hi
      | cons a t => exact ⟨a, rfl⟩
    have hrev := take_succ_reverse inp 0 c hc
    simp only [List.take_zero, List.reverse_nil] at hrev
    rw [hrev] at hj ⊢
    simp only [groupRevFrom, List.length_singleton] at hj ⊢
    rw [formatNumberLoopT, hc]
    simp only [List.replicate_one, List.append_assoc, List.singleton_append]
    rw [setByteT_at pre suf (z, 0) c j (by rw [hj]; push_cast; ring)]
    simp
    rfl
  | succ i ih =>
    intro k pre suf reads j hi hk hj
    obtain ⟨c, hc⟩ : ∃ c, inp.get? (i + 1) = some c := by
      have : (i + 1) < inp.length := hi
      exact ⟨inp.get ⟨i + 1, this⟩, List.get?_eq_get this⟩
    obtain ⟨b, hb⟩ : ∃ b, inp.get? i = some b := by
      have : i < inp.length := by omega
      exact ⟨inp.get ⟨i, this⟩, List.get?_eq_get this⟩
    have hrev := take_succ_reverse inp (i + 1) c hc
    have hrev2 := take_succ_reverse inp i b hb
    rw [hrev] at hj ⊢
    rw [formatNumberLoopT, hc]
    simp only
    by_cases h3 : k + 1 = 3
    · have hg : groupRevFrom k (c :: (inp.take (i + 1)).reverse)
          = c :: ',' :: groupRevFrom 0 (inp.take (i + 1)).reverse := by
        rw [hrev2]; simp [groupRevFrom, h3]
      rw [hg] at hj ⊢
      generalize hG : groupRevFrom 0 (inp.take (i + 1)).reverse = G at hj ⊢
      have e1 : pre ++ List.replicate (c :: ',' :: G).length ((z, 0) : Char × Nat) ++ suf
          = (pre ++ List.replicate G.length (z, 0) ++ [(z, 0)]) ++ (z, 0) :: suf := by
        simp only [List.length_cons, List.replicate_succ', List.append_assoc,
          List.singleton_append, List.cons_append, List.nil_append]
      rw [e1, setByteT_at _ suf (z, 0) c j (by
        rw [hj]; simp only [List.length_cons, List.length_append, List.length_replicate,
          List.length_singleton, List.length_nil]; push_cast; ring)]
      simp only [if_pos h3]
      have e2 : (pre ++ List.replicate G.length ((z, 0) : Char × Nat) ++ [(z, 0)])
            ++ (c, (z, 0).2 + 1) :: suf
          = (pre ++ List.replicate G.length (z, 0)) ++ (z, 0) :: (c, 1) :: suf := by
        simp
      rw [e2, setByteT_at _ _ (z, 0) ',' (j - 1) (by
        rw [hj]; simp only [List.length_cons, List.length_append, List.length_replicate,
          List.length_singleton, List.length_nil]; push_cast; ring)]
      simp only
      have key := ih 0 pre ((',', 1) :: (c, 1) :: suf) (reads ++ [i + 1]) (j - 1 - 1)
        (by omega) (by omega) (by
          rw [hG, hj]; simp only [List.length_cons]; push_cast; ring)
      rw [hG] at key
      have e3 : pre ++ List.replicate G.length ((z, 0) : Char × Nat)
            ++ (',', (z, 0).2 + 1) :: (c, 1) :: suf
          = pre ++ List.replicate G.length (z, 0) ++ (',', 1) :: (c, 1) :: suf := by
        simp
      rw [e3, key, range_succ_reverse]
      simp
    · have hg : groupRevFrom k (c :: (inp.take (i + 1)).reverse)
          = c :: groupRevFrom (k + 1) (inp.take (i + 1)).reverse := by
        rw [hrev2]; simp [groupRevFrom, h3]
      rw [hg] at hj ⊢
      generalize hG : groupRevFrom (k + 1) (inp.take (i + 1)).reverse = G at hj ⊢
      have e1 : pre ++ List.replicate (c :: G).length ((z, 0) : Char × Nat) ++ suf
          = (pre ++ List.replicate G.length (z, 0)) ++ (z, 0) :: suf := by
        simp only [List.length_cons, List.replicate_succ', List.append_assoc,
          List.singleton_append]
      rw [e1, setByteT_at _ suf (z, 0) c j (by
        rw [hj]; simp only [List.length_cons, List.length_append, List.length_replicate,
          List.length_singleton, List.length_nil]; push_cast; ring)]
      simp only [if_neg h3]
      have key := ih (k + 1) pre ((c, 1) :: suf) (reads ++ [i + 1]) (j - 1)
        (by omega) (by omega) (by
          rw [hG, hj]; simp only [List.length_cons]; push_cast; ring)
      rw [hG] at key
      have e3 : pre ++ List.replicate G.length ((z, 0) : Char × Nat)
            ++ (c, (z, 0).2 + 1) :: suf
          = pre ++ List.replicate G.length (z, 0) ++ (c, 1) :: suf := by
        simp
      rw [e3, key, range_succ_reverse]
      simp

theorem formatNumberLoopT_digits (ds : List Char) (pre : List (Char × Nat)) (h : ds ≠ []) :
    formatNumberLoopT ds (ds.length - 1)
      (((pre ++ List.replicate (ds.length + (ds.length - 1) / 3)
        ((Char.ofNat 0, 0) : Char × Nat)).length : Int) - 1)
      0 (pre ++ List.replicate (ds.length + (ds.length - 1) / 3) (Char.ofNat 0, 0)) []
      = some (pre ++ (groupThousands ds).map (fun c => (c, 1)), (List.range ds.length).reverse) := by
  have hpos : 0 < ds.length := List.length_pos.mpr h
  have htake : ds.take (ds.length - 1 + 1) = ds := by
    rw [Nat.sub_add_cancel hpos, List.take_length]
  have hg : groupRevFrom 0 ds.reverse = groupRev ds.reverse :=
    (groupRev_props _ ds.reverse le_rfl).1
  have hgl : (groupRev ds.reverse).length = ds.length + (ds.length - 1) / 3 := by
    rw [(groupRev_props _ ds.reverse le_rfl).2.1, List.length_reverse]
  have key := formatNumberLoopT_spec ds (Char.ofNat 0) (ds.length - 1) 0 pre [] []
    (((pre ++ List.replicate (ds.length + (ds.length - 1) / 3)
        ((Char.ofNat 0, 0) : Char × Nat)).length : Int) - 1)
    (by omega) (by omega) (by
      rw [htake, hg, hgl]
      simp only [List.length_append, List.length_replicate])
  rw [htake, hg, hgl] at key
  simp only [List.append_nil, List.nil_append] at key
  rw [key, Nat.sub_add_cancel hpos]
  rfl

theorem formatNumberT_eq (n : Int) :
    formatNumberT n
      = some (((if n < 0 then ['-'] else []) ++ groupThousands (Nat.repr n.natAbs).data).map
          (fun c => (c, 1)), (List.range (Nat.repr n.natAbs).data.length).reverse) := by
  by_cases hn : n < 0
  · have hd := formatInt_data_neg n hn
    have hne := repr_data_ne_nil n.natAbs
    have hpos : 1 ≤ (Nat.repr n.natAbs).data.length := List.length_pos.mpr hne
    obtain ⟨ds, hds⟩ : ∃ ds, (Nat.repr n.natAbs).data = ds := ⟨_, rfl⟩
    rw [hds] at hd hne hpos ⊢
    have hloop := formatNumberLoopT_digits ds [('-', 1)] hne
    unfold formatNumberT
    simp only [hd, hn, if_true, List.length_cons]
    have e0 : (((ds.length + 1 : Nat) : Int) - 1) = (ds.length : Int) := by push_cast; ring
    rw [e0, numOfCommas_eq ds.length hpos]
    have e1 : (((ds.length + 1 : Nat) : Int) + (((ds.length - 1) / 3 : Nat) : Int))
        = ((1 + (ds.length + (ds.length - 1) / 3) : Nat) : Int) := by push_cast; ring
    rw [e1, if_neg (by omega), Int.toNat_ofNat, if_pos (by omega)]
    have e2 : List.replicate (1 + (ds.length + (ds.length - 1) / 3))
          ((Char.ofNat 0, 0) : Char × Nat)
        = (Char.ofNat 0, 0) :: List.replicate (ds.length + (ds.length - 1) / 3) (Char.ofNat 0, 0) := by
      rw [Nat.add_comm 1, List.replicate_succ]
    rw [e2]
    have e3 : setByteT ((Char.ofNat 0, 0) ::
          List.replicate (ds.length + (ds.length - 1) / 3) ((Char.ofNat 0, 0) : Char × Nat)) 0 '-'
        = some (('-', 1) :: List.replicate (ds.length + (ds.length - 1) / 3) (Char.ofNat 0, 0)) :=
      setByteT_at [] _ (Char.ofNat 0, 0) '-' 0 rfl
    rw [e3]
    simp only [Option.map_some', List.drop_succ_cons, List.drop_zero]
    rw [if_neg (by omega)]
    have e4 : [(('-', 1) : Char × Nat)]
          ++ List.replicate (ds.length + (ds.length - 1) / 3) (Char.ofNat 0, 0)
        = ('-', 1) :: List.replicate (ds.length + (ds.length - 1) / 3) (Char.ofNat 0, 0) := rfl
    rw [e4] at hloop
    rw [hloop]
    rfl
  · have hd := formatInt_data_nonneg n hn
    have hnat : n.toNat = n.natAbs := by omega
    rw [hnat] at hd
    have hne := repr_data_ne_nil n.natAbs
    have hpos : 1 ≤ (Nat.repr n.natAbs).data.length := List.length_pos.mpr hne
    obtain ⟨ds, hds⟩ : ∃ ds, (Nat.repr n.natAbs).data = ds := ⟨_, rfl⟩
    rw [hds] at hd hne hpos ⊢
    have hloop := formatNumberLoopT_digits ds [] hne
    unfold formatNumberT
    simp only [hd, hn, if_false]
    rw [numOfCommas_eq ds.length hpos]
    have e1 : ((ds.length : Int) + (((ds.length - 1) / 3 : Nat) : Int))
        = ((ds.length + (ds.length - 1) / 3 : Nat) : Int) := by push_cast; ring
    rw [e1, if_neg (by omega), Int.toNat_ofNat]
    rw [if_neg (by omega)]
    simp only [List.nil_append] at hloop
    rw [hloop]
    rfl

/-- C19: `formatNumber` has no failure path.  For every integer `n` (so for every
`int64`, zero and the minimum included) the function run on a buffer that counts
the writes returns: no read `in[i]` and no write `out[j]` is out of range.  The
read index `i` takes the values `numOfDigits - 1, ..., 1, 0` in this order, so it
strictly decreases to `0`, where the loop returns.  The buffer has length
`len(in) + (numOfDigits - 1) / 3`, every one of its cells has been written
exactly once, and its contents are what `formatNumber` returns. -/
theorem formatNumber_no_failure (n : Int) :
    ∃ (cells : List (Char × Nat)) (reads : List Nat) (numOfDigits : Nat),
      formatNumberT n = some (cells, reads) ∧
      formatNumber n = some (String.mk (cells.map Prod.fst)) ∧
      (FormatInt n).data.length = numOfDigits + (if n < 0 then 1 else 0) ∧
      0 < numOfDigits ∧
      reads = (List.range numOfDigits).reverse ∧
      reads.Pairwise (fun a b => b < a) ∧ reads.getLast? = some 0 ∧
      cells.length = (FormatInt n).data.length + (numOfDigits - 1) / 3 ∧
      (∀ cell ∈ cells, cell.2 = 1) ∧
      formatNumberT (-1000)
        = some ([('-', 1), ('1', 1), (',', 1), ('0', 1), ('0', 1), ('0', 1)], [3, 2, 1, 0]) := by
  have hne := repr_data_ne_nil n.natAbs
  have hpos : 0 < (Nat.repr n.natAbs).data.length := List.length_pos.mpr hne
  have hfmt : (FormatInt n).data
      = (if n < 0 then ['-'] else []) ++ (Nat.repr n.natAbs).data := by
    by_cases hn : n < 0
    · rw [formatInt_data_neg n hn, if_pos hn]; rfl
    · have hnat : n.toNat = n.natAbs := by omega
      rw [formatInt_data_nonneg n hn, if_neg hn, hnat]; rfl
  refine ⟨_, _, (Nat.repr n.natAbs).data.length, formatNumberT_eq n, ?_, ?_, hpos, rfl, ?_, ?_,
    ?_, ?_, by decide⟩
  · rw [formatNumber_eq_spec]
    congr 1
    apply String.ext
    simp only [List.map_map]
    have : (Prod.fst ∘ fun c : Char => (c, 1)) = id := rfl
    rw [this, List.map_id]
    unfold formatNumberSpec
    by_cases hn : n < 0
    · simp [hn]
    · have hnat : n.toNat = n.natAbs := by omega
      simp [hn, hnat]
  · rw [hfmt]
    by_cases hn : n < 0 <;> simp [hn]
  · rw [List.pairwise_reverse]
    exact List.pairwise_lt_range _
  · obtain ⟨m, hm⟩ : ∃ m, (Nat.repr n.natAbs).data.length = m + 1 := ⟨_, (Nat.succ_pred_eq_of_pos hpos).symm⟩
    rw [hm, List.range_succ_eq_map]
    simp
  · rw [List.length_map, List.length_append, groupThousands_length, hfmt, List.length_append]
    omega
  · intro cell hc
    obtain ⟨c, _, rfl⟩ := List.mem_map.mp hc
    rfl

end CgroupLab
